import Mathlib

/-!
# Layer planner and value store of the `dag` package

A shallow embedding of `dag.go`, `val.go`, `service.go`, `provider.go` and
`utils.go`.

* Go maps are association lists with pairwise distinct keys (`GoMap`); the
  order in which a `range` loop visits a map is not fixed by the language, so
  every loop over a map takes its visiting order from a `RangeOrder`, and the
  theorems quantify over all of them.
* The mutex fields are not modelled: every function below is the sequential
  behaviour of one call.
* The unbounded `for` loop of `Draw` is run with fuel; `Draw` is shown to
  always return with the fuel it is given.
* A behaviour is called with the pointer to the graph, and `Execute` holds no
  lock while it runs: it may read the graph and write it (`Stop`,
  `InitParamsByName`, `ProvideByName`, `DeleteProvider`, `Draw`), and it returns
  a value and an error, or panics. A call is a function from the graph it finds
  to the graph it leaves and its outcome.
* The loop of `Execute` ranges over the plan as it is when the loop begins and
  reads one layer per turn from the array behind it; a `Draw` called by a
  behaviour writes its layers into that array. `Live` carries the array next to
  the graph.
* The goroutines `Execute` starts for a layer are run one at a time, each on the
  graph the one before left, in an order given to `Execute`; the theorems
  quantify over all orders. `Execute` also returns the list of the runs made.
-/

namespace Dag

/-! ## Values and maps -/

/-- Value of Go type `any`: the nil interface, or a value together with the
name of its dynamic type (what `%T` prints). -/
inductive GoAny where
  | nil : GoAny
  | val (typeName : String) (data : Nat) : GoAny
  deriving DecidableEq, Repr

/-- Go `map[string]β` as an association list. -/
abbrev GoMap (β : Type) := List (String × β)

/-- Keys of a map. -/
def GoMap.keys {β : Type} (m : GoMap β) : List String := m.map Prod.fst

/-- `v, ok := m[k]`. -/
def GoMap.find {β : Type} (m : GoMap β) (k : String) : Option β := m.lookup k

/-- `_, ok := m[k]`. -/
def GoMap.has {β : Type} (m : GoMap β) (k : String) : Bool := (m.lookup k).isSome

/-- `m[k] = v`. -/
def GoMap.store {β : Type} (m : GoMap β) (k : String) (v : β) : GoMap β :=
  if m.has k then m.map (fun p => if p.1 == k then (k, v) else p) else m ++ [(k, v)]

/-- `delete(m, k)`. -/
def GoMap.remove {β : Type} (m : GoMap β) (k : String) : GoMap β :=
  m.filter (fun p => p.1 != k)

/-- A map has each key once. -/
def GoMap.WF {β : Type} (m : GoMap β) : Prop := m.keys.Nodup

instance GoMap.decidableWF {β : Type} (m : GoMap β) : Decidable m.WF := by
  unfold GoMap.WF; infer_instance

/-! ## val.go -/

/-- `dagValue`: a locked `map[string]any`. -/
structure dagValue where
  val : GoMap GoAny
  deriving DecidableEq, Repr

def newDagValue : dagValue := { val := [] }

def dagValue.get (dv : dagValue) (key : String) : GoAny × Bool :=
  match dv.val.find key with
  | some v => (v, true)
  | none => (GoAny.nil, false)

/-- `dagValue.set`: the new store; the returned error is always nil. -/
def dagValue.set (dv : dagValue) (key : String) (v : GoAny) : dagValue :=
  { val := dv.val.store key v }

/-! ## service.go -/

/-- Which implementation of `IService` a node is. -/
inductive SvcKind where
  | reflected : SvcKind
  | typed : SvcKind
  deriving DecidableEq, Repr

/-- A node: `*service` or `*serviceT[T]`. `dependence` is the key set of the
`map[string]struct{}`, `fn` identifies the behaviour. -/
structure IService where
  kind : SvcKind
  dependence : List String
  fn : Nat
  produce : String
  pd : Bool
  deriving DecidableEq, Repr

def newService (fn : Nat) (dependence : List String) (produce : String) (pd : Bool) : IService :=
  { kind := SvcKind.reflected, dependence := dependence, fn := fn, produce := produce, pd := pd }

def newServiceT (fn : Nat) (dependence : List String) (produce : String) (pd : Bool) : IService :=
  { kind := SvcKind.typed, dependence := dependence, fn := fn, produce := produce, pd := pd }

/-! ## dag.go -/

abbrev FxOp := String

def fxOpOr : FxOp := "or"

structure operatorCollection where
  handlers : List IService
  op : FxOp
  deriving DecidableEq, Repr

/-- Errors built with `fmt.Errorf` in the package. -/
inductive DagError where
  | unknownDependence (d : String) : DagError
  | cyclicDependence (sdm : GoMap IService) : DagError
  | alreadyExists (name : String) : DagError
  | valueIsNil : DagError
  deriving DecidableEq, Repr

/-- Text of an error; the `%v` rendering of the pending map of the cyclic
error is left out. -/
def DagError.text : DagError → String
  | DagError.unknownDependence d => "依赖项不存在:" ++ d
  | DagError.cyclicDependence _ => "依赖项循环依赖:"
  | DagError.alreadyExists name => "dependence " ++ name ++ " already exists"
  | DagError.valueIsNil => "value is nil"

structure FxDag where
  fnService : GoMap IService
  initVal : dagValue
  val : dagValue
  wList : List operatorCollection
  stopFlag : Nat
  deriving DecidableEq, Repr

def New : FxDag :=
  { fnService := [], val := newDagValue, initVal := newDagValue, wList := [], stopFlag := 0 }

/-- Visiting orders of the map loops of one `Draw` call: `nodes i sdm` is the
order in which pass `i` of the planner visits the pending map `sdm`, `deps i p`
the order in which `getDependence` lists the dependencies of entry `p` then. -/
structure RangeOrder where
  nodes : Nat → GoMap IService → GoMap IService
  deps : Nat → String × IService → List String

/-- Every visiting order lists exactly the entries of the map it ranges over. -/
def RangeOrder.Valid (ro : RangeOrder) : Prop :=
  (∀ i sdm, (ro.nodes i sdm).Perm sdm) ∧ (∀ i p, (ro.deps i p).Perm p.2.dependence)

/-- The order in which the entries are stored. -/
def RangeOrder.stored : RangeOrder :=
  { nodes := fun _ sdm => sdm, deps := fun _ p => p.2.dependence }

/-- Outcome of the dependency loop of `fnsNode` for one node. -/
inductive DepCheck where
  | skip : DepCheck
  | pass : DepCheck
  | fail (d : String) : DepCheck
  deriving DecidableEq, Repr

/-- The inner loop of `fnsNode` over the dependencies of one node. -/
def checkDependence (f : FxDag) (sdm : GoMap IService) (qList : List String) :
    List String → DepCheck
  | [] => DepCheck.pass
  | d :: ds =>
    if sdm.has d then DepCheck.skip
    else if qList.contains d then DepCheck.skip
    else if !(f.initVal.get d).2 && !(f.fnService.has d) then DepCheck.fail d
    else checkDependence f sdm qList ds

/-- Local state of `fnsNode`. -/
structure PassState where
  sdm : GoMap IService
  qList : List String
  ors : List IService
  deriving DecidableEq, Repr

/-- The outer loop of `fnsNode` over the entries still to visit: the local state
when the loop is left, and the error it is left with. -/
def fnsNodeLoop (f : FxDag) (deps : String × IService → List String) :
    GoMap IService → PassState → PassState × Option DagError
  | [], st => (st, none)
  | (k, v) :: rest, st =>
    match checkDependence f st.sdm st.qList (deps (k, v)) with
    | DepCheck.skip => fnsNodeLoop f deps rest st
    | DepCheck.fail d => (st, some (DagError.unknownDependence d))
    | DepCheck.pass =>
      fnsNodeLoop f deps rest
        { sdm := st.sdm.remove k, qList := k :: st.qList, ors := st.ors ++ [v] }

/-- `fnsNode`: one planning pass over the pending map `sdm`, visited in the
order `order` (the loop deletes only the entry it is visiting, so it visits
every entry the map had when the pass began once). Returns the scheduled
nodes, the pending map as the pass left it and the error. -/
def FxDag.fnsNode (f : FxDag) (order : GoMap IService) (deps : String × IService → List String)
    (sdm : GoMap IService) : List IService × GoMap IService × Option DagError :=
  match fnsNodeLoop f deps order { sdm := sdm, qList := [], ors := [] } with
  | (st, some e) => ([], st.sdm, some e)
  | (st, none) =>
    if st.sdm.length > 0 ∧ st.qList.length = 0 then
      (st.ors, st.sdm, some (DagError.cyclicDependence st.sdm))
    else (st.ors, st.sdm, none)

/-- The `for` loop of `Draw`; `none` when the fuel runs out. -/
def drawLoop (f : FxDag) (ro : RangeOrder) :
    Nat → Nat → GoMap IService → List operatorCollection →
      Option (List operatorCollection × Option DagError)
  | 0, _, _, _ => none
  | fuel + 1, i, fns, wList =>
    if fns.length = 0 then some (wList, none)
    else
      match f.fnsNode (ro.nodes i fns) (ro.deps i) fns with
      | (_, _, some err) => some (wList, some err)
      | (ors, fns', none) =>
        if ors.length = 0 then drawLoop f ro fuel (i + 1) fns' wList
        else drawLoop f ro fuel (i + 1) fns' (wList ++ [{ handlers := ors, op := fxOpOr }])

/-- `Draw` with a given amount of fuel for its loop. -/
def FxDag.DrawFuel (f : FxDag) (ro : RangeOrder) (fuel : Nat) : Option (FxDag × Option DagError) :=
  if f.fnService.length = 0 then some (f, none)
  else
    match drawLoop f ro fuel 0 f.fnService [] with
    | none => none
    | some (wList, err) => some ({ f with wList := wList }, err)

/-- `Draw`: the graph afterwards and the returned error. -/
def FxDag.Draw (f : FxDag) (ro : RangeOrder) : Option (FxDag × Option DagError) :=
  f.DrawFuel ro (f.fnService.length + 1)

def FxDag.seInitVal (f : FxDag) (name : String) (v : GoAny) : FxDag :=
  { f with initVal := f.initVal.set name v }

def FxDag.setVal (f : FxDag) (name : String) (v : GoAny) : FxDag :=
  { f with val := f.val.set name v }

def FxDag.getVal (f : FxDag) (name : String) : GoAny × Bool :=
  match f.val.get name with
  | (r, true) => (r, true)
  | (_, false) => f.initVal.get name

def FxDag.Load (f : FxDag) (name : String) : GoAny × Bool := f.getVal name

def FxDag.set (f : FxDag) (name : String) (v : IService) : FxDag :=
  { f with fnService := f.fnService.store name v }

def FxDag.delete (f : FxDag) (name : String) : FxDag :=
  { f with fnService := f.fnService.remove name }

def FxDag.exists (f : FxDag) (name : String) : Bool := f.fnService.has name

/-! ## provider.go -/

def generateName (v : GoAny) : Except DagError String :=
  match v with
  | GoAny.val typeName _ => Except.ok typeName
  | GoAny.nil => Except.error DagError.valueIsNil

def FxDag.InitParamsByName (f : FxDag) (name : String) (v : GoAny) : FxDag × Option DagError :=
  match generateName v with
  | Except.error err => (f, some err)
  | Except.ok _ => (f.seInitVal name v, none)

/-- The `dep` map built by `ProvideByName` from its variadic argument. -/
def depSet (depName : List String) : GoMap Unit :=
  depName.foldl (fun dep v => dep.store v ()) []

/-- `getFxConcurrenceOrDefault`: the graph passed, or the default graph when
the pointer passed is nil. -/
def getFxConcurrenceOrDefault (i : Option FxDag) (DefaultDag : FxDag) : FxDag :=
  match i with
  | some f => f
  | none => DefaultDag

/-- `ProvideByName` on the graph `f` that `getFxConcurrenceOrDefault` selects:
the graph afterwards and the returned error. `handler` identifies the
behaviour registered. -/
def ProvideByName (f : FxDag) (name : String) (handler : Nat) (depName : List String) :
    FxDag × Option DagError :=
  if f.exists name then (f, some (DagError.alreadyExists name))
  else (f.set name (newServiceT handler (depSet depName).keys name true), none)

def FxDag.DeleteProvider (f : FxDag) (name : String) : FxDag := f.delete name

def FxDag.Clear (f : FxDag) : FxDag := { f with fnService := [] }

/-! ## Vocabulary of the specification -/

/-- The layers of the stored plan. -/
def FxDag.layers (f : FxDag) : List (List IService) := f.wList.map (fun c => c.handlers)

/-- The plan made of the given layers. -/
def wrap (ls : List (List IService)) : List operatorCollection :=
  ls.map (fun ors => { handlers := ors, op := fxOpOr })

/-- Key `d` is neither in the initial tier nor registered: the test of
`fnsNode` that raises the unknown-dependency error. -/
def FxDag.unknown (f : FxDag) (d : String) : Bool :=
  !(f.initVal.get d).2 && !(f.fnService.has d)

/-- Node `n` has a dependency that is a key of the pending map `P`. -/
def blocked (P : GoMap IService) (n : IService) : Bool :=
  n.dependence.any (fun d => P.has d)

/-- Entries of the pending map none of whose dependencies is pending. -/
def layerOf (P : GoMap IService) : GoMap IService := P.filter (fun p => !blocked P p.2)

/-- Entries of the pending map that wait for a pending key. -/
def restOf (P : GoMap IService) : GoMap IService := P.filter (fun p => blocked P p.2)

/-- The dependency loop run against the pending map as it was when the pass began. -/
def checkFixed (f : FxDag) (P : GoMap IService) : List String → DepCheck
  | [] => DepCheck.pass
  | d :: ds =>
    if P.has d then DepCheck.skip
    else if f.unknown d then DepCheck.fail d
    else checkFixed f P ds

/-- Invariant of the outer loop of `fnsNode` on the pending map `P`. -/
def PassInv (P : GoMap IService) (st : PassState) : Prop :=
  st.sdm = P.filter (fun p => !st.qList.contains p.1) ∧ ∀ k ∈ st.qList, k ∈ P.keys

/-- `Reach f P ls P'`: error-free passes starting from the pending map `P`
produce the layers `ls` and leave the pending map `P'`. -/
inductive Reach (f : FxDag) : GoMap IService → List (List IService) → GoMap IService → Prop
  | refl (P : GoMap IService) : Reach f P [] P
  | step (P : GoMap IService) (ors : List IService) (ls : List (List IService))
      (P' : GoMap IService) :
      P ≠ [] → ors.Perm ((layerOf P).map Prod.snd) → ors ≠ [] →
      (∀ p ∈ P, blocked P p.2 = false → ∀ d ∈ p.2.dependence, f.unknown d = false) →
      Reach f (restOf P) ls P' → Reach f P (ors :: ls) P'

/-- The pass on the pending map `P` fails with `e`. -/
def Stuck (f : FxDag) (P : GoMap IService) (e : DagError) : Prop :=
  (∃ d, e = DagError.unknownDependence d ∧ f.unknown d = true ∧ ∃ p ∈ P, d ∈ p.2.dependence) ∨
  (e = DagError.cyclicDependence P ∧ P ≠ [] ∧ ∀ p ∈ P, blocked P p.2 = true)

/-- Every dependency key of every registered node is registered or seeded. -/
def FxDag.Resolvable (f : FxDag) : Prop :=
  ∀ p ∈ f.fnService, ∀ d ∈ p.2.dependence, f.fnService.has d = true ∨ (f.initVal.get d).2 = true

instance FxDag.decidableResolvable (f : FxDag) : Decidable f.Resolvable := by
  unfold FxDag.Resolvable; infer_instance

/-- The node registered under `k` declares the registered key `d` as a dependency. -/
def DependsOn (reg : GoMap IService) (k d : String) : Prop :=
  ∃ n, reg.find k = some n ∧ d ∈ n.dependence ∧ reg.has d = true

/-- Some registered key reaches itself along `DependsOn` in one or more steps. -/
def HasCycle (reg : GoMap IService) : Prop :=
  ∃ k, Relation.TransGen (DependsOn reg) k k

/-- The registry as the registration functions leave it: each key once, and
each node registered under the key it produces. -/
def FxDag.RegistryOK (f : FxDag) : Prop :=
  f.fnService.WF ∧ ∀ p ∈ f.fnService, p.2.produce = p.1

instance FxDag.decidableRegistryOK (f : FxDag) : Decidable f.RegistryOK := by
  unfold FxDag.RegistryOK; infer_instance

/-! ## Concrete graphs -/

/-- Registry `A` (no dependency), `B` (depends on `A`). -/
def exAB : FxDag := (ProvideByName (ProvideByName New "A" 1 []).1 "B" 2 ["A"]).1

/-- The graph `exAB` after `Draw`. -/
def exABdrawn : FxDag :=
  { exAB with wList := wrap [[newServiceT 1 [] "A" true], [newServiceT 2 ["A"] "B" true]] }

/-- Registry `A` (depends on `B`), `B` (depends on `A`). -/
def exCycle : FxDag := (ProvideByName (ProvideByName New "A" 1 ["B"]).1 "B" 2 ["A"]).1

/-- Registry with the single node `A`, which depends on itself and on the
unregistered, unseeded key `X`. -/
def exSelfX : FxDag := (ProvideByName New "A" 1 ["A", "X"]).1

/-- Registry with the single node `A`, which depends on the unregistered,
unseeded key `X`. -/
def exX : FxDag := (ProvideByName New "A" 1 ["X"]).1

/-- Registry with the single node `A` without dependency. -/
def exA : FxDag := (ProvideByName New "A" 1 []).1

/-- The graph `exA` after `Draw`: the plan is the one layer `[A]`. -/
def exAdrawn : FxDag := { exA with wList := wrap [[newServiceT 1 [] "A" true]] }

/-- The drawn graph `exAdrawn` after `DeleteProvider("A")`: the registry is
empty, the plan of the earlier `Draw` is still stored. -/
def exStale : FxDag := exAdrawn.DeleteProvider "A"

/-- The drawn graph `exAdrawn` after registering `B` with the unregistered,
unseeded dependency `X`. -/
def exAthenBX : FxDag := (ProvideByName exAdrawn "B" 2 ["X"]).1

/-- The drawn graph `exABdrawn` after `DeleteProvider("A")` and
`DeleteProvider("B")`: the registry is empty, the plan `[A], [B]` of the earlier
`Draw` is still stored. -/
def exStaleAB : FxDag := (exABdrawn.DeleteProvider "A").DeleteProvider "B"

/-- The graph `exAthenBX` after the failing `Draw`: the plan is empty. -/
def exAthenBXfailed : FxDag := { exAthenBX with wList := [] }

/-- A store whose produced tier already holds a value for `K`. -/
def exProduced : FxDag := New.setVal "K" (GoAny.val "string" 1)

/-- Every map visited in the reverse of the order in which it is stored. -/
def RangeOrder.reversed : RangeOrder :=
  { nodes := fun _ sdm => sdm.reverse, deps := fun _ p => p.2.dependence.reverse }

/-- Registry `A`, `B` (no dependency), `C` (depends on `A` and `B`). -/
def exABC : FxDag :=
  (ProvideByName (ProvideByName (ProvideByName New "A" 1 []).1 "B" 2 []).1 "C" 3 ["A", "B"]).1

/-- The graph `exABC` after `Draw` in stored order. -/
def exABCdrawn : FxDag :=
  { exABC with wList := wrap [[newServiceT 1 [] "A" true, newServiceT 2 [] "B" true],
      [newServiceT 3 ["A", "B"] "C" true]] }

/-- The graph `exABCdrawn` after a second `Draw` in reversed order. -/
def exABCredrawn : FxDag :=
  { exABC with wList := wrap [[newServiceT 2 [] "B" true, newServiceT 1 [] "A" true],
      [newServiceT 3 ["A", "B"] "C" true]] }

/-- A store whose produced tier holds nil for `K` and whose initial tier holds
a value for `K`. -/
def exNilProduced : FxDag :=
  ((New.InitParamsByName "K" (GoAny.val "string" 1)).1).setVal "K" GoAny.nil

/-- The `for` loop of `Draw` with its `len(ors) == 0` branch cut out: where
`drawLoop` would `continue` with an empty layer, this loop gives up. -/
def drawLoopCut (f : FxDag) (ro : RangeOrder) :
    Nat → Nat → GoMap IService → List operatorCollection →
      Option (List operatorCollection × Option DagError)
  | 0, _, _, _ => none
  | fuel + 1, i, fns, wList =>
    if fns.length = 0 then some (wList, none)
    else
      match f.fnsNode (ro.nodes i fns) (ro.deps i) fns with
      | (_, _, some err) => some (wList, some err)
      | (ors, fns', none) =>
        if ors.length = 0 then none
        else drawLoopCut f ro fuel (i + 1) fns' (wList ++ [{ handlers := ors, op := fxOpOr }])

/-- A dependency chain of registered keys: each key's node declares the next
key as a dependency. -/
def IsChain (reg : GoMap IService) (ks : List String) : Prop :=
  List.Chain' (DependsOn reg) ks ∧ ∀ k ∈ ks, reg.has k = true

/-! ## Execution: utils.go, service.go, Execute -/

/-- Errors that come out of running a node: an error value returned by a
behaviour, or the error `SafeFn` makes of a recovered panic. -/
inductive GoError where
  | returned (code : Nat) : GoError
  | panic (v : String) : GoError
  deriving DecidableEq, Repr

/-- Text of an execution error; `returned` errors are the behaviour's own. -/
def GoError.text : GoError → String
  | GoError.returned _ => "error"
  | GoError.panic v => "panic: " ++ v

/-- How a call of a behaviour ends: it returns a value and an error, or it
panics with a value whose `%v` rendering is `v`. -/
inductive Outcome where
  | ret (v : GoAny) (err : Option GoError) : Outcome
  | panic (v : String) : Outcome
  deriving DecidableEq, Repr

/-- Result of a `func() error`: the error it returns, or a panic. -/
inductive FnResult where
  | returned (err : Option GoError) : FnResult
  | panicked (v : String) : FnResult
  deriving DecidableEq, Repr

/-- The graph as a node of a running `Execute` finds it, and may leave it
changed: `fn(ctx, dag)` is handed the pointer to the graph, and `Execute` holds
no lock while the nodes run. `dag` is the graph. `arr` holds the layers that the
loop `for _, v := range f.wList` reads: `range` evaluates `f.wList` once, so the
loop makes as many turns as the plan had layers when it began and reads its
layer for turn `i` from place `i` of the array that was behind `f.wList` then.
A `Draw` called meanwhile truncates `f.wList` and appends to it in that same
array while the capacity lasts, so it changes `arr` as well as `dag.wList`. -/
structure Live where
  dag : FxDag
  arr : List operatorCollection
  deriving DecidableEq, Repr

/-- The behaviours behind the identifiers `IService.fn`. `handler id w` is the
call `fn(ctx, dag)` of an `FxHandler[T]` on the graph `w`: the graph as the call
leaves it, and how the call ends. For a reflected function, `reflIn id` lists
the names of the parameter types after the context, `reflOut id` is `NumOut()`,
and `reflCall id w params` is `_f.Call(params)` on the graph `w` (a function
value may hold the pointer to the graph): the graph as the call leaves it, and
the first result with, as the error, the last result, or the panic. -/
structure Behaviours where
  handler : Nat → Live → Live × Outcome
  reflIn : Nat → List String
  reflOut : Nat → Nat
  reflCall : Nat → Live → List GoAny → Live × Outcome

/-- `SafeFn`: the error of `fn`, or the error made of its panic (the value
`recover` reports is taken to be non-nil). -/
def SafeFn : FnResult → Option GoError
  | FnResult.returned err => err
  | FnResult.panicked v => some (GoError.panic v)

/-- The graph `w` after `dag.val.set(key, v)`. -/
def Live.store (w : Live) (key : String) (v : GoAny) : Live :=
  { w with dag := { w.dag with val := w.dag.val.set key v } }

/-- `(*serviceT[T]).execute`: the graph afterwards and how the call ended. The
value is stored in the graph as the handler left it. -/
def serviceT.execute (b : Behaviours) (s : IService) (w : Live) : Live × FnResult :=
  let r := b.handler s.fn w
  match r.2 with
  | Outcome.panic v => (r.1, FnResult.panicked v)
  | Outcome.ret _ (some err) => (r.1, FnResult.returned (some err))
  | Outcome.ret v none =>
    if !s.pd then (r.1, FnResult.returned none)
    else (r.1.store s.produce v, FnResult.returned none)

/-- The parameters `executeReflect` builds after the context: the values
`getVal` finds for the parameter types, in order; a type without a value adds
no parameter. -/
def service.params (b : Behaviours) (s : IService) (dag : FxDag) : List GoAny :=
  (b.reflIn s.fn).filterMap (fun t =>
    match dag.getVal t with
    | (v, true) => some v
    | (_, false) => none)

/-- `(*service).executeReflect`. The branch `!ok && callErr != nil` cannot be
taken (a failed type assertion leaves `callErr` nil) and is left out. -/
def service.executeReflect (b : Behaviours) (s : IService) (w : Live) : Live × FnResult :=
  let r := b.reflCall s.fn w (service.params b s w.dag)
  match r.2 with
  | Outcome.panic v => (r.1, FnResult.panicked v)
  | Outcome.ret v callErr =>
    if b.reflOut s.fn = 0 ∨ s.pd = false then (r.1, FnResult.returned none)
    else
      match callErr with
      | some err => (r.1, FnResult.returned (some err))
      | none =>
        if b.reflOut s.fn > 1 then
          ({ r.1 with dag := r.1.dag.setVal s.produce v }, FnResult.returned none)
        else (r.1, FnResult.returned none)

/-- `execute` of a node: `(*service).execute` of a service made by
`callFuncParams` (its `fn` is a `reflect.Value`) goes to `executeReflect`. -/
def IService.execute (b : Behaviours) (s : IService) (w : Live) : Live × FnResult :=
  match s.kind with
  | SvcKind.reflected => service.executeReflect b s w
  | SvcKind.typed => serviceT.execute b s w

/-- One node run: the node, the graph it was invoked on, how it ended. -/
structure ExecEvent where
  node : IService
  seen : Live
  result : FnResult
  deriving DecidableEq, Repr

/-- The goroutines `errGo.Go` starts for one layer and the `errGo.Wait()` that
joins them. The nodes run one at a time in the order `order`, each on the graph
the one before left; the error of `Wait` is the first error in that order.
Returns the graph afterwards, the error and the runs made. -/
def runLayer (b : Behaviours) : List IService → Live → Live × Option GoError × List ExecEvent
  | [], w => (w, none, [])
  | s :: rest, w =>
    let r := s.execute b w
    let r' := runLayer b rest r.1
    (r'.1,
      (match SafeFn r.2 with
        | some e => some e
        | none => r'.2.1),
      { node := s, seen := w, result := r.2 } :: r'.2.2)

/-- The loop `for _, v := range f.wList` of `Execute`: `n` turns from turn `i`
on; `run i handlers` is the order in which the goroutines of turn `i` get to
run. Turn `i` reads its layer from place `i` of the array, as the nodes run so
far have left it, and the stop flag from the graph as they have left it. -/
def executeLoop (b : Behaviours) (run : Nat → List IService → List IService) :
    Nat → Nat → Live → Live × Option GoError × List ExecEvent
  | 0, _, w => (w, none, [])
  | n + 1, i, w =>
    match w.arr[i]? with
    | none => (w, none, [])
    | some v =>
      if v.handlers.length = 0 then executeLoop b run n (i + 1) w
      else if w.dag.stopFlag > 0 then (w, none, [])
      else
        match runLayer b (run i v.handlers) w with
        | (w', some err, tr) => (w', some err, tr)
        | (w', none, tr) =>
          let r := executeLoop b run n (i + 1) w'
          (r.1, r.2.1, tr ++ r.2.2)

/-- The graph as `Execute` finds it when it begins: the loop reads the plan
stored in the graph. -/
def FxDag.live (f : FxDag) : Live := { dag := f, arr := f.wList }

/-- `Execute`: the graph afterwards (the deferred function has cleared the stop
flag), the returned error, and the runs made. The loop makes one turn for each
layer the plan has when `Execute` begins. -/
def FxDag.Execute (f : FxDag) (b : Behaviours) (run : Nat → List IService → List IService) :
    FxDag × Option GoError × List ExecEvent :=
  let r := if f.wList.length = 0 then (f.live, none, [])
    else executeLoop b run f.wList.length 0 f.live
  ({ r.1.dag with stopFlag := 0 }, r.2.1, r.2.2)

/-- `Stop`. -/
def FxDag.Stop (f : FxDag) : FxDag := { f with stopFlag := 1 }

/-- The layers `new` written over the places of `old` from the first on, as
`append` writes them into an array with room for them; a place beyond `new`
keeps its layer, and the loop reads no place beyond `old`. -/
def overwrite : List operatorCollection → List operatorCollection → List operatorCollection
  | [], _ => []
  | o :: old, [] => o :: old
  | _ :: old, n :: new => n :: overwrite old new

/-- `dag.Draw()` called by a behaviour while `Execute` runs, on a plan whose
array has room for the new layers (`New` makes it with room for ten): the new
plan is stored in the graph and its layers are written over the array the loop
of `Execute` reads. -/
def Live.Draw (w : Live) (ro : RangeOrder) : Live :=
  match w.dag.Draw ro with
  | some (d, _) => { dag := d, arr := overwrite w.arr d.wList }
  | none => w

/-- The behaviours leave alone what `Execute` and `Load` read: no call changes
the layers the loop has still to read, the stop flag or a value tier. Such
behaviours call neither `Stop`, nor a `Draw` that changes the plan, nor
`InitParamsByName`, nor `Execute`; they may register and delete nodes. -/
def Behaviours.Steady (b : Behaviours) : Prop :=
  (∀ id w, (b.handler id w).1.arr = w.arr ∧
    (b.handler id w).1.dag.stopFlag = w.dag.stopFlag ∧
    (b.handler id w).1.dag.val = w.dag.val ∧
    (b.handler id w).1.dag.initVal = w.dag.initVal) ∧
  (∀ id w ps, (b.reflCall id w ps).1.arr = w.arr ∧
    (b.reflCall id w ps).1.dag.stopFlag = w.dag.stopFlag ∧
    (b.reflCall id w ps).1.dag.val = w.dag.val ∧
    (b.reflCall id w ps).1.dag.initVal = w.dag.initVal)

/-- Every layer is run in an order that lists exactly its nodes. -/
def RunValid (run : Nat → List IService → List IService) : Prop :=
  ∀ i l, (run i l).Perm l

/-- `Chained b s tr t`: the runs `tr` follow one another from the graph `s` to
the graph `t`, each invoked on the graph the one before left. -/
def Chained (b : Behaviours) : Live → List ExecEvent → Live → Prop
  | s, [], t => t = s
  | s, ev :: tr, t =>
    ev.seen = s ∧ ev.result = (ev.node.execute b s).2 ∧ Chained b (ev.node.execute b s).1 tr t

/-- The nodes of the layers in the order in which `Execute` runs them, layer
after layer from index `i`. -/
def schedule (run : Nat → List IService → List IService) : Nat → List (List IService) →
    List IService
  | _, [] => []
  | i, l :: ls => run i l ++ schedule run (i + 1) ls

/-- Every layer run in the order in which it is stored. -/
def runStored : Nat → List IService → List IService := fun _ l => l

/-- Handlers of `TestFxDag_ExecuteHandler`: `A` returns a value, `B` returns
the value it loads for `A`. -/
def exBehaviours : Behaviours :=
  { handler := fun id w =>
      (w, if id = 1 then Outcome.ret (GoAny.val "*dag.A" 10) none
        else Outcome.ret (w.dag.Load "A").1 none)
    reflIn := fun _ => []
    reflOut := fun _ => 0
    reflCall := fun _ w _ => (w, Outcome.ret GoAny.nil none) }

/-- The node `WrapperDagHandlerNoName(dag, fn)` registers for a function
`fn(ctx) error`: a reflected service that stores no output. -/
def exNoName : IService := newService 5 [] "0xc000012345" false

/-- Behaviours in which every function returns the error numbered 7. -/
def exFailing : Behaviours :=
  { handler := fun _ w => (w, Outcome.ret GoAny.nil (some (GoError.returned 7)))
    reflIn := fun _ => []
    reflOut := fun _ => 1
    reflCall := fun _ w _ => (w, Outcome.ret GoAny.nil (some (GoError.returned 7))) }

/-- Registry `A` (no dependency), `B` (depends on `A`), `C` (depends on `B`),
drawn: three layers. -/
def exChain : FxDag :=
  { (ProvideByName (ProvideByName (ProvideByName New "A" 1 []).1 "B" 2 ["A"]).1 "C" 3 ["B"]).1
    with wList := wrap [[newServiceT 1 [] "A" true], [newServiceT 2 ["A"] "B" true],
      [newServiceT 3 ["B"] "C" true]] }

/-- Behaviours in which handler 2 returns the error numbered 7 and every other
handler returns a value. -/
def exFailSecond : Behaviours :=
  { handler := fun id w =>
      (w, if id = 2 then Outcome.ret GoAny.nil (some (GoError.returned 7))
        else Outcome.ret (GoAny.val "int" id) none)
    reflIn := fun _ => []
    reflOut := fun _ => 0
    reflCall := fun _ w _ => (w, Outcome.ret GoAny.nil none) }

/-- Behaviours in which handler 1 calls `dag.Stop()` and returns a value,
handler 2 returns the error numbered 7 and every other handler returns a
value. -/
def exStopThenFail : Behaviours :=
  { handler := fun id w =>
      (if id = 1 then { w with dag := w.dag.Stop } else w,
        if id = 2 then Outcome.ret GoAny.nil (some (GoError.returned 7))
        else Outcome.ret (GoAny.val "int" id) none)
    reflIn := fun _ => []
    reflOut := fun _ => 0
    reflCall := fun _ w _ => (w, Outcome.ret GoAny.nil none) }

/-- Registry `A`, `B`, `C` without dependency, drawn: one layer. `A` is a
service made of a reflected function, registered under its key as
`wrapperDagHandlerByName` does; `B` and `C` are registered by `ProvideByName`. -/
def exTrio : FxDag :=
  { (ProvideByName (ProvideByName (New.set "A" (newService 1 [] "A" true)) "B" 2 []).1
      "C" 3 []).1
    with wList := wrap [[newService 1 [] "A" true, newServiceT 2 [] "B" true,
      newServiceT 3 [] "C" true]] }

/-- Behaviours in which handler 2 panics and every other handler returns a
value; every reflected function has two results and returns a value. -/
def exPanicSecond : Behaviours :=
  { handler := fun id w =>
      (w, if id = 2 then Outcome.panic "boom" else Outcome.ret (GoAny.val "int" id) none)
    reflIn := fun _ => []
    reflOut := fun _ => 2
    reflCall := fun id w _ => (w, Outcome.ret (GoAny.val "int" id) none) }

/-- Registry `A` (no dependency), `B` and `C` (each depends on `A`), drawn: two
layers. -/
def exFan : FxDag :=
  { (ProvideByName (ProvideByName (ProvideByName New "A" 1 []).1 "B" 2 ["A"]).1 "C" 3 ["A"]).1
    with wList := wrap [[newServiceT 1 [] "A" true],
      [newServiceT 2 ["A"] "B" true, newServiceT 3 ["A"] "C" true]] }

/-- Behaviours in which handler 1 calls `dag.Stop()` and returns a value,
handler 2 panics and every other handler returns a value. -/
def exStopThenPanic : Behaviours :=
  { handler := fun id w =>
      (if id = 1 then { w with dag := w.dag.Stop } else w,
        if id = 2 then Outcome.panic "boom" else Outcome.ret (GoAny.val "int" id) none)
    reflIn := fun _ => []
    reflOut := fun _ => 0
    reflCall := fun _ w _ => (w, Outcome.ret GoAny.nil none) }

/-- The graph `w` after `ProvideByName(dag, "Z", h3)`,
`ProvideByName(dag, "Y", h4, "Z")` and `dag.Draw()`, called by a behaviour. -/
def exRegisterAndDraw (w : Live) : Live :=
  Live.Draw { w with dag := (ProvideByName (ProvideByName w.dag "Z" 3 []).1 "Y" 4 ["Z"]).1 }
    RangeOrder.stored

/-- Behaviours in which every handler returns a value; handler 1 first
registers `Z` (no dependency) and `Y` (depends on `Z`) and calls `Draw`. -/
def exReplan : Behaviours :=
  { handler := fun id w =>
      (if id = 1 then exRegisterAndDraw w else w, Outcome.ret (GoAny.val "int" id) none)
    reflIn := fun _ => []
    reflOut := fun _ => 0
    reflCall := fun _ w _ => (w, Outcome.ret GoAny.nil none) }

/-! # Theorems -/

/-! ## Maps -/

theorem GoMap.has_iff_mem_keys {β : Type} (m : GoMap β) (k : String) :
    m.has k = true ↔ k ∈ m.keys := by
  induction m with
  | nil => simp [GoMap.has, GoMap.keys]
  | cons p m ih =>
    obtain ⟨a, b⟩ := p
    simp only [GoMap.has, GoMap.keys, List.lookup_cons, List.map_cons, List.mem_cons] at ih ⊢
    by_cases h : k = a
    · subst h; simp
    · have h' : (k == a) = false := by simpa using h
      rw [h']; simp only [h, false_or]; exact ih

theorem GoMap.has_eq_false_iff {β : Type} (m : GoMap β) (k : String) :
    m.has k = false ↔ k ∉ m.keys := by
  rw [← GoMap.has_iff_mem_keys]; simp

theorem GoMap.mem_of_find {β : Type} (m : GoMap β) (k : String) (v : β)
    (h : m.find k = some v) : (k, v) ∈ m := by
  induction m with
  | nil => simp [GoMap.find] at h
  | cons p m ih =>
    obtain ⟨a, b⟩ := p
    simp only [GoMap.find, List.lookup_cons] at h ih
    by_cases hk : k = a
    · subst hk; simp at h; subst h; simp
    · have h' : (k == a) = false := by simpa using hk
      rw [h'] at h
      exact List.mem_cons_of_mem _ (ih h)

theorem GoMap.find_of_mem {β : Type} (m : GoMap β) (hm : m.WF) (k : String) (v : β)
    (h : (k, v) ∈ m) : m.find k = some v := by
  induction m with
  | nil => simp at h
  | cons p m ih =>
    obtain ⟨a, b⟩ := p
    simp only [GoMap.WF, GoMap.keys, List.map_cons, List.nodup_cons] at hm
    simp only [GoMap.find, List.lookup_cons]
    rcases List.mem_cons.1 h with h1 | h2
    · cases h1; simp
    · have hne : k ≠ a := by
        intro hka
        exact hm.1 (List.mem_map.2 ⟨(k, v), h2, hka⟩)
      have h' : (k == a) = false := by simpa using hne
      rw [h']
      exact ih hm.2 h2

theorem GoMap.mem_keys_of_mem {β : Type} (m : GoMap β) (p : String × β) (h : p ∈ m) :
    p.1 ∈ m.keys := List.mem_map.2 ⟨p, h, rfl⟩

theorem GoMap.entry_unique {β : Type} (m : GoMap β) (hm : m.WF) (k : String) (v w : β)
    (hv : (k, v) ∈ m) (hw : (k, w) ∈ m) : v = w := by
  have h1 := GoMap.find_of_mem m hm k v hv
  have h2 := GoMap.find_of_mem m hm k w hw
  rw [h1] at h2; exact Option.some.inj h2

theorem GoMap.WF_filter {β : Type} (m : GoMap β) (hm : m.WF) (q : String × β → Bool) :
    GoMap.WF (m.filter q) := by
  unfold GoMap.WF GoMap.keys at *
  exact List.Nodup.sublist (List.Sublist.map _ (List.filter_sublist m)) hm

theorem checkDependence_eq_checkFixed (f : FxDag) (P sdm : GoMap IService) (qList : List String)
    (h : ∀ d, (sdm.has d || qList.contains d) = P.has d) (ds : List String) :
    checkDependence f sdm qList ds = checkFixed f P ds := by
  induction ds with
  | nil => rfl
  | cons d ds ih =>
    have hd := h d
    simp only [checkDependence, checkFixed, FxDag.unknown, ih]
    split_ifs with h1 h2 h3 h4 h5 h6 <;> simp_all

theorem checkFixed_skip (f : FxDag) (P : GoMap IService) (ds : List String)
    (h : checkFixed f P ds = DepCheck.skip) : ∃ d ∈ ds, P.has d = true := by
  induction ds with
  | nil => simp [checkFixed] at h
  | cons d ds ih =>
    simp only [checkFixed] at h
    by_cases h1 : P.has d = true
    · exact ⟨d, List.mem_cons_self _ _, h1⟩
    · simp only [h1] at h
      by_cases h2 : f.unknown d = true
      · simp [h2] at h
      · simp only [h2] at h
        obtain ⟨x, hx, hxP⟩ := ih h
        exact ⟨x, List.mem_cons_of_mem _ hx, hxP⟩

theorem checkFixed_pass (f : FxDag) (P : GoMap IService) (ds : List String)
    (h : checkFixed f P ds = DepCheck.pass) :
    ∀ d ∈ ds, P.has d = false ∧ f.unknown d = false := by
  induction ds with
  | nil => simp
  | cons d ds ih =>
    simp only [checkFixed] at h
    by_cases h1 : P.has d = true
    · simp [h1] at h
    · simp only [h1] at h
      by_cases h2 : f.unknown d = true
      · simp [h2] at h
      · simp only [h2] at h
        intro x hx
        rcases List.mem_cons.1 hx with rfl | hx
        · exact ⟨by simpa using h1, by simpa using h2⟩
        · exact ih h x hx

theorem checkFixed_fail (f : FxDag) (P : GoMap IService) (ds : List String) (x : String)
    (h : checkFixed f P ds = DepCheck.fail x) : x ∈ ds ∧ f.unknown x = true := by
  induction ds with
  | nil => simp [checkFixed] at h
  | cons d ds ih =>
    simp only [checkFixed] at h
    by_cases h1 : P.has d = true
    · simp [h1] at h
    · simp only [h1] at h
      by_cases h2 : f.unknown d = true
      · simp only [h2, if_true] at h
        cases h
        exact ⟨List.mem_cons_self _ _, h2⟩
      · simp only [h2] at h
        exact ⟨List.mem_cons_of_mem _ (ih h).1, (ih h).2⟩

theorem blocked_iff (P : GoMap IService) (n : IService) :
    blocked P n = true ↔ ∃ d ∈ n.dependence, P.has d = true := by
  simp [blocked]

theorem blocked_eq_false_iff (P : GoMap IService) (n : IService) :
    blocked P n = false ↔ ∀ d ∈ n.dependence, P.has d = false := by
  simp [blocked]

theorem PassInv.has_eq {P : GoMap IService} {st : PassState} (h : PassInv P st) (d : String) :
    (st.sdm.has d || st.qList.contains d) = P.has d := by
  obtain ⟨h1, h2⟩ := h
  by_cases hq : d ∈ st.qList
  · have : P.has d = true := (GoMap.has_iff_mem_keys P d).2 (h2 d hq)
    simp [this, hq]
  · have hc : st.qList.contains d = false := by simpa using hq
    rw [hc, Bool.or_false]
    by_cases hP : P.has d = true
    · rw [hP]
      rw [GoMap.has_iff_mem_keys] at hP ⊢
      obtain ⟨p, hp, hpd⟩ := List.mem_map.1 hP
      rw [h1]
      refine List.mem_map.2 ⟨p, List.mem_filter.2 ⟨hp, ?_⟩, hpd⟩
      rw [hpd]; simp [hq]
    · have hP' : P.has d = false := by simpa using hP
      rw [hP']
      rw [GoMap.has_eq_false_iff] at hP' ⊢
      intro hmem
      obtain ⟨p, hp, hpd⟩ := List.mem_map.1 hmem
      rw [h1] at hp
      exact hP' (List.mem_map.2 ⟨p, (List.mem_filter.1 hp).1, hpd⟩)

theorem PassInv.step {P : GoMap IService} {st : PassState} (h : PassInv P st) (k : String)
    (v : IService) (hk : k ∈ P.keys) :
    PassInv P { sdm := st.sdm.remove k, qList := k :: st.qList, ors := st.ors ++ [v] } := by
  obtain ⟨h1, h2⟩ := h
  refine ⟨?_, ?_⟩
  · simp only [GoMap.remove, h1, List.filter_filter]
    apply List.filter_congr
    intro p _
    by_cases hpk : p.1 = k
    · simp [hpk]
    · have : (p.1 == k) = false := by simpa using hpk
      simp [hpk, List.contains_cons, this, Bool.and_comm]
  · intro x hx
    rcases List.mem_cons.1 hx with rfl | hx
    · exact hk
    · exact h2 x hx

theorem fnsNodeLoop_spec (f : FxDag) (deps : String × IService → List String)
    (P : GoMap IService) (hdeps : ∀ p, (deps p).Perm p.2.dependence) :
    ∀ (rest : GoMap IService) (st st' : PassState) (r : Option DagError),
      PassInv P st → (∀ p ∈ rest, p.1 ∈ P.keys) → fnsNodeLoop f deps rest st = (st', r) →
      (r = none →
        st'.ors = st.ors ++ (rest.filter (fun p => !blocked P p.2)).map Prod.snd ∧
        st'.qList = ((rest.filter (fun p => !blocked P p.2)).map Prod.fst).reverse ++ st.qList ∧
        PassInv P st' ∧
        ∀ p ∈ rest, blocked P p.2 = false → ∀ d ∈ p.2.dependence, f.unknown d = false) ∧
      (∀ e, r = some e → ∃ d, e = DagError.unknownDependence d ∧ f.unknown d = true ∧
        ∃ p ∈ rest, d ∈ p.2.dependence) := by
  intro rest
  induction rest with
  | nil =>
    intro st st' r hinv _ h
    simp only [fnsNodeLoop, Prod.mk.injEq] at h
    obtain ⟨rfl, rfl⟩ := h
    simp [hinv]
  | cons p rest ih =>
    obtain ⟨k, v⟩ := p
    intro st st' r hinv hkeys h
    have hk : k ∈ P.keys := hkeys (k, v) (List.mem_cons_self _ _)
    have hrest : ∀ p ∈ rest, p.1 ∈ P.keys := fun p hp => hkeys p (List.mem_cons_of_mem _ hp)
    have hperm := hdeps (k, v)
    simp only [fnsNodeLoop] at h
    rw [checkDependence_eq_checkFixed f P st.sdm st.qList hinv.has_eq] at h
    cases hc : checkFixed f P (deps (k, v)) with
    | skip =>
      rw [hc] at h
      simp only at h
      obtain ⟨d, hd, hdP⟩ := checkFixed_skip f P _ hc
      have hb : blocked P v = true := (blocked_iff P v).2 ⟨d, hperm.mem_iff.1 hd, hdP⟩
      obtain ⟨ih1, ih2⟩ := ih st st' r hinv hrest h
      refine ⟨fun hr => ?_, fun e he => ?_⟩
      · obtain ⟨a1, a2, a3, a4⟩ := ih1 hr
        refine ⟨by simpa [List.filter_cons, hb] using a1, by simpa [List.filter_cons, hb] using a2,
          a3, ?_⟩
        intro p hp hpb
        rcases List.mem_cons.1 hp with rfl | hp
        · rw [hb] at hpb; exact Bool.noConfusion hpb
        · exact a4 p hp hpb
      · obtain ⟨d, hd1, hd2, p, hp, hpd⟩ := ih2 e he
        exact ⟨d, hd1, hd2, p, List.mem_cons_of_mem _ hp, hpd⟩
    | fail d =>
      rw [hc] at h
      simp only [Prod.mk.injEq] at h
      obtain ⟨_, rfl⟩ := h
      obtain ⟨hd, hu⟩ := checkFixed_fail f P _ d hc
      refine ⟨fun hr => by simp at hr, fun e he => ?_⟩
      cases he
      exact ⟨d, rfl, hu, (k, v), List.mem_cons_self _ _, hperm.mem_iff.1 hd⟩
    | pass =>
      rw [hc] at h
      simp only at h
      have hp := checkFixed_pass f P _ hc
      have hb : blocked P v = false :=
        (blocked_eq_false_iff P v).2 (fun d hd => (hp d (hperm.mem_iff.2 hd)).1)
      obtain ⟨ih1, ih2⟩ := ih _ st' r (hinv.step k v hk) hrest h
      refine ⟨fun hr => ?_, fun e he => ?_⟩
      · obtain ⟨a1, a2, a3, a4⟩ := ih1 hr
        refine ⟨by simpa [List.filter_cons, hb] using a1, by simpa [List.filter_cons, hb] using a2,
          a3, ?_⟩
        intro p hpm hpb
        rcases List.mem_cons.1 hpm with rfl | hpm
        · intro d hd; exact (hp d (hperm.mem_iff.2 hd)).2
        · exact a4 p hpm hpb
      · obtain ⟨d, hd1, hd2, p, hp, hpd⟩ := ih2 e he
        exact ⟨d, hd1, hd2, p, List.mem_cons_of_mem _ hp, hpd⟩

theorem PassInv.init (P : GoMap IService) : PassInv P { sdm := P, qList := [], ors := [] } := by
  refine ⟨?_, by simp⟩
  simp

theorem restOf_eq_self (P : GoMap IService) (h : ∀ p ∈ P, blocked P p.2 = true) :
    restOf P = P := by
  unfold restOf
  exact List.filter_eq_self.2 h

theorem layerOf_eq_nil_iff (P : GoMap IService) :
    layerOf P = [] ↔ ∀ p ∈ P, blocked P p.2 = true := by
  unfold layerOf
  rw [List.filter_eq_nil_iff]
  constructor
  · intro h p hp; simpa using h p hp
  · intro h p hp; simpa using h p hp

theorem fnsNode_spec (f : FxDag) (P order : GoMap IService)
    (deps : String × IService → List String) (hP : P.WF) (ho : order.Perm P)
    (hdeps : ∀ p, (deps p).Perm p.2.dependence)
    (ors : List IService) (P' : GoMap IService) (r : Option DagError)
    (h : f.fnsNode order deps P = (ors, P', r)) :
    (r = none →
      ors.Perm ((layerOf P).map Prod.snd) ∧ P' = restOf P ∧ (P ≠ [] → ors ≠ []) ∧
      ∀ p ∈ P, blocked P p.2 = false → ∀ d ∈ p.2.dependence, f.unknown d = false) ∧
    (∀ e, r = some e →
      (∃ d, e = DagError.unknownDependence d ∧ f.unknown d = true ∧
        ∃ p ∈ P, d ∈ p.2.dependence) ∨
      (e = DagError.cyclicDependence P ∧ P' = P ∧ ors = [] ∧ P ≠ [] ∧
        ∀ p ∈ P, blocked P p.2 = true)) := by
  unfold FxDag.fnsNode at h
  have hkeys : ∀ p ∈ order, p.1 ∈ P.keys :=
    fun p hp => GoMap.mem_keys_of_mem P p (ho.mem_iff.1 hp)
  cases hl : fnsNodeLoop f deps order { sdm := P, qList := [], ors := [] } with
  | mk st r0 =>
    obtain ⟨s1, s2⟩ := fnsNodeLoop_spec f deps P hdeps order _ st r0 (PassInv.init P) hkeys hl
    rw [hl] at h
    cases r0 with
    | some e0 =>
      simp only [Prod.mk.injEq] at h
      obtain ⟨_, _, rfl⟩ := h
      refine ⟨fun hr => by simp at hr, fun e he => ?_⟩
      cases he
      obtain ⟨d, hd1, hd2, p, hp, hpd⟩ := s2 e0 rfl
      exact Or.inl ⟨d, hd1, hd2, p, ho.mem_iff.1 hp, hpd⟩
    | none =>
      obtain ⟨a1, a2, a3, a4⟩ := s1 rfl
      simp only [List.nil_append, List.append_nil] at a1 a2
      -- the pending map left by the pass is the blocked part of `P`
      have hq : ∀ p ∈ P, st.qList.contains p.1 = !blocked P p.2 := by
        intro p hp
        rw [a2]
        by_cases hb : blocked P p.2 = true
        · rw [hb]
          simp only [Bool.not_true, List.contains_eq_any_beq, List.any_eq_false, List.mem_reverse,
            List.mem_map, List.mem_filter]
          rintro x ⟨q, ⟨hq1, hq2⟩, rfl⟩
          intro hx
          have hx' : p.1 = q.1 := by simpa using hx
          have hqP : q ∈ P := ho.mem_iff.1 hq1
          have : p.2 = q.2 := GoMap.entry_unique P hP p.1 p.2 q.2 hp (by rw [hx']; exact hqP)
          rw [this] at hb
          simp [hb] at hq2
        · have hb' : blocked P p.2 = false := by simpa using hb
          rw [hb']
          simp only [Bool.not_false, List.contains_eq_any_beq, List.any_eq_true, List.mem_reverse,
            List.mem_map, List.mem_filter]
          exact ⟨p.1, ⟨p, ⟨ho.mem_iff.2 hp, by simp [hb']⟩, rfl⟩, by simp⟩
      have hsdm : st.sdm = restOf P := by
        rw [a3.1]
        unfold restOf
        apply List.filter_congr
        intro p hp
        rw [hq p hp]; simp
      have hperm : st.ors.Perm ((layerOf P).map Prod.snd) := by
        rw [a1]
        exact (ho.filter _).map _
      by_cases hcyc : st.sdm.length > 0 ∧ st.qList.length = 0
      · dsimp only at h
        rw [if_pos hcyc] at h
        simp only [Prod.mk.injEq] at h
        obtain ⟨rfl, rfl, rfl⟩ := h
        refine ⟨fun hr => by simp at hr, fun e he => ?_⟩
        cases he
        have hqn : st.qList = [] := List.length_eq_zero.1 hcyc.2
        have hall : ∀ p ∈ P, blocked P p.2 = true := by
          intro p hp
          have := hq p hp
          rw [hqn] at this
          simpa using this.symm
        have hself : st.sdm = P := by rw [hsdm]; exact restOf_eq_self P hall
        have hne : P ≠ [] := by
          intro hnil
          rw [hself, hnil] at hcyc
          simp at hcyc
        have hors : st.ors = [] := by
          have : layerOf P = [] := (layerOf_eq_nil_iff P).2 hall
          rw [this] at hperm
          simpa using hperm
        exact Or.inr ⟨by rw [hself], hself, hors, hne, hall⟩
      · dsimp only at h
        rw [if_neg hcyc] at h
        simp only [Prod.mk.injEq] at h
        obtain ⟨rfl, rfl, rfl⟩ := h
        refine ⟨fun _ => ⟨hperm, hsdm, ?_, ?_⟩, fun e he => by simp at he⟩
        · intro hne hors
          apply hcyc
          have hfil : order.filter (fun p => !blocked P p.2) = [] := by
            rw [a1] at hors
            simpa using hors
          have hqn : st.qList = [] := by rw [a2, hfil]; rfl
          have hall : ∀ p ∈ P, blocked P p.2 = true := by
            intro p hp
            have := hq p hp
            rw [hqn] at this
            simpa using this.symm
          refine ⟨?_, by rw [hqn]; rfl⟩
          rw [hsdm, restOf_eq_self P hall]
          exact List.length_pos.2 hne
        · intro p hp hb d hd
          exact a4 p (ho.mem_iff.2 hp) hb d hd

theorem restOf_WF (P : GoMap IService) (hP : P.WF) : (restOf P).WF :=
  GoMap.WF_filter P hP _

theorem length_restOf_add (P : GoMap IService) :
    (restOf P).length + (layerOf P).length = P.length := by
  have h := (List.filter_append_perm (fun p => blocked P p.2) P).length_eq
  simpa [restOf, layerOf, List.length_append] using h

theorem drawLoop_spec (f : FxDag) (ro : RangeOrder) (hro : ro.Valid) :
    ∀ (fuel i : Nat) (P : GoMap IService) (w w' : List operatorCollection)
      (r : Option DagError), P.WF → drawLoop f ro fuel i P w = some (w', r) →
      ∃ ls P', w' = w ++ wrap ls ∧ Reach f P ls P' ∧ (r = none → P' = []) ∧
        (∀ e, r = some e → Stuck f P' e) := by
  intro fuel
  induction fuel with
  | zero => intro i P w w' r _ h; simp [drawLoop] at h
  | succ fuel ih =>
    intro i P w w' r hP h
    simp only [drawLoop] at h
    by_cases hlen : P.length = 0
    · rw [if_pos hlen] at h
      simp only [Option.some.injEq, Prod.mk.injEq] at h
      obtain ⟨rfl, rfl⟩ := h
      have hnil : P = [] := List.length_eq_zero.1 hlen
      exact ⟨[], P, by simp [wrap], Reach.refl P, fun _ => hnil, fun e he => by simp at he⟩
    · rw [if_neg hlen] at h
      have hne : P ≠ [] := fun hnil => hlen (by rw [hnil]; rfl)
      rcases hres : f.fnsNode (ro.nodes i P) (ro.deps i) P with ⟨ors, P1, r1⟩
      obtain ⟨s1, s2⟩ := fnsNode_spec f P (ro.nodes i P) (ro.deps i) hP (hro.1 i P)
        (hro.2 i) ors P1 r1 hres
      rw [hres] at h
      cases r1 with
      | some e1 =>
        simp only [Option.some.injEq, Prod.mk.injEq] at h
        obtain ⟨rfl, rfl⟩ := h
        refine ⟨[], P, by simp [wrap], Reach.refl P, fun hr => by simp at hr, fun e he => ?_⟩
        cases he
        rcases s2 e1 rfl with hu | ⟨hc1, _, _, hc4, hc5⟩
        · exact Or.inl hu
        · exact Or.inr ⟨hc1, hc4, hc5⟩
      | none =>
        obtain ⟨b1, b2, b3, b4⟩ := s1 rfl
        have hors : ors.length ≠ 0 := fun h0 => b3 hne (List.length_eq_zero.1 h0)
        simp only [if_neg hors] at h
        subst b2
        obtain ⟨ls, P', e1, e2, e3, e4⟩ := ih (i + 1) (restOf P) _ w' r (restOf_WF P hP) h
        refine ⟨ors :: ls, P', ?_, Reach.step P ors ls P' hne b1 (b3 hne) b4 e2, e3, e4⟩
        rw [e1]; simp [wrap]

theorem drawLoop_total (f : FxDag) (ro : RangeOrder) (hro : ro.Valid) :
    ∀ (fuel i : Nat) (P : GoMap IService) (w : List operatorCollection),
      P.WF → P.length < fuel → ∃ res, drawLoop f ro fuel i P w = some res := by
  intro fuel
  induction fuel with
  | zero => intro i P w _ h; exact absurd h (Nat.not_lt_zero _)
  | succ fuel ih =>
    intro i P w hP hlt
    simp only [drawLoop]
    by_cases hlen : P.length = 0
    · rw [if_pos hlen]; exact ⟨_, rfl⟩
    · rw [if_neg hlen]
      have hne : P ≠ [] := fun hnil => hlen (by rw [hnil]; rfl)
      rcases hres : f.fnsNode (ro.nodes i P) (ro.deps i) P with ⟨ors, P1, r1⟩
      obtain ⟨s1, _⟩ := fnsNode_spec f P (ro.nodes i P) (ro.deps i) hP (hro.1 i P)
        (hro.2 i) ors P1 r1 hres
      cases r1 with
      | some e1 => exact ⟨_, rfl⟩
      | none =>
        obtain ⟨b1, b2, b3, _⟩ := s1 rfl
        have hors : ors.length ≠ 0 := fun h0 => b3 hne (List.length_eq_zero.1 h0)
        simp only [if_neg hors]
        subst b2
        apply ih (i + 1) (restOf P) _ (restOf_WF P hP)
        have hl := length_restOf_add P
        have hpos : 0 < (layerOf P).length := by
          have : ors.length = (layerOf P).length := by simpa using b1.length_eq
          omega
        omega

theorem drawLoop_fuel_mono (f : FxDag) (ro : RangeOrder) :
    ∀ (fuel fuel' i : Nat) (P : GoMap IService) (w : List operatorCollection)
      (res : List operatorCollection × Option DagError),
      fuel ≤ fuel' → drawLoop f ro fuel i P w = some res → drawLoop f ro fuel' i P w = some res := by
  intro fuel
  induction fuel with
  | zero => intro fuel' i P w res _ h; simp [drawLoop] at h
  | succ fuel ih =>
    intro fuel' i P w res hle h
    obtain ⟨n, rfl⟩ : ∃ n, fuel' = n + 1 := ⟨fuel' - 1, by omega⟩
    have hle' : fuel ≤ n := by omega
    simp only [drawLoop] at h ⊢
    by_cases hlen : P.length = 0
    · rw [if_pos hlen] at h ⊢; exact h
    · rw [if_neg hlen] at h ⊢
      rcases hres : f.fnsNode (ro.nodes i P) (ro.deps i) P with ⟨ors, P1, r1⟩
      rw [hres] at h
      cases r1 with
      | some e1 => exact h
      | none =>
        simp only at h ⊢
        by_cases hors : ors.length = 0
        · rw [if_pos hors] at h ⊢; exact ih n _ _ _ _ hle' h
        · rw [if_neg hors] at h ⊢; exact ih n _ _ _ _ hle' h

theorem mem_restOf {P : GoMap IService} {p : String × IService} :
    p ∈ restOf P ↔ p ∈ P ∧ blocked P p.2 = true := by
  simp [restOf, List.mem_filter]

theorem mem_layerOf {P : GoMap IService} {p : String × IService} :
    p ∈ layerOf P ↔ p ∈ P ∧ blocked P p.2 = false := by
  simp [layerOf, List.mem_filter]

theorem Reach.sub {f : FxDag} {P P' : GoMap IService} {ls : List (List IService)}
    (h : Reach f P ls P') : ∀ p ∈ P', p ∈ P := by
  induction h with
  | refl P => exact fun p hp => hp
  | step P ors ls P' _ _ _ _ _ ih => exact fun p hp => (mem_restOf.1 (ih p hp)).1

theorem Reach.perm {f : FxDag} {P P' : GoMap IService} {ls : List (List IService)}
    (h : Reach f P ls P') : (ls.flatten ++ P'.map Prod.snd).Perm (P.map Prod.snd) := by
  induction h with
  | refl P => simp
  | step P ors ls P' _ hors _ _ _ ih =>
    have h1 : (restOf P ++ layerOf P).Perm P := by
      have := List.filter_append_perm (fun p => blocked P p.2) P
      simpa [restOf, layerOf] using this
    have h2 : ((layerOf P).map Prod.snd ++ (restOf P).map Prod.snd).Perm (P.map Prod.snd) := by
      rw [← List.map_append]
      exact (List.perm_append_comm.trans h1).map _
    simp only [List.flatten_cons, List.append_assoc]
    exact (List.Perm.append hors ih).trans h2

theorem Reach.known {f : FxDag} {P P' : GoMap IService} {ls : List (List IService)}
    (h : Reach f P ls P') :
    ∀ l ∈ ls, ∀ N ∈ l, ∀ d ∈ N.dependence, f.unknown d = false := by
  induction h with
  | refl P => simp
  | step P ors ls P' _ hors _ hk _ ih =>
    intro l hl N hN d hd
    rcases List.mem_cons.1 hl with rfl | hl
    · have hN' := hors.mem_iff.1 hN
      obtain ⟨p, hp, rfl⟩ := List.mem_map.1 hN'
      exact hk p (mem_layerOf.1 hp).1 (mem_layerOf.1 hp).2 d hd
    · exact ih l hl N hN d hd

/-- Every dependency of a node of layer `i` that was pending when planning
began has its node in an earlier layer. -/
theorem Reach.layering {f : FxDag} {P P' : GoMap IService} {ls : List (List IService)}
    (h : Reach f P ls P') (hP : P.WF) :
    ∀ (i : Nat) (l : List IService), ls[i]? = some l → ∀ N ∈ l, ∀ d ∈ N.dependence,
      P.has d = true →
      ∃ j l' n', j < i ∧ ls[j]? = some l' ∧ P.find d = some n' ∧ n' ∈ l' := by
  induction h with
  | refl P => intro i l hl; simp at hl
  | step P ors ls P' _ hors _ _ _ ih =>
    intro i l hl N hN d hd hPd
    cases i with
    | zero =>
      simp only [List.getElem?_cons_zero, Option.some.injEq] at hl
      subst hl
      obtain ⟨p, hp, rfl⟩ := List.mem_map.1 (hors.mem_iff.1 hN)
      have := (blocked_eq_false_iff P p.2).1 (mem_layerOf.1 hp).2 d hd
      rw [this] at hPd
      exact Bool.noConfusion hPd
    | succ i =>
      simp only [List.getElem?_cons_succ] at hl
      by_cases hr : (restOf P).has d = true
      · obtain ⟨j, l', n', hj, hl', hf, hn⟩ := ih (restOf_WF P hP) i l hl N hN d hd hr
        refine ⟨j + 1, l', n', by omega, by simpa using hl', ?_, hn⟩
        have hmem := GoMap.mem_of_find _ _ _ hf
        exact GoMap.find_of_mem P hP d n' (mem_restOf.1 hmem).1
      · obtain ⟨p, hp, hpd⟩ := List.mem_map.1 ((GoMap.has_iff_mem_keys P d).1 hPd)
        have hb : blocked P p.2 = false := by
          by_contra hb
          have hb' : blocked P p.2 = true := by simpa using hb
          apply hr
          rw [GoMap.has_iff_mem_keys]
          exact List.mem_map.2 ⟨p, mem_restOf.2 ⟨hp, hb'⟩, hpd⟩
        refine ⟨0, ors, p.2, by omega, by simp, ?_, ?_⟩
        · apply GoMap.find_of_mem P hP
          rw [← hpd]; exact hp
        · exact hors.mem_iff.2 (List.mem_map.2 ⟨p, mem_layerOf.2 ⟨hp, hb⟩, rfl⟩)

/-- A key on a dependency cycle has a dependency on a cycle. -/
theorem cycle_next (reg : GoMap IService) (k : String)
    (h : Relation.TransGen (DependsOn reg) k k) :
    ∃ d, DependsOn reg k d ∧ Relation.TransGen (DependsOn reg) d d := by
  obtain ⟨d, hkd, hdk⟩ := Relation.TransGen.head'_iff.1 h
  exact ⟨d, hkd, Relation.TransGen.tail' hdk hkd⟩

/-- Keys on a dependency cycle are never scheduled. -/
theorem Reach.cycle_stays {f : FxDag} {P P' : GoMap IService} {ls : List (List IService)}
    (h : Reach f P ls P') (reg : GoMap IService) (hreg : reg.WF) (hsub : ∀ p ∈ P, p ∈ reg)
    (hc : ∀ k, Relation.TransGen (DependsOn reg) k k → k ∈ P.keys) :
    ∀ k, Relation.TransGen (DependsOn reg) k k → k ∈ P'.keys := by
  induction h with
  | refl P => exact hc
  | step P ors ls P' _ _ _ _ _ ih =>
    apply ih (fun p hp => hsub p (mem_restOf.1 hp).1)
    intro k hk
    obtain ⟨p, hp, hpk⟩ := List.mem_map.1 (hc k hk)
    obtain ⟨d, ⟨n, hn1, hn2, _⟩, hd⟩ := cycle_next reg k hk
    have hpn : p.2 = n := by
      have h1 := GoMap.find_of_mem reg hreg p.1 p.2 (hsub p hp)
      rw [hpk, hn1] at h1
      exact (Option.some.inj h1).symm
    have hb : blocked P p.2 = true :=
      (blocked_iff P p.2).2 ⟨d, by rw [hpn]; exact hn2, (GoMap.has_iff_mem_keys P d).2 (hc d hd)⟩
    exact List.mem_map.2 ⟨p, mem_restOf.2 ⟨hp, hb⟩, hpk⟩

/-- A non-empty pending map in which every node waits for a pending key holds
a dependency cycle. -/
theorem hasCycle_of_all_blocked (reg P : GoMap IService) (hreg : reg.WF)
    (hsub : ∀ p ∈ P, p ∈ reg) (hne : P ≠ []) (hall : ∀ p ∈ P, blocked P p.2 = true) :
    HasCycle reg := by
  by_contra hno
  let α := { k : String // k ∈ P.keys }
  let r : α → α → Prop := fun a b => Relation.TransGen (DependsOn reg) b.1 a.1
  haveI : IsTrans α r := ⟨fun a b c hab hbc => Relation.TransGen.trans hbc hab⟩
  haveI : IsIrrefl α r := ⟨fun a h => hno ⟨a.1, h⟩⟩
  haveI : Finite α := (List.finite_toSet P.keys).to_subtype
  have wf : WellFounded r := Finite.wellFounded_of_trans_of_irrefl r
  obtain ⟨p0, hp0⟩ := List.exists_mem_of_ne_nil P hne
  have a0 : α := ⟨p0.1, GoMap.mem_keys_of_mem P p0 hp0⟩
  obtain ⟨m, _, hm⟩ := wf.has_min Set.univ ⟨a0, trivial⟩
  obtain ⟨p, hp, hpm⟩ := List.mem_map.1 m.2
  obtain ⟨d, hd, hPd⟩ := (blocked_iff P p.2).1 (hall p hp)
  have hdk : d ∈ P.keys := (GoMap.has_iff_mem_keys P d).1 hPd
  obtain ⟨q, hq, hqd⟩ := List.mem_map.1 hdk
  have hdep : DependsOn reg m.1 d := by
    refine ⟨p.2, ?_, hd, ?_⟩
    · rw [← hpm]; exact GoMap.find_of_mem reg hreg p.1 p.2 (hsub p hp)
    · rw [GoMap.has_iff_mem_keys]
      exact List.mem_map.2 ⟨q, hsub q hq, hqd⟩
  exact hm ⟨d, hdk⟩ trivial (Relation.TransGen.single hdep)

theorem wrap_layers (f : FxDag) (ls : List (List IService)) :
    FxDag.layers { f with wList := wrap ls } = ls := by
  simp [FxDag.layers, wrap, List.map_map, Function.comp_def]

theorem Draw_spec (f : FxDag) (ro : RangeOrder) (hwf : f.fnService.WF) (hro : ro.Valid) :
    (f.fnService = [] ∧ f.Draw ro = some (f, none)) ∨
    (f.fnService ≠ [] ∧ ∃ ls P' r, f.Draw ro = some ({ f with wList := wrap ls }, r) ∧
      Reach f f.fnService ls P' ∧ (r = none → P' = []) ∧ (∀ e, r = some e → Stuck f P' e)) := by
  by_cases hlen : f.fnService.length = 0
  · left
    refine ⟨List.length_eq_zero.1 hlen, ?_⟩
    simp [FxDag.Draw, FxDag.DrawFuel, hlen]
  · right
    refine ⟨fun h => hlen (by rw [h]; rfl), ?_⟩
    obtain ⟨⟨w', r⟩, hres⟩ := drawLoop_total f ro hro (f.fnService.length + 1) 0 f.fnService []
      hwf (Nat.lt_succ_self _)
    obtain ⟨ls, P', e1, e2, e3, e4⟩ := drawLoop_spec f ro hro _ 0 f.fnService [] w' r hwf hres
    refine ⟨ls, P', r, ?_, e2, e3, e4⟩
    simp only [FxDag.Draw, FxDag.DrawFuel, if_neg hlen, hres]
    rw [e1]; rfl

theorem unknown_eq_false_iff (f : FxDag) (d : String) :
    f.unknown d = false ↔ f.fnService.has d = true ∨ (f.initVal.get d).2 = true := by
  unfold FxDag.unknown
  cases f.fnService.has d <;> cases (f.initVal.get d).2 <;> simp

theorem cycle_key_registered (reg : GoMap IService) (k : String)
    (h : Relation.TransGen (DependsOn reg) k k) : k ∈ reg.keys := by
  obtain ⟨d, ⟨n, hn, _, _⟩, _⟩ := cycle_next reg k h
  exact GoMap.mem_keys_of_mem reg (k, n) (GoMap.mem_of_find reg k n hn)

theorem Stuck.ne_nil {f : FxDag} {P : GoMap IService} {e : DagError} (h : Stuck f P e) :
    P ≠ [] := by
  rcases h with ⟨d, _, _, p, hp, _⟩ | ⟨_, hne, _⟩
  · exact List.ne_nil_of_mem hp
  · exact hne

/-- What a successful `Draw` on a non-empty registry stores. -/
theorem Draw_ok (f f' : FxDag) (ro : RangeOrder) (hwf : f.fnService.WF) (hro : ro.Valid)
    (hne : f.fnService ≠ []) (h : f.Draw ro = some (f', none)) :
    f' = { f with wList := wrap f'.layers } ∧ Reach f f.fnService f'.layers [] := by
  rcases Draw_spec f ro hwf hro with ⟨h0, _⟩ | ⟨_, ls, P', r, hd, hr, h1, _⟩
  · exact absurd h0 hne
  · rw [hd] at h
    simp only [Option.some.injEq, Prod.mk.injEq] at h
    obtain ⟨rfl, rfl⟩ := h
    have hP' := h1 rfl
    subst hP'
    rw [wrap_layers]
    exact ⟨rfl, hr⟩

/-- What a failing `Draw` stores. -/
theorem Draw_err (f f' : FxDag) (ro : RangeOrder) (e : DagError) (hwf : f.fnService.WF)
    (hro : ro.Valid) (h : f.Draw ro = some (f', some e)) :
    f.fnService ≠ [] ∧ f' = { f with wList := wrap f'.layers } ∧
      ∃ P', Reach f f.fnService f'.layers P' ∧ Stuck f P' e := by
  rcases Draw_spec f ro hwf hro with ⟨_, h0⟩ | ⟨hne, ls, P', r, hd, hr, _, h2⟩
  · rw [h0] at h; simp at h
  · rw [hd] at h
    simp only [Option.some.injEq, Prod.mk.injEq] at h
    obtain ⟨rfl, rfl⟩ := h
    rw [wrap_layers]
    exact ⟨hne, rfl, P', hr, h2 e rfl⟩

theorem Draw_total (f : FxDag) (ro : RangeOrder) (hwf : f.fnService.WF) (hro : ro.Valid) :
    ∃ f' r, f.Draw ro = some (f', r) := by
  rcases Draw_spec f ro hwf hro with ⟨_, h0⟩ | ⟨_, ls, P', r, hd, _⟩
  · exact ⟨_, _, h0⟩
  · exact ⟨_, _, hd⟩

/-! ## Planner, registration and value store: main results -/

/-- More fuel than `Draw` takes does not change what it returns. -/
theorem DrawFuel_eq_Draw (f : FxDag) (ro : RangeOrder) (hwf : f.fnService.WF) (hro : ro.Valid)
    (fuel : Nat) (hfuel : f.fnService.length < fuel) : f.DrawFuel ro fuel = f.Draw ro := by
  unfold FxDag.Draw FxDag.DrawFuel
  by_cases hlen : f.fnService.length = 0
  · rw [if_pos hlen, if_pos hlen]
  · rw [if_neg hlen, if_neg hlen]
    obtain ⟨res, hres⟩ := drawLoop_total f ro hro (f.fnService.length + 1) 0 f.fnService []
      hwf (Nat.lt_succ_self _)
    rw [hres, drawLoop_fuel_mono f ro _ fuel 0 f.fnService [] res (by omega) hres]

/-- A registered node that names its own key as a dependency is a cycle. -/
theorem hasCycle_of_self (reg : GoMap IService) (k : String) (n : IService)
    (hk : reg.find k = some n) (hd : k ∈ n.dependence) : HasCycle reg := by
  have hhas : reg.has k = true := by
    unfold GoMap.find at hk
    simp [GoMap.has, hk]
  exact ⟨k, Relation.TransGen.single ⟨n, hk, hd, hhas⟩⟩

/-- A fresh graph has a well-formed registry. -/
theorem New_RegistryOK : New.RegistryOK := by decide

theorem FxDag.RegistryOK.nodup_nodes {f : FxDag} (h : f.RegistryOK) :
    (f.fnService.map Prod.snd).Nodup := by
  obtain ⟨h1, h2⟩ := h
  unfold GoMap.WF GoMap.keys at h1
  have hinj : ∀ p ∈ f.fnService, ∀ q ∈ f.fnService, p.2 = q.2 → p = q := by
    intro p hp q hq hpq
    have hk : p.1 = q.1 := by rw [← h2 p hp, ← h2 q hq, hpq]
    exact Prod.ext hk hpq
  exact List.Nodup.map_on hinj (List.Nodup.of_map _ h1)

theorem flatten_nodup_apart {α : Type} (L : List (List α)) (h : L.flatten.Nodup) :
    ∀ (i j : Nat) (l l' : List α), L[i]? = some l → L[j]? = some l' → j < i →
      ∀ x, x ∈ l → x ∈ l' → False := by
  induction L with
  | nil => intro i j l l' hl; simp at hl
  | cons a L ih =>
    intro i j l l' hl hl' hji x hx hx'
    rw [List.flatten_cons, List.nodup_append] at h
    cases i with
    | zero => omega
    | succ i =>
      simp only [List.getElem?_cons_succ] at hl
      cases j with
      | zero =>
        simp only [List.getElem?_cons_zero, Option.some.injEq] at hl'
        subst hl'
        have hmem : l ∈ L := List.getElem?_mem hl
        exact h.2.2 hx' (List.mem_flatten.2 ⟨l, hmem, hx⟩)
      | succ j =>
        simp only [List.getElem?_cons_succ] at hl'
        exact ih h.2.1 i j l l' hl hl' (by omega) x hx hx'

theorem Draw_empty (f f' : FxDag) (ro : RangeOrder) (r : Option DagError)
    (h0 : f.fnService = []) (h : f.Draw ro = some (f', r)) : f' = f ∧ r = none := by
  simp [FxDag.Draw, FxDag.DrawFuel, h0] at h
  exact ⟨h.1.symm, h.2.symm⟩

theorem RangeOrder.stored_valid : RangeOrder.stored.Valid :=
  ⟨fun _ _ => List.Perm.refl _, fun _ _ => List.Perm.refl _⟩

/-- C1, as stated, fails on an empty registry that follows a drawn plan: after
`Draw`, `DeleteProvider("A")`, `DeleteProvider("B")` the registry of `exStaleAB`
is empty, `Draw` returns nil and the plan `[A], [B]` is still stored; node `B`
of its second layer depends on the key `A`, which is neither the key of a
registered node of an earlier layer nor in the initial tier. -/
theorem Draw_layering_counterexample :
    exAB.Draw RangeOrder.stored = some (exABdrawn, none) ∧
    exStaleAB.RegistryOK ∧ RangeOrder.stored.Valid ∧
    exStaleAB.Draw RangeOrder.stored = some (exStaleAB, none) ∧
    exStaleAB.layers[1]? = some [newServiceT 2 ["A"] "B" true] ∧
    "A" ∈ (newServiceT 2 ["A"] "B" true).dependence ∧
    ¬ ((∃ j l' n', j < 1 ∧ exStaleAB.layers[j]? = some l' ∧
          exStaleAB.fnService.find "A" = some n' ∧ n' ∈ l') ∨
       (exStaleAB.fnService.has "A" = false ∧ (exStaleAB.initVal.get "A").2 = true)) := by
  refine ⟨by decide, by decide, RangeOrder.stored_valid, by decide, by decide, by decide, ?_⟩
  rintro (⟨j, l', n', _, _, hf, _⟩ | ⟨_, hi⟩)
  · have h0 : exStaleAB.fnService.find "A" = none := by decide
    rw [h0] at hf
    exact Option.noConfusion hf
  · have h1 : (exStaleAB.initVal.get "A").2 = false := by decide
    rw [h1] at hi
    exact Bool.noConfusion hi

/-- C1 (layering correctness of Draw), amended. When `Draw` returns nil on a
non-empty registry, every dependency key `d` of every node `N` of layer `i` of
the stored plan is either the key of a registered node that sits in a layer
`j < i`, or is not registered and present in the initial tier; and no node
shares a layer with a node it depends on; this for every initial tier and
visiting order. On an empty registry `Draw` returns nil and leaves the graph,
its stored plan included, as it was. -/
theorem Draw_layering (f f' : FxDag) (ro : RangeOrder) (hreg : f.RegistryOK) (hro : ro.Valid)
    (h : f.Draw ro = some (f', none)) :
    (f.fnService = [] → f' = f) ∧
    (f.fnService ≠ [] →
      (∀ (i : Nat) (l : List IService), f'.layers[i]? = some l → ∀ N ∈ l, ∀ d ∈ N.dependence,
        (∃ j l' n', j < i ∧ f'.layers[j]? = some l' ∧ f.fnService.find d = some n' ∧ n' ∈ l') ∨
        (f.fnService.has d = false ∧ (f.initVal.get d).2 = true)) ∧
      (∀ (i : Nat) (l : List IService), f'.layers[i]? = some l → ∀ N ∈ l, ∀ M ∈ l,
        ∀ k, f.fnService.find k = some M → k ∉ N.dependence)) := by
  refine ⟨fun h0 => (Draw_empty f f' ro none h0 h).1, fun h0 => ?_⟩
  obtain ⟨_, hr⟩ := Draw_ok f f' ro hreg.1 hro h0 h
  have main : ∀ (i : Nat) (l : List IService), f'.layers[i]? = some l → ∀ N ∈ l,
      ∀ d ∈ N.dependence,
      (∃ j l' n', j < i ∧ f'.layers[j]? = some l' ∧ f.fnService.find d = some n' ∧ n' ∈ l') ∨
      (f.fnService.has d = false ∧ (f.initVal.get d).2 = true) := by
    intro i l hl N hN d hd
    by_cases hreg_d : f.fnService.has d = true
    · exact Or.inl (hr.layering hreg.1 i l hl N hN d hd hreg_d)
    · have hk := hr.known l (List.getElem?_mem hl) N hN d hd
      rcases (unknown_eq_false_iff f d).1 hk with h1 | h1
      · exact absurd h1 hreg_d
      · exact Or.inr ⟨by simpa using hreg_d, h1⟩
  refine ⟨main, ?_⟩
  intro i l hl N hN M hM k hk hkN
  have hnd : f'.layers.flatten.Nodup := by
    have hp := hr.perm
    simp only [List.map_nil, List.append_nil] at hp
    exact hp.nodup_iff.2 hreg.nodup_nodes
  rcases main i l hl N hN k hkN with ⟨j, l', n', hj, hl', hf, hn⟩ | ⟨hno, _⟩
  · rw [hk] at hf
    cases hf
    exact flatten_nodup_apart f'.layers hnd i j l l' hl hl' hj M hM hn
  · have : f.fnService.has k = true := by
      unfold GoMap.find at hk
      simp [GoMap.has, hk]
    rw [this] at hno
    exact Bool.noConfusion hno

/-- A successful `Draw` shows that every dependency key is registered or seeded. -/
theorem Draw_nil_resolvable (f f' : FxDag) (ro : RangeOrder) (hwf : f.fnService.WF)
    (hro : ro.Valid) (h : f.Draw ro = some (f', none)) : f.Resolvable := by
  by_cases h0 : f.fnService = []
  · exact fun p hp => by rw [h0] at hp; simp at hp
  · obtain ⟨_, hr⟩ := Draw_ok f f' ro hwf hro h0 h
    have hp := hr.perm
    simp only [List.map_nil, List.append_nil] at hp
    intro p hpm d hd
    have hmem : p.2 ∈ f'.layers.flatten := hp.mem_iff.2 (List.mem_map.2 ⟨p, hpm, rfl⟩)
    obtain ⟨l, hl, hN⟩ := List.mem_flatten.1 hmem
    exact (unknown_eq_false_iff f d).1 (hr.known l hl p.2 hN d hd)

/-- A successful `Draw` shows that the registered nodes hold no dependency cycle. -/
theorem Draw_nil_acyclic (f f' : FxDag) (ro : RangeOrder) (hwf : f.fnService.WF)
    (hro : ro.Valid) (h : f.Draw ro = some (f', none)) : ¬ HasCycle f.fnService := by
  rintro ⟨k, hk⟩
  by_cases h0 : f.fnService = []
  · have := cycle_key_registered _ k hk
    rw [h0] at this
    simp [GoMap.keys] at this
  · obtain ⟨_, hr⟩ := Draw_ok f f' ro hwf hro h0 h
    have := hr.cycle_stays f.fnService hwf (fun p hp => hp)
      (fun k hk => cycle_key_registered _ k hk) k hk
    simp [GoMap.keys] at this

/-- C2 (Draw succeeds exactly on resolvable acyclic registrations). For every
registry, initial tier and visiting order, `Draw` returns nil if and only if
every dependency key of every registered node is registered or seeded, and the
depends-on relation between registered keys has no cycle. -/
theorem Draw_nil_iff (f : FxDag) (ro : RangeOrder) (hwf : f.fnService.WF) (hro : ro.Valid) :
    (∃ f', f.Draw ro = some (f', none)) ↔ (f.Resolvable ∧ ¬ HasCycle f.fnService) := by
  constructor
  · rintro ⟨f', h⟩
    exact ⟨Draw_nil_resolvable f f' ro hwf hro h, Draw_nil_acyclic f f' ro hwf hro h⟩
  · rintro ⟨hres, hno⟩
    obtain ⟨f', r, h⟩ := Draw_total f ro hwf hro
    cases r with
    | none => exact ⟨f', h⟩
    | some e =>
      exfalso
      obtain ⟨_, _, P', hr, hs⟩ := Draw_err f f' ro e hwf hro h
      rcases hs with ⟨d, _, hu, p, hp, hpd⟩ | ⟨_, hne, hall⟩
      · have := (unknown_eq_false_iff f d).2 (hres p (hr.sub p hp) d hpd)
        rw [this] at hu
        exact Bool.noConfusion hu
      · exact hno (hasCycle_of_all_blocked f.fnService P' hwf hr.sub hne hall)

/-- C3 (cycle detection). When every dependency key is registered or seeded and
some registered nodes form a dependency cycle, `Draw` fails with the
cyclic-dependency error for every visiting order, and the pending map carried by
the error holds every node that lies on a cycle. -/
theorem Draw_cycle (f : FxDag) (ro : RangeOrder) (hwf : f.fnService.WF) (hro : ro.Valid)
    (hres : f.Resolvable) (hcyc : HasCycle f.fnService) :
    ∃ f' P', f.Draw ro = some (f', some (DagError.cyclicDependence P')) ∧
      (DagError.cyclicDependence P').text = "依赖项循环依赖:" ∧
      ∀ k, Relation.TransGen (DependsOn f.fnService) k k →
        ∃ n, f.fnService.find k = some n ∧ (k, n) ∈ P' := by
  obtain ⟨f', r, h⟩ := Draw_total f ro hwf hro
  cases r with
  | none =>
    exact absurd hcyc (Draw_nil_acyclic f f' ro hwf hro h)
  | some e =>
    obtain ⟨_, _, P', hr, hs⟩ := Draw_err f f' ro e hwf hro h
    rcases hs with ⟨d, _, hu, p, hp, hpd⟩ | ⟨he, _, _⟩
    · exfalso
      have := (unknown_eq_false_iff f d).2 (hres p (hr.sub p hp) d hpd)
      rw [this] at hu
      exact Bool.noConfusion hu
    · subst he
      refine ⟨f', P', h, rfl, ?_⟩
      intro k hk
      have hmem := hr.cycle_stays f.fnService hwf (fun p hp => hp)
        (fun k hk => cycle_key_registered _ k hk) k hk
      obtain ⟨p, hp, hpk⟩ := List.mem_map.1 hmem
      refine ⟨p.2, ?_, ?_⟩
      · rw [← hpk]; exact GoMap.find_of_mem _ hwf p.1 p.2 (hr.sub p hp)
      · rw [← hpk]; exact hp


theorem exCycle_hasCycle : HasCycle exCycle.fnService := by
  have hab : DependsOn exCycle.fnService "A" "B" :=
    ⟨newServiceT 1 ["B"] "A" true, by decide, by decide, by decide⟩
  have hba : DependsOn exCycle.fnService "B" "A" :=
    ⟨newServiceT 2 ["A"] "B" true, by decide, by decide, by decide⟩
  exact ⟨"A", Relation.TransGen.tail (Relation.TransGen.single hab) hba⟩

/-- C1, amended, at the graph `exAB` in stored order. -/
theorem Draw_layering_witness :
    exAB.RegistryOK ∧ RangeOrder.stored.Valid ∧
    exAB.Draw RangeOrder.stored = some (exABdrawn, none) ∧ exAB.fnService ≠ [] ∧
    ((∀ (i : Nat) (l : List IService), exABdrawn.layers[i]? = some l → ∀ N ∈ l,
      ∀ d ∈ N.dependence,
      (∃ j l' n', j < i ∧ exABdrawn.layers[j]? = some l' ∧ exAB.fnService.find d = some n' ∧
        n' ∈ l') ∨
      (exAB.fnService.has d = false ∧ (exAB.initVal.get d).2 = true)) ∧
    (∀ (i : Nat) (l : List IService), exABdrawn.layers[i]? = some l → ∀ N ∈ l, ∀ M ∈ l,
      ∀ k, exAB.fnService.find k = some M → k ∉ N.dependence)) :=
  ⟨by decide, RangeOrder.stored_valid, by decide, by decide,
    (Draw_layering exAB exABdrawn RangeOrder.stored (by decide) RangeOrder.stored_valid
      (by decide)).2 (by decide)⟩

/-- C2 at the graph `exAB` in stored order. -/
theorem Draw_nil_iff_witness :
    exAB.fnService.WF ∧ RangeOrder.stored.Valid ∧
    ((∃ f', exAB.Draw RangeOrder.stored = some (f', none)) ↔
      (exAB.Resolvable ∧ ¬ HasCycle exAB.fnService)) :=
  ⟨by decide, RangeOrder.stored_valid,
    Draw_nil_iff exAB RangeOrder.stored (by decide) RangeOrder.stored_valid⟩

/-- C3 at the two-node cycle `exCycle`. -/
theorem Draw_cycle_witness :
    exCycle.fnService.WF ∧ RangeOrder.stored.Valid ∧ exCycle.Resolvable ∧
    HasCycle exCycle.fnService ∧
    ∃ f' P', exCycle.Draw RangeOrder.stored = some (f', some (DagError.cyclicDependence P')) ∧
      (DagError.cyclicDependence P').text = "依赖项循环依赖:" ∧
      ∀ k, Relation.TransGen (DependsOn exCycle.fnService) k k →
        ∃ n, exCycle.fnService.find k = some n ∧ (k, n) ∈ P' :=
  ⟨by decide, RangeOrder.stored_valid, by decide, exCycle_hasCycle,
    Draw_cycle exCycle RangeOrder.stored (by decide) RangeOrder.stored_valid (by decide)
      exCycle_hasCycle⟩

/-- C4, as stated, fails: node `A` of `exSelfX` declares the key `X`, which is
neither registered nor seeded, yet when the dependency `A` is visited before `X`
`Draw` returns the cyclic-dependency error and not the unknown-dependency one. -/
theorem Draw_unknown_counterexample :
    exSelfX.fnService.WF ∧ RangeOrder.stored.Valid ∧
    (∃ p ∈ exSelfX.fnService, "X" ∈ p.2.dependence ∧ exSelfX.unknown "X" = true) ∧
    exSelfX.Draw RangeOrder.stored =
      some (exSelfX, some (DagError.cyclicDependence exSelfX.fnService)) ∧
    ¬ ∃ f' d, exSelfX.Draw RangeOrder.stored = some (f', some (DagError.unknownDependence d)) := by
  refine ⟨by decide, RangeOrder.stored_valid, by decide, by decide, ?_⟩
  rintro ⟨f', d, h⟩
  have h2 : exSelfX.Draw RangeOrder.stored =
      some (exSelfX, some (DagError.cyclicDependence exSelfX.fnService)) := by decide
  rw [h2] at h
  simp at h

/-- C4 (missing dependency), amended. When some registered node declares a
dependency key that is neither registered nor seeded, `Draw` fails for every
visiting order; the error is the unknown-dependency error naming such a key,
except that it may be the cyclic-dependency error when the registered nodes hold
a dependency cycle. -/
theorem Draw_unknown (f : FxDag) (ro : RangeOrder) (hwf : f.fnService.WF) (hro : ro.Valid)
    (hunk : ∃ p ∈ f.fnService, ∃ d ∈ p.2.dependence, f.unknown d = true) :
    ∃ f' e, f.Draw ro = some (f', some e) ∧
      ((∃ d, e = DagError.unknownDependence d ∧ e.text = "依赖项不存在:" ++ d ∧
          f.unknown d = true ∧ ∃ p ∈ f.fnService, d ∈ p.2.dependence) ∨
       (∃ P', e = DagError.cyclicDependence P' ∧ HasCycle f.fnService)) := by
  obtain ⟨f', r, h⟩ := Draw_total f ro hwf hro
  cases r with
  | none =>
    exfalso
    obtain ⟨p, hp, d, hd, hu⟩ := hunk
    have hres := Draw_nil_resolvable f f' ro hwf hro h
    have := (unknown_eq_false_iff f d).2 (hres p hp d hd)
    rw [this] at hu
    exact Bool.noConfusion hu
  | some e =>
    refine ⟨f', e, h, ?_⟩
    obtain ⟨_, _, P', hr, hs⟩ := Draw_err f f' ro e hwf hro h
    rcases hs with ⟨d, he, hu, p, hp, hpd⟩ | ⟨he, hne, hall⟩
    · subst he
      exact Or.inl ⟨d, rfl, rfl, hu, p, hr.sub p hp, hpd⟩
    · exact Or.inr ⟨P', he, hasCycle_of_all_blocked f.fnService P' hwf hr.sub hne hall⟩

/-- C4, amended, at the graph `exX`. -/
theorem Draw_unknown_witness :
    exX.fnService.WF ∧ RangeOrder.stored.Valid ∧
    (∃ p ∈ exX.fnService, ∃ d ∈ p.2.dependence, exX.unknown d = true) ∧
    ∃ f' e, exX.Draw RangeOrder.stored = some (f', some e) ∧
      ((∃ d, e = DagError.unknownDependence d ∧ e.text = "依赖项不存在:" ++ d ∧
          exX.unknown d = true ∧ ∃ p ∈ exX.fnService, d ∈ p.2.dependence) ∨
       (∃ P', e = DagError.cyclicDependence P' ∧ HasCycle exX.fnService)) :=
  ⟨by decide, RangeOrder.stored_valid, by decide,
    Draw_unknown exX RangeOrder.stored (by decide) RangeOrder.stored_valid (by decide)⟩


/-- Error-free planning from the same pending map yields the same layers up to
the order inside each layer, whatever the initial tier. -/
theorem Reach.unique {f g : FxDag} {P P1 : GoMap IService} {ls1 : List (List IService)}
    (h1 : Reach f P ls1 P1) :
    P1 = [] → ∀ ls2, Reach g P ls2 [] → List.Forall₂ List.Perm ls1 ls2 := by
  induction h1 with
  | refl P =>
    intro hP ls2 h2
    subst hP
    cases h2 with
    | refl => exact List.Forall₂.nil
    | step _ _ _ _ hne => exact absurd rfl hne
  | step P ors ls P' hne hors _ _ _ ih =>
    intro hP ls2 h2
    cases h2 with
    | refl => exact absurd rfl hne
    | step _ ors2 ls2' _ _ hors2 _ _ hrest =>
      exact List.Forall₂.cons (hors.trans hors2.symm) (ih hP ls2' hrest)

theorem forall₂_getElem? {α : Type} {R : α → α → Prop} {l1 l2 : List α}
    (h : List.Forall₂ R l1 l2) :
    ∀ (i : Nat) (a b : α), l1[i]? = some a → l2[i]? = some b → R a b := by
  induction h with
  | nil => intro i a b ha; simp at ha
  | cons hab _ ih =>
    intro i a b ha hb
    cases i with
    | zero =>
      simp only [List.getElem?_cons_zero, Option.some.injEq] at ha hb
      subst ha; subst hb; exact hab
    | succ i =>
      simp only [List.getElem?_cons_succ] at ha hb
      exact ih i a b ha hb

theorem forall₂_perm_refl {α : Type} (l : List (List α)) : List.Forall₂ List.Perm l l := by
  induction l with
  | nil => exact List.Forall₂.nil
  | cons a l ih => exact List.Forall₂.cons (List.Perm.refl a) ih

/-- C5 (idempotent, order-independent planning). Two successful `Draw` calls on
the same registry and initial tier, the second made on the graph as it was
before or as it is after the first, under any two visiting orders, store plans
with the same number of layers and, at every index, the same nodes in the layer
(as lists: one is a rearrangement of the other). -/
theorem Draw_idempotent (f f1 g f2 : FxDag) (ro1 ro2 : RangeOrder) (hwf : f.fnService.WF)
    (hro1 : ro1.Valid) (hro2 : ro2.Valid) (h1 : f.Draw ro1 = some (f1, none))
    (hg : g = f ∨ g = f1) (h2 : g.Draw ro2 = some (f2, none)) :
    f1.layers.length = f2.layers.length ∧
    ∀ (i : Nat) (l1 l2 : List IService), f1.layers[i]? = some l1 → f2.layers[i]? = some l2 →
      l1.Perm l2 := by
  have key : List.Forall₂ List.Perm f1.layers f2.layers := by
    by_cases h0 : f.fnService = []
    · obtain ⟨rfl, _⟩ := Draw_empty f f1 ro1 none h0 h1
      have hgf : g = f1 := by rcases hg with h | h <;> exact h
      subst hgf
      obtain ⟨rfl, _⟩ := Draw_empty g f2 ro2 none h0 h2
      exact forall₂_perm_refl _
    · obtain ⟨e1, r1⟩ := Draw_ok f f1 ro1 hwf hro1 h0 h1
      have hreg : g.fnService = f.fnService := by
        rcases hg with h | h
        · rw [h]
        · rw [h, e1]
      have hgwf : g.fnService.WF := by rw [hreg]; exact hwf
      have hg0 : g.fnService ≠ [] := by rw [hreg]; exact h0
      obtain ⟨_, r2⟩ := Draw_ok g f2 ro2 hgwf hro2 hg0 h2
      rw [hreg] at r2
      exact r1.unique rfl _ r2
  exact ⟨key.length_eq, forall₂_getElem? key⟩

theorem checkDependence_congr (f g : FxDag) (h1 : g.initVal = f.initVal)
    (h2 : g.fnService = f.fnService) (sdm : GoMap IService) (qList : List String)
    (ds : List String) : checkDependence g sdm qList ds = checkDependence f sdm qList ds := by
  induction ds with
  | nil => rfl
  | cons d ds ih => simp only [checkDependence, h1, h2, ih]

theorem fnsNodeLoop_congr (f g : FxDag) (h1 : g.initVal = f.initVal)
    (h2 : g.fnService = f.fnService) (deps : String × IService → List String) :
    ∀ (rest : GoMap IService) (st : PassState),
      fnsNodeLoop g deps rest st = fnsNodeLoop f deps rest st := by
  intro rest
  induction rest with
  | nil => intro st; rfl
  | cons p rest ih =>
    obtain ⟨k, v⟩ := p
    intro st
    simp only [fnsNodeLoop, checkDependence_congr f g h1 h2, ih]

theorem fnsNode_congr (f g : FxDag) (h1 : g.initVal = f.initVal)
    (h2 : g.fnService = f.fnService) (order : GoMap IService)
    (deps : String × IService → List String) (sdm : GoMap IService) :
    g.fnsNode order deps sdm = f.fnsNode order deps sdm := by
  simp only [FxDag.fnsNode, fnsNodeLoop_congr f g h1 h2]

theorem drawLoop_congr (f g : FxDag) (h1 : g.initVal = f.initVal)
    (h2 : g.fnService = f.fnService) (ro : RangeOrder) :
    ∀ (fuel i : Nat) (fns : GoMap IService) (w : List operatorCollection),
      drawLoop g ro fuel i fns w = drawLoop f ro fuel i fns w := by
  intro fuel
  induction fuel with
  | zero => intro i fns w; rfl
  | succ fuel ih =>
    intro i fns w
    simp only [drawLoop, fnsNode_congr f g h1 h2, ih]

/-- C6, as stated, fails on the empty registry: after `DeleteProvider("A")`
the registry of `exStale` is empty, `Draw` returns nil, and the stored plan
still holds the node `A` of the earlier plan. -/
theorem Draw_overwrites_counterexample :
    exA.Draw RangeOrder.stored = some (exAdrawn, none) ∧
    exStale.fnService = [] ∧
    exStale.Draw RangeOrder.stored = some (exStale, none) ∧
    newServiceT 1 [] "A" true ∈ exStale.layers.flatten ∧
    ¬ ∃ k, exStale.fnService.find k = some (newServiceT 1 [] "A" true) := by
  refine ⟨by decide, by decide, by decide, by decide, ?_⟩
  rintro ⟨k, hk⟩
  have h0 : exStale.fnService = [] := by decide
  rw [h0] at hk
  simp [GoMap.find] at hk

/-- C6 (a successful Draw overwrites the stored plan), amended. When `Draw`
returns nil on a non-empty registry, the nodes of the stored plan are exactly
the nodes of the registry, each at one place of one layer (it occurs once in
the concatenation of the layers), so no node of an earlier plan that is no
longer registered remains; on an empty registry `Draw` returns nil and leaves
the stored plan as it was. -/
theorem Draw_overwrites (f f' : FxDag) (ro : RangeOrder) (hreg : f.RegistryOK) (hro : ro.Valid)
    (h : f.Draw ro = some (f', none)) :
    (f.fnService = [] → f'.wList = f.wList) ∧
    (f.fnService ≠ [] →
      (∀ N, N ∈ f'.layers.flatten ↔ ∃ k, f.fnService.find k = some N) ∧
      (∀ N ∈ f'.layers.flatten, f'.layers.flatten.count N = 1)) := by
  refine ⟨fun h0 => ?_, fun h0 => ?_⟩
  · obtain ⟨rfl, _⟩ := Draw_empty f f' ro none h0 h
    rfl
  · obtain ⟨_, hr⟩ := Draw_ok f f' ro hreg.1 hro h0 h
    have hp := hr.perm
    simp only [List.map_nil, List.append_nil] at hp
    have hnd : f'.layers.flatten.Nodup := hp.nodup_iff.2 hreg.nodup_nodes
    refine ⟨fun N => ?_, fun N hN => List.count_eq_one_of_mem hnd hN⟩
    rw [hp.mem_iff]
    constructor
    · intro hN
      obtain ⟨p, hpm, rfl⟩ := List.mem_map.1 hN
      exact ⟨p.1, GoMap.find_of_mem _ hreg.1 p.1 p.2 hpm⟩
    · rintro ⟨k, hk⟩
      exact List.mem_map.2 ⟨(k, N), GoMap.mem_of_find _ k N hk, rfl⟩

/-- C6, amended, at the graph `exAB`. -/
theorem Draw_overwrites_witness :
    exAB.RegistryOK ∧ RangeOrder.stored.Valid ∧
    exAB.Draw RangeOrder.stored = some (exABdrawn, none) ∧
    ((exAB.fnService = [] → exABdrawn.wList = exAB.wList) ∧
    (exAB.fnService ≠ [] →
      (∀ N, N ∈ exABdrawn.layers.flatten ↔ ∃ k, exAB.fnService.find k = some N) ∧
      (∀ N ∈ exABdrawn.layers.flatten, exABdrawn.layers.flatten.count N = 1))) :=
  ⟨by decide, RangeOrder.stored_valid, by decide,
    Draw_overwrites exAB exABdrawn RangeOrder.stored (by decide) RangeOrder.stored_valid
      (by decide)⟩

/-- C7, as stated, fails: `exAthenBX` holds the plan `[A]` of an earlier `Draw`;
`Draw` fails on it with the unknown-dependency error for `X`, and the stored
plan afterwards is empty, not the earlier plan. -/
theorem Draw_atomic_counterexample :
    exA.Draw RangeOrder.stored = some (exAdrawn, none) ∧
    exAthenBX.layers = [[newServiceT 1 [] "A" true]] ∧
    exAthenBX.Draw RangeOrder.stored =
      some (exAthenBXfailed, some (DagError.unknownDependence "X")) ∧
    exAthenBXfailed.layers = [] ∧ exAthenBXfailed.layers ≠ exAthenBX.layers := by
  refine ⟨by decide, by decide, by decide, by decide, by decide⟩

/-- C7 (a failed Draw and the stored plan), amended. `Draw` empties the stored
plan before it plans and does not put it back: when `Draw` returns an error,
the plan stored afterwards is the same whatever plan `P` was stored before, and
it holds the layers completed before the failing pass, whose nodes are nodes of
the current registry and fewer than the registry has. -/
theorem Draw_error_plan (f f' : FxDag) (ro : RangeOrder) (e : DagError)
    (hwf : f.fnService.WF) (hro : ro.Valid) (h : f.Draw ro = some (f', some e)) :
    (∀ P, FxDag.Draw { f with wList := P } ro = some (f', some e)) ∧
    (∀ N ∈ f'.layers.flatten, ∃ k, f.fnService.find k = some N) ∧
    f'.layers.flatten.length < f.fnService.length := by
  obtain ⟨h0, hf', P', hr, hs⟩ := Draw_err f f' ro e hwf hro h
  have hp := hr.perm
  refine ⟨fun P => ?_, fun N hN => ?_, ?_⟩
  · have hlen : f.fnService.length ≠ 0 := fun hl => h0 (List.length_eq_zero.1 hl)
    simp only [FxDag.Draw, FxDag.DrawFuel, if_neg hlen] at h ⊢
    rw [drawLoop_congr f { f with wList := P } rfl rfl]
    exact h
  · have : N ∈ f.fnService.map Prod.snd := hp.mem_iff.1 (List.mem_append_left _ hN)
    obtain ⟨p, hpm, rfl⟩ := List.mem_map.1 this
    exact ⟨p.1, GoMap.find_of_mem _ hwf p.1 p.2 hpm⟩
  · have hl := hp.length_eq
    simp only [List.length_append, List.length_map] at hl
    have : 0 < P'.length := List.length_pos.2 hs.ne_nil
    omega

/-- C7, amended, at the graph `exAthenBX`. -/
theorem Draw_error_plan_witness :
    exAthenBX.fnService.WF ∧ RangeOrder.stored.Valid ∧
    exAthenBX.Draw RangeOrder.stored =
      some (exAthenBXfailed, some (DagError.unknownDependence "X")) ∧
    ((∀ P, FxDag.Draw { exAthenBX with wList := P } RangeOrder.stored =
        some (exAthenBXfailed, some (DagError.unknownDependence "X"))) ∧
    (∀ N ∈ exAthenBXfailed.layers.flatten, ∃ k, exAthenBX.fnService.find k = some N) ∧
    exAthenBXfailed.layers.flatten.length < exAthenBX.fnService.length) :=
  ⟨by decide, RangeOrder.stored_valid, by decide,
    Draw_error_plan exAthenBX exAthenBXfailed RangeOrder.stored (DagError.unknownDependence "X")
      (by decide) RangeOrder.stored_valid (by decide)⟩

/-- C8 (Draw leaves the registry and the value store alone). For every graph
state and visiting order `Draw` returns, with nil or with an error, and the
registry, the produced tier and the initial tier (and the stop flag) of the
graph afterwards are those before the call. -/
theorem Draw_frame (f : FxDag) (ro : RangeOrder) (hwf : f.fnService.WF) (hro : ro.Valid) :
    ∃ f' r, f.Draw ro = some (f', r) ∧ f'.fnService = f.fnService ∧ f'.val = f.val ∧
      f'.initVal = f.initVal ∧ f'.stopFlag = f.stopFlag := by
  rcases Draw_spec f ro hwf hro with ⟨_, h0⟩ | ⟨_, ls, P', r, hd, _⟩
  · exact ⟨f, none, h0, rfl, rfl, rfl, rfl⟩
  · exact ⟨_, r, hd, rfl, rfl, rfl, rfl⟩

/-- C8 at the graph `exAB`. -/
theorem Draw_frame_witness :
    exAB.fnService.WF ∧ RangeOrder.stored.Valid ∧
    ∃ f' r, exAB.Draw RangeOrder.stored = some (f', r) ∧ f'.fnService = exAB.fnService ∧
      f'.val = exAB.val ∧ f'.initVal = exAB.initVal ∧ f'.stopFlag = exAB.stopFlag :=
  ⟨by decide, RangeOrder.stored_valid,
    Draw_frame exAB RangeOrder.stored (by decide) RangeOrder.stored_valid⟩


theorem GoMap.find_append_ne {β : Type} (m : GoMap β) (k k' : String) (v : β) (h : k' ≠ k) :
    GoMap.find (m ++ [(k, v)]) k' = m.find k' := by
  induction m with
  | nil =>
    have : (k' == k) = false := by simpa using h
    simp [GoMap.find, List.lookup, this]
  | cons p m ih =>
    obtain ⟨a, b⟩ := p
    simp only [GoMap.find, List.cons_append, List.lookup_cons] at ih ⊢
    rw [ih]

theorem GoMap.find_append_new {β : Type} (m : GoMap β) (k : String) (v : β)
    (h : m.has k = false) : GoMap.find (m ++ [(k, v)]) k = some v := by
  induction m with
  | nil => simp [GoMap.find, List.lookup]
  | cons p m ih =>
    obtain ⟨a, b⟩ := p
    simp only [GoMap.has, GoMap.find, List.cons_append, List.lookup_cons] at ih h ⊢
    by_cases hk : k = a
    · subst hk; simp at h
    · have h' : (k == a) = false := by simpa using hk
      rw [h'] at h ⊢
      exact ih h

theorem GoMap.find_store_self {β : Type} (m : GoMap β) (k : String) (v : β) :
    (m.store k v).find k = some v := by
  unfold GoMap.store
  by_cases h : m.has k = true
  · rw [if_pos h]
    induction m with
    | nil => simp [GoMap.has] at h
    | cons p m ih =>
      obtain ⟨a, b⟩ := p
      simp only [GoMap.has, GoMap.find, List.map_cons, List.lookup_cons] at ih h ⊢
      by_cases hk : k = a
      · subst hk; simp
      · have h' : (k == a) = false := by simpa using hk
        have h'' : (a == k) = false := by simpa using fun h => hk h.symm
        rw [h'] at h
        simp only [h'', Bool.false_eq_true, if_false, List.lookup_cons, h']
        exact ih h
  · rw [if_neg h]
    exact GoMap.find_append_new m k v (by simpa using h)

theorem GoMap.keys_store {β : Type} (m : GoMap β) (k : String) (v : β) :
    (m.store k v).keys = if m.has k then m.keys else m.keys ++ [k] := by
  unfold GoMap.store
  by_cases h : m.has k = true
  · rw [if_pos h, if_pos h]
    unfold GoMap.keys
    rw [List.map_map]
    apply List.map_congr_left
    intro p _
    by_cases hp : p.1 = k
    · simp [hp]
    · simp [hp]
  · rw [if_neg h, if_neg h]
    simp [GoMap.keys]

theorem GoMap.WF_store {β : Type} (m : GoMap β) (hm : m.WF) (k : String) (v : β) :
    (m.store k v).WF := by
  unfold GoMap.WF at *
  rw [GoMap.keys_store]
  by_cases h : m.has k = true
  · rw [if_pos h]; exact hm
  · rw [if_neg h]
    have hk : k ∉ m.keys := (GoMap.has_eq_false_iff m k).1 (by simpa using h)
    exact List.Nodup.append hm (List.nodup_singleton k) (by simpa using hk)

theorem depSet_loop (depName : List String) :
    ∀ acc : GoMap Unit, acc.WF →
      GoMap.WF (depName.foldl (fun dep v => dep.store v ()) acc) ∧
      ∀ d, d ∈ GoMap.keys (depName.foldl (fun dep v => dep.store v ()) acc) ↔
        d ∈ acc.keys ∨ d ∈ depName := by
  induction depName with
  | nil => intro acc hacc; simp [hacc]
  | cons x xs ih =>
    intro acc hacc
    obtain ⟨h1, h2⟩ := ih (acc.store x ()) (GoMap.WF_store acc hacc x ())
    refine ⟨h1, fun d => ?_⟩
    rw [List.foldl_cons, h2 d, GoMap.keys_store]
    by_cases h : acc.has x = true
    · rw [if_pos h]
      have hx : x ∈ acc.keys := (GoMap.has_iff_mem_keys acc x).1 h
      constructor
      · rintro (h | h)
        · exact Or.inl h
        · exact Or.inr (List.mem_cons_of_mem _ h)
      · rintro (h | h)
        · exact Or.inl h
        · rcases List.mem_cons.1 h with rfl | h
          · exact Or.inl hx
          · exact Or.inr h
    · rw [if_neg h]
      simp only [List.mem_append, List.mem_singleton, List.mem_cons]
      tauto

theorem depSet_keys (depName : List String) :
    (depSet depName).keys.Nodup ∧ ∀ d, d ∈ (depSet depName).keys ↔ d ∈ depName := by
  obtain ⟨h1, h2⟩ := depSet_loop depName [] (by simp [GoMap.WF, GoMap.keys])
  refine ⟨h1, fun d => ?_⟩
  have := h2 d
  simpa [GoMap.keys] using this

/-- `ProvideByName` on a registered key. -/
theorem ProvideByName_dup (f : FxDag) (name : String) (handler : Nat) (depName : List String)
    (h : f.exists name = true) :
    ProvideByName f name handler depName = (f, some (DagError.alreadyExists name)) := by
  simp [ProvideByName, h]

/-- `ProvideByName` on a key that is not registered. -/
theorem ProvideByName_fresh (f : FxDag) (name : String) (handler : Nat) (depName : List String)
    (h : f.exists name = false) :
    ProvideByName f name handler depName =
      ({ f with fnService := f.fnService ++
          [(name, newServiceT handler (depSet depName).keys name true)] }, none) := by
  have hhas : f.fnService.has name = false := h
  simp [ProvideByName, h, FxDag.set, GoMap.store, hhas]

/-- C9 (uniqueness of registration). `ProvideByName` on a registered key returns
an error and the graph as it was; on a key that is not registered it returns
nil and the registry is the old one with one more entry, the key mapped to a
node whose dependency set is the set of the given names; every other key is
mapped as before. -/
theorem ProvideByName_spec (f : FxDag) (name : String) (handler : Nat) (depName : List String) :
    (f.exists name = true →
      ProvideByName f name handler depName = (f, some (DagError.alreadyExists name))) ∧
    (f.exists name = false →
      ∃ node,
        ProvideByName f name handler depName =
          ({ f with fnService := f.fnService ++ [(name, node)] }, none) ∧
        (∀ d, d ∈ node.dependence ↔ d ∈ depName) ∧ node.dependence.Nodup ∧
        node.produce = name ∧
        (ProvideByName f name handler depName).1.fnService.find name = some node ∧
        ∀ k, k ≠ name →
          (ProvideByName f name handler depName).1.fnService.find k = f.fnService.find k) := by
  refine ⟨fun h => ProvideByName_dup f name handler depName h, fun h => ?_⟩
  have hhas : f.fnService.has name = false := h
  have hres := ProvideByName_fresh f name handler depName h
  refine ⟨newServiceT handler (depSet depName).keys name true, hres,
    (depSet_keys depName).2, (depSet_keys depName).1, rfl, ?_, fun k hk => ?_⟩
  · rw [hres]; exact GoMap.find_append_new _ _ _ hhas
  · rw [hres]; exact GoMap.find_append_ne _ _ _ _ hk

/-- Registration keeps the registry well formed. -/
theorem ProvideByName_RegistryOK (f : FxDag) (name : String) (handler : Nat)
    (depName : List String) (h : f.RegistryOK) :
    (ProvideByName f name handler depName).1.RegistryOK := by
  by_cases he : f.exists name = true
  · rw [ProvideByName_dup f name handler depName he]; exact h
  · have he' : f.exists name = false := by simpa using he
    rw [ProvideByName_fresh f name handler depName he']
    refine ⟨?_, ?_⟩
    · show GoMap.WF (f.fnService ++ [(name, newServiceT handler (depSet depName).keys name true)])
      have := GoMap.WF_store f.fnService h.1 name
        (newServiceT handler (depSet depName).keys name true)
      unfold GoMap.store at this
      have hhas : f.fnService.has name = false := he'
      simpa [hhas] using this
    · intro p hp
      rcases List.mem_append.1 hp with hp | hp
      · exact h.2 p hp
      · simp only [List.mem_singleton] at hp
        subst hp
        rfl

/-- C10, as stated, fails in its consequence: seeding `K` on a store whose
produced tier already holds `K` does not make `Load("K")` return the seeded
value; it returns the produced one. -/
theorem Load_seed_counterexample :
    (exProduced.InitParamsByName "K" (GoAny.val "string" 2)).2 = none ∧
    (exProduced.InitParamsByName "K" (GoAny.val "string" 2)).1.initVal.get "K" =
      (GoAny.val "string" 2, true) ∧
    (exProduced.InitParamsByName "K" (GoAny.val "string" 2)).1.Load "K" =
      (GoAny.val "string" 1, true) ∧
    (exProduced.InitParamsByName "K" (GoAny.val "string" 2)).1.Load "K" ≠
      (GoAny.val "string" 2, true) := by
  refine ⟨by decide, by decide, by decide, by decide⟩

/-- C10 (value precedence of Load), amended. `Load(k)` returns the produced
value with `true` when `k` is in the produced tier, else the initial value with
`true` when `k` is in the initial tier, else `false`. So after seeding `k` with
a value on a store whose produced tier has no entry for `k`, `Load(k)` returns
that value; and after a later `setVal(k, v)`, `Load(k)` returns `v` and the
initial tier is unchanged. -/
theorem Load_precedence (f : FxDag) (k : String) :
    (∀ v, f.val.val.find k = some v → f.Load k = (v, true)) ∧
    (f.val.val.find k = none → ∀ w, f.initVal.val.find k = some w → f.Load k = (w, true)) ∧
    (f.val.val.find k = none → f.initVal.val.find k = none → (f.Load k).2 = false) ∧
    (∀ t n, f.val.val.find k = none →
      (f.InitParamsByName k (GoAny.val t n)).2 = none ∧
      (f.InitParamsByName k (GoAny.val t n)).1.Load k = (GoAny.val t n, true)) ∧
    (∀ t n v,
      ((f.InitParamsByName k (GoAny.val t n)).1.setVal k v).Load k = (v, true) ∧
      ((f.InitParamsByName k (GoAny.val t n)).1.setVal k v).initVal =
        (f.InitParamsByName k (GoAny.val t n)).1.initVal) := by
  refine ⟨fun v hv => ?_, fun hn w hw => ?_, fun hn hi => ?_, fun t n hn => ?_, fun t n v => ?_⟩
  · simp [FxDag.Load, FxDag.getVal, dagValue.get, hv]
  · simp [FxDag.Load, FxDag.getVal, dagValue.get, hn, hw]
  · simp [FxDag.Load, FxDag.getVal, dagValue.get, hn, hi]
  · refine ⟨rfl, ?_⟩
    simp [FxDag.InitParamsByName, generateName, FxDag.seInitVal, FxDag.Load, FxDag.getVal,
      dagValue.get, dagValue.set, hn, GoMap.find_store_self]
  · refine ⟨?_, rfl⟩
    simp [FxDag.setVal, FxDag.Load, FxDag.getVal, dagValue.get, dagValue.set,
      GoMap.find_store_self]


theorem RangeOrder.reversed_valid : RangeOrder.reversed.Valid :=
  ⟨fun _ sdm => List.reverse_perm sdm, fun _ p => List.reverse_perm p.2.dependence⟩

/-- C5 at the graph `exABC`, drawn in stored order and then again in reversed
order: the first layer is `[A, B]` the first time and `[B, A]` the second. -/
theorem Draw_idempotent_witness :
    exABC.fnService.WF ∧ RangeOrder.stored.Valid ∧ RangeOrder.reversed.Valid ∧
    exABC.Draw RangeOrder.stored = some (exABCdrawn, none) ∧
    exABCdrawn.Draw RangeOrder.reversed = some (exABCredrawn, none) ∧
    (exABCdrawn.layers.length = exABCredrawn.layers.length ∧
      ∀ (i : Nat) (l1 l2 : List IService), exABCdrawn.layers[i]? = some l1 →
        exABCredrawn.layers[i]? = some l2 → l1.Perm l2) :=
  ⟨by decide, RangeOrder.stored_valid, RangeOrder.reversed_valid, by decide, by decide,
    Draw_idempotent exABC exABCdrawn exABCdrawn exABCredrawn RangeOrder.stored
      RangeOrder.reversed (by decide) RangeOrder.stored_valid RangeOrder.reversed_valid
      (by decide) (Or.inr rfl) (by decide)⟩

/-- C9 at the graph `exA`: registering `A` again fails, registering `B` with
the dependency names `A, A` stores a node that depends on `A`. -/
theorem ProvideByName_spec_witness :
    exA.exists "A" = true ∧ exA.exists "B" = false ∧
    ProvideByName exA "A" 7 ["B"] = (exA, some (DagError.alreadyExists "A")) ∧
    ∃ node,
      ProvideByName exA "B" 2 ["A", "A"] =
        ({ exA with fnService := exA.fnService ++ [("B", node)] }, none) ∧
      (∀ d, d ∈ node.dependence ↔ d ∈ ["A", "A"]) ∧ node.dependence.Nodup ∧
      node.produce = "B" ∧
      (ProvideByName exA "B" 2 ["A", "A"]).1.fnService.find "B" = some node ∧
      ∀ k, k ≠ "B" →
        (ProvideByName exA "B" 2 ["A", "A"]).1.fnService.find k = exA.fnService.find k :=
  ⟨by decide, by decide, (ProvideByName_spec exA "A" 7 ["B"]).1 (by decide),
    (ProvideByName_spec exA "B" 2 ["A", "A"]).2 (by decide)⟩

/-- C10, amended, on a fresh graph: seed `K`, load it, produce `K`, load it. -/
theorem Load_precedence_witness :
    New.val.val.find "K" = none ∧
    (New.InitParamsByName "K" (GoAny.val "string" 1)).1.Load "K" = (GoAny.val "string" 1, true) ∧
    ((New.InitParamsByName "K" (GoAny.val "string" 1)).1.setVal "K" (GoAny.val "string" 2)).Load
      "K" = (GoAny.val "string" 2, true) :=
  ⟨by decide, ((Load_precedence New "K").2.2.2.1 "string" 1 (by decide)).2,
    ((Load_precedence New "K").2.2.2.2 "string" 1 (GoAny.val "string" 2)).1⟩

/-! ## Seeding, nil values, and the shape of the plan -/

theorem GoMap.find_store_ne {β : Type} (m : GoMap β) (k k' : String) (v : β) (h : k' ≠ k) :
    (m.store k v).find k' = m.find k' := by
  unfold GoMap.store
  by_cases hk : m.has k = true
  · rw [if_pos hk]
    clear hk
    induction m with
    | nil => rfl
    | cons p m ih =>
      obtain ⟨a, b⟩ := p
      simp only [GoMap.find, List.map_cons, List.lookup_cons] at ih ⊢
      by_cases ha : a = k
      · subst ha
        have h' : (k' == a) = false := by simpa using h
        simp only [beq_self_eq_true, if_true, List.lookup_cons, h']
        exact ih
      · have h'' : (a == k) = false := by simpa using ha
        simp only [h'', Bool.false_eq_true, if_false, List.lookup_cons]
        rw [ih]
  · rw [if_neg hk]
    exact GoMap.find_append_ne m k k' v h

/-- C11 (seeding an initial value). `InitParamsByName(name, v)` returns an error
and leaves the graph, both tiers included, as it was when `v` is nil; for any
other `v` it returns nil, the initial tier afterwards maps `name` to `v` and
every other key as before, and the produced tier is unchanged. -/
theorem InitParamsByName_spec (f : FxDag) (name : String) :
    f.InitParamsByName name GoAny.nil = (f, some DagError.valueIsNil) ∧
    ∀ t n,
      (f.InitParamsByName name (GoAny.val t n)).2 = none ∧
      (f.InitParamsByName name (GoAny.val t n)).1.initVal.val.find name = some (GoAny.val t n) ∧
      (∀ k, k ≠ name →
        (f.InitParamsByName name (GoAny.val t n)).1.initVal.val.find k = f.initVal.val.find k) ∧
      (f.InitParamsByName name (GoAny.val t n)).1.val = f.val := by
  refine ⟨rfl, fun t n => ⟨rfl, ?_, fun k hk => ?_, rfl⟩⟩
  · simp only [FxDag.InitParamsByName, generateName, FxDag.seInitVal, dagValue.set]
    exact GoMap.find_store_self _ _ _
  · simp only [FxDag.InitParamsByName, generateName, FxDag.seInitVal, dagValue.set]
    exact GoMap.find_store_ne _ _ _ _ hk

/-- C17: `Load` on a store whose produced tier holds nil for `K` and whose
initial tier holds a value for `K` returns the nil, not the initial value. -/
theorem Load_nil_produced :
    exNilProduced.val.get "K" = (GoAny.nil, true) ∧
    exNilProduced.initVal.get "K" = (GoAny.val "string" 1, true) ∧
    exNilProduced.Load "K" = (GoAny.nil, true) ∧
    exNilProduced.Load "K" ≠ exNilProduced.initVal.get "K" := by
  refine ⟨by decide, by decide, by decide, by decide⟩

/-- `Load` returns the produced entry whenever the produced tier has one, nil
or not. -/
theorem Load_of_produced (f : FxDag) (k : String) (v : GoAny)
    (h : f.val.val.find k = some v) : f.Load k = (v, true) := by
  simp [FxDag.Load, FxDag.getVal, dagValue.get, h]

/-- An error-free pass on a non-empty pending map schedules at least one node
and takes exactly the scheduled nodes out of the pending map. -/
theorem fnsNode_progress (f : FxDag) (P order : GoMap IService)
    (deps : String × IService → List String) (hP : P.WF) (hne : P ≠ []) (ho : order.Perm P)
    (hdeps : ∀ p, (deps p).Perm p.2.dependence)
    (ors : List IService) (P' : GoMap IService)
    (h : f.fnsNode order deps P = (ors, P', none)) :
    ors ≠ [] ∧ ors.Perm ((layerOf P).map Prod.snd) ∧ P' = restOf P ∧
      P'.length + ors.length = P.length := by
  obtain ⟨b1, b2, b3, _⟩ := (fnsNode_spec f P order deps hP ho hdeps ors P' none h).1 rfl
  refine ⟨b3 hne, b1, b2, ?_⟩
  have hl := length_restOf_add P
  have : ors.length = (layerOf P).length := by simpa using b1.length_eq
  rw [b2]; omega

theorem drawLoopCut_eq (f : FxDag) (ro : RangeOrder) (hro : ro.Valid) :
    ∀ (fuel i : Nat) (P : GoMap IService) (w : List operatorCollection), P.WF →
      drawLoopCut f ro fuel i P w = drawLoop f ro fuel i P w := by
  intro fuel
  induction fuel with
  | zero => intro i P w _; rfl
  | succ fuel ih =>
    intro i P w hP
    simp only [drawLoopCut, drawLoop]
    by_cases hlen : P.length = 0
    · rw [if_pos hlen, if_pos hlen]
    · rw [if_neg hlen, if_neg hlen]
      have hne : P ≠ [] := fun hnil => hlen (by rw [hnil]; rfl)
      rcases hres : f.fnsNode (ro.nodes i P) (ro.deps i) P with ⟨ors, P1, r1⟩
      cases r1 with
      | some e1 => rfl
      | none =>
        obtain ⟨c1, _, c3, _⟩ := fnsNode_progress f P (ro.nodes i P) (ro.deps i) hP hne
          (hro.1 i P) (hro.2 i) ors P1 hres
        have hors : ors.length ≠ 0 := fun h0 => c1 (List.length_eq_zero.1 h0)
        simp only [if_neg hors]
        subst c3
        exact ih (i + 1) (restOf P) _ (restOf_WF P hP)

theorem Reach.layers_ne_nil {f : FxDag} {P P' : GoMap IService} {ls : List (List IService)}
    (h : Reach f P ls P') : ∀ l ∈ ls, l ≠ [] := by
  induction h with
  | refl P => simp
  | step P ors ls P' _ _ hne _ _ ih =>
    intro l hl
    rcases List.mem_cons.1 hl with rfl | hl
    · exact hne
    · exact ih l hl

theorem length_le_flatten {α : Type} (L : List (List α)) (h : ∀ l ∈ L, l ≠ []) :
    L.length ≤ L.flatten.length := by
  induction L with
  | nil => simp
  | cons a L ih =>
    have ha : 0 < a.length := List.length_pos.2 (h a (List.mem_cons_self _ _))
    have := ih (fun l hl => h l (List.mem_cons_of_mem _ hl))
    simp only [List.flatten_cons, List.length_append, List.length_cons]
    omega

/-- C18 (one planning pass is independent of visiting order). When `fnsNode`
returns without error on the pending map `P`, whatever the order in which the
nodes and their dependency keys were visited, the nodes it returns are the
nodes of `P` none of whose dependency keys is a key of `P` as the pass found
it, and `P` afterwards is `P` without them; so no returned node depends on the
key of another returned node. -/
theorem fnsNode_order_independent (f : FxDag) (P order : GoMap IService)
    (deps : String × IService → List String) (hP : P.WF) (ho : order.Perm P)
    (hdeps : ∀ p, (deps p).Perm p.2.dependence) (ors : List IService) (P' : GoMap IService)
    (h : f.fnsNode order deps P = (ors, P', none)) :
    (∀ N, N ∈ ors ↔ ∃ k, (k, N) ∈ P ∧ ∀ d ∈ N.dependence, P.has d = false) ∧
    ors.Perm ((P.filter (fun p => !blocked P p.2)).map Prod.snd) ∧
    P' = P.filter (fun p => blocked P p.2) ∧
    (∀ p, p ∈ P' ↔ p ∈ P ∧ ∃ d ∈ p.2.dependence, P.has d = true) ∧
    (∀ N ∈ ors, ∀ k M, (k, M) ∈ P → M ∈ ors → k ∉ N.dependence) := by
  obtain ⟨b1, b2, _, _⟩ := (fnsNode_spec f P order deps hP ho hdeps ors P' none h).1 rfl
  have hmem : ∀ N, N ∈ ors ↔ ∃ k, (k, N) ∈ P ∧ ∀ d ∈ N.dependence, P.has d = false := by
    intro N
    rw [b1.mem_iff]
    constructor
    · intro hN
      obtain ⟨p, hp, rfl⟩ := List.mem_map.1 hN
      exact ⟨p.1, (mem_layerOf.1 hp).1, (blocked_eq_false_iff P p.2).1 (mem_layerOf.1 hp).2⟩
    · rintro ⟨k, hk, hd⟩
      exact List.mem_map.2 ⟨(k, N), mem_layerOf.2 ⟨hk, (blocked_eq_false_iff P N).2 hd⟩, rfl⟩
  refine ⟨hmem, b1, b2, fun p => ?_, ?_⟩
  · rw [b2, mem_restOf, blocked_iff]
  · intro N hN k M hkM _ hkN
    obtain ⟨_, _, hd⟩ := (hmem N).1 hN
    have hk : P.has k = true :=
      (GoMap.has_iff_mem_keys P k).2 (GoMap.mem_keys_of_mem P (k, M) hkM)
    rw [hd k hkN] at hk
    exact Bool.noConfusion hk

/-- C18 on the pending map of `exAB`, visited in stored order. -/
theorem fnsNode_order_independent_witness :
    exAB.fnService.WF ∧ exAB.fnService.Perm exAB.fnService ∧
    exAB.fnsNode exAB.fnService (fun p => p.2.dependence) exAB.fnService =
      ([newServiceT 1 [] "A" true], [("B", newServiceT 2 ["A"] "B" true)], none) ∧
    ((∀ N, N ∈ [newServiceT 1 [] "A" true] ↔
        ∃ k, (k, N) ∈ exAB.fnService ∧ ∀ d ∈ N.dependence, exAB.fnService.has d = false) ∧
    [newServiceT 1 [] "A" true].Perm
      ((exAB.fnService.filter (fun p => !blocked exAB.fnService p.2)).map Prod.snd) ∧
    [("B", newServiceT 2 ["A"] "B" true)] =
      exAB.fnService.filter (fun p => blocked exAB.fnService p.2) ∧
    (∀ p, p ∈ [("B", newServiceT 2 ["A"] "B" true)] ↔
      p ∈ exAB.fnService ∧ ∃ d ∈ p.2.dependence, exAB.fnService.has d = true) ∧
    (∀ N ∈ [newServiceT 1 [] "A" true], ∀ k M, (k, M) ∈ exAB.fnService →
      M ∈ [newServiceT 1 [] "A" true] → k ∉ N.dependence)) :=
  ⟨by decide, List.Perm.refl _, by decide,
    fnsNode_order_independent exAB exAB.fnService exAB.fnService (fun p => p.2.dependence)
      (by decide) (List.Perm.refl _) (fun _ => List.Perm.refl _) _ _ (by decide)⟩

/-- C19 (Draw terminates, its empty-layer branch is dead). On a non-empty
pending map `fnsNode` returns an error or a non-empty list of nodes, which are
exactly the nodes it takes out of the pending map, so the map shrinks; cutting
the `len(ors) == 0` branch out of the loop of `Draw` changes nothing; `Draw`
returns within `n + 1` turns of its loop for a registry of `n` nodes, having
made at most `n` passes (each error-free pass stores one layer, and a failing
pass comes after fewer than `n` layers); and the stored plan has no empty layer
(given that the plan left in place on an empty registry has none). -/
theorem Draw_terminates (f : FxDag) (ro : RangeOrder) (hwf : f.fnService.WF) (hro : ro.Valid)
    (hplan : f.fnService = [] → ∀ l ∈ f.layers, l ≠ []) :
    (∀ (P order : GoMap IService) (deps : String × IService → List String),
      P.WF → P ≠ [] → order.Perm P → (∀ p, (deps p).Perm p.2.dependence) →
      ∀ ors P' r, f.fnsNode order deps P = (ors, P', r) →
        r ≠ none ∨
        (ors ≠ [] ∧ ors.Perm ((layerOf P).map Prod.snd) ∧ P' = restOf P ∧
          P'.length < P.length)) ∧
    (∀ (fuel i : Nat) (P : GoMap IService) (w : List operatorCollection), P.WF →
      drawLoopCut f ro fuel i P w = drawLoop f ro fuel i P w) ∧
    ∃ f' r, f.DrawFuel ro (f.fnService.length + 1) = some (f', r) ∧
      (∀ l ∈ f'.layers, l ≠ []) ∧
      (f.fnService ≠ [] → f'.layers.length ≤ f.fnService.length ∧
        (r ≠ none → f'.layers.length < f.fnService.length)) := by
  refine ⟨?_, drawLoopCut_eq f ro hro, ?_⟩
  · intro P order deps hP hne ho hdeps ors P' r h
    cases r with
    | some e => exact Or.inl (by simp)
    | none =>
      obtain ⟨c1, c2, c3, c4⟩ := fnsNode_progress f P order deps hP hne ho hdeps ors P' h
      have : 0 < ors.length := List.length_pos.2 c1
      exact Or.inr ⟨c1, c2, c3, by omega⟩
  · rcases Draw_spec f ro hwf hro with ⟨h0, hd⟩ | ⟨h0, ls, P', r, hd, hr, h1, h2⟩
    · exact ⟨f, none, hd, hplan h0, fun hne => absurd h0 hne⟩
    · refine ⟨_, r, hd, ?_, fun _ => ?_⟩
      · rw [wrap_layers]; exact hr.layers_ne_nil
      · rw [wrap_layers]
        have hp := hr.perm.length_eq
        simp only [List.length_append, List.length_map] at hp
        have hl := length_le_flatten ls hr.layers_ne_nil
        refine ⟨by omega, fun hrn => ?_⟩
        cases r with
        | none => exact absurd rfl hrn
        | some e =>
          have : 0 < P'.length := List.length_pos.2 (h2 e rfl).ne_nil
          omega

/-- C19 at the graph `exAB` in stored order. -/
theorem Draw_terminates_witness :
    exAB.fnService.WF ∧ RangeOrder.stored.Valid ∧
    (exAB.fnService = [] → ∀ l ∈ exAB.layers, l ≠ []) ∧
    ∃ f' r, exAB.DrawFuel RangeOrder.stored (exAB.fnService.length + 1) = some (f', r) ∧
      (∀ l ∈ f'.layers, l ≠ []) ∧
      (exAB.fnService ≠ [] → f'.layers.length ≤ exAB.fnService.length ∧
        (r ≠ none → f'.layers.length < exAB.fnService.length)) :=
  ⟨by decide, RangeOrder.stored_valid, by decide,
    (Draw_terminates exAB RangeOrder.stored (by decide) RangeOrder.stored_valid
      (by decide)).2.2⟩

theorem Reach.mem_nodes {f : FxDag} {P P' : GoMap IService} {ls : List (List IService)}
    (h : Reach f P ls P') : ∀ l ∈ ls, ∀ N ∈ l, ∃ p ∈ P, p.2 = N := by
  intro l hl N hN
  have hmem : N ∈ ls.flatten ++ P'.map Prod.snd :=
    List.mem_append_left _ (List.mem_flatten.2 ⟨l, hl, hN⟩)
  obtain ⟨p, hp, hpN⟩ := List.mem_map.1 (h.perm.mem_iff.1 hmem)
  exact ⟨p, hp, hpN⟩

/-- A node of the first layer waits for no pending key; a node of a later layer
has a dependency whose node sits in the layer just before. -/
theorem Reach.earliest {f : FxDag} {P P' : GoMap IService} {ls : List (List IService)}
    (h : Reach f P ls P') (hP : P.WF) :
    ∀ (i : Nat) (l : List IService), ls[i]? = some l → ∀ N ∈ l,
      (i = 0 → ∀ d ∈ N.dependence, P.has d = false) ∧
      (∀ j, i = j + 1 → ∃ d ∈ N.dependence, ∃ l' n',
        ls[j]? = some l' ∧ P.find d = some n' ∧ n' ∈ l') := by
  induction h with
  | refl P => intro i l hl; simp at hl
  | step P ors ls P' _ hors _ _ hrest ih =>
    intro i l hl N hN
    cases i with
    | zero =>
      simp only [List.getElem?_cons_zero, Option.some.injEq] at hl
      subst hl
      obtain ⟨p, hp, rfl⟩ := List.mem_map.1 (hors.mem_iff.1 hN)
      exact ⟨fun _ => (blocked_eq_false_iff P p.2).1 (mem_layerOf.1 hp).2,
        fun j hj => by omega⟩
    | succ i =>
      simp only [List.getElem?_cons_succ] at hl
      refine ⟨fun h0 => by omega, fun j hj => ?_⟩
      have hji : j = i := by omega
      subst hji
      obtain ⟨ih0, ihs⟩ := ih (restOf_WF P hP) j l hl N hN
      cases j with
      | zero =>
        obtain ⟨p, hp, hpN⟩ := hrest.mem_nodes l (List.getElem?_mem hl) N hN
        have hb : blocked P N = true := by rw [← hpN]; exact (mem_restOf.1 hp).2
        obtain ⟨d, hd, hPd⟩ := (blocked_iff P N).1 hb
        obtain ⟨q, hq, hqd⟩ := List.mem_map.1 ((GoMap.has_iff_mem_keys P d).1 hPd)
        have hnot : (restOf P).has d = false := ih0 rfl d hd
        have hqb : blocked P q.2 = false := by
          by_contra hqb
          have hqb' : blocked P q.2 = true := by simpa using hqb
          have : (restOf P).has d = true := by
            rw [GoMap.has_iff_mem_keys]
            exact List.mem_map.2 ⟨q, mem_restOf.2 ⟨hq, hqb'⟩, hqd⟩
          rw [hnot] at this
          exact Bool.noConfusion this
        refine ⟨d, hd, ors, q.2, by simp, ?_, ?_⟩
        · apply GoMap.find_of_mem P hP
          rw [← hqd]; exact hq
        · exact hors.mem_iff.2 (List.mem_map.2 ⟨q, mem_layerOf.2 ⟨hq, hqb⟩, rfl⟩)
      | succ j =>
        obtain ⟨d, hd, l', n', hl', hf, hn⟩ := ihs j rfl
        refine ⟨d, hd, l', n', by simpa using hl', ?_, hn⟩
        have hmem := GoMap.mem_of_find _ _ _ hf
        exact GoMap.find_of_mem P hP d n' (mem_restOf.1 hmem).1

/-- A chain that starts at a key whose node sits in layer `i` has at most
`i + 1` keys. -/
theorem chain_le_index {f : FxDag} {reg : GoMap IService} {ls : List (List IService)}
    (hr : Reach f reg ls []) (hreg : reg.WF) :
    ∀ (ks : List String) (k : String) (i : Nat) (l : List IService) (n : IService),
      List.Chain (DependsOn reg) k ks → reg.find k = some n → ls[i]? = some l → n ∈ l →
      ks.length + 1 ≤ i + 1 := by
  intro ks
  induction ks with
  | nil => intro k i l n _ _ _ _; simp
  | cons k2 ks ih =>
    intro k i l n hc hk hl hn
    obtain ⟨⟨n0, hn0, hd, hhas⟩, hc'⟩ := List.chain_cons.1 hc
    rw [hk] at hn0
    cases hn0
    obtain ⟨j, l', n', hj, hl', hf, hn'⟩ := hr.layering hreg i l hl n hn k2 hd hhas
    have := ih k2 j l' n' hc' hf hl' hn'
    simp only [List.length_cons]
    omega

/-- From a key whose node sits in layer `i` starts a chain of `i + 1` keys. -/
theorem chain_of_index {f : FxDag} {reg : GoMap IService} {ls : List (List IService)}
    (hr : Reach f reg ls []) (hreg : reg.WF) :
    ∀ (i : Nat) (l : List IService) (n : IService) (k : String),
      ls[i]? = some l → n ∈ l → reg.find k = some n →
      ∃ ks, List.Chain (DependsOn reg) k ks ∧ (∀ x ∈ ks, reg.has x = true) ∧ ks.length = i := by
  intro i
  induction i with
  | zero => intro l n k _ _ _; exact ⟨[], List.Chain.nil, by simp, rfl⟩
  | succ i ih =>
    intro l n k hl hn hk
    obtain ⟨d, hd, l', n', hl', hf, hn'⟩ := (hr.earliest hreg (i + 1) l hl n hn).2 i rfl
    have hhas : reg.has d = true := by
      unfold GoMap.find at hf
      simp [GoMap.has, hf]
    obtain ⟨ks, hc, hall, hlen⟩ := ih l' n' d hl' hn' hf
    refine ⟨d :: ks, List.Chain.cons ⟨n, hk, hd, hhas⟩ hc, ?_, by simp [hlen]⟩
    intro x hx
    rcases List.mem_cons.1 hx with rfl | hx
    · exact hhas
    · exact hall x hx

theorem GoMap.has_of_find {β : Type} (m : GoMap β) (k : String) (v : β)
    (h : m.find k = some v) : m.has k = true := by
  unfold GoMap.find at h
  simp [GoMap.has, h]

theorem GoMap.find_of_has {β : Type} (m : GoMap β) (k : String) (h : m.has k = true) :
    ∃ v, m.find k = some v := by
  unfold GoMap.has at h
  exact Option.isSome_iff_exists.1 h

/-- C20, as stated, fails on an empty registry that follows a drawn plan:
`Draw` on `exStaleAB` returns nil with the two layers `[A], [B]` still stored;
node `B` sits in the second layer though none of its dependency keys is
registered, and no dependency chain of registered keys has any key at all. -/
theorem Draw_earliest_counterexample :
    exStaleAB.fnService.WF ∧ RangeOrder.stored.Valid ∧
    exStaleAB.Draw RangeOrder.stored = some (exStaleAB, none) ∧
    exStaleAB.layers[1]? = some [newServiceT 2 ["A"] "B" true] ∧
    (∀ d ∈ (newServiceT 2 ["A"] "B" true).dependence, exStaleAB.fnService.has d = false) ∧
    exStaleAB.layers.length = 2 ∧
    ∀ ks, IsChain exStaleAB.fnService ks → ks.length = 0 := by
  refine ⟨by decide, RangeOrder.stored_valid, by decide, by decide, by decide, by decide, ?_⟩
  intro ks hks
  cases ks with
  | nil => rfl
  | cons k ks =>
    have h1 := hks.2 k (List.mem_cons_self _ _)
    have h0 : exStaleAB.fnService = [] := by decide
    rw [h0] at h1
    simp [GoMap.has] at h1

/-- C20 (every node is scheduled as early as possible), amended. When `Draw`
returns nil on a non-empty registry, a node sits in the first layer exactly when
none of its dependency keys is registered; otherwise all its registered
dependencies sit in earlier layers and one of them sits in the layer just
before, so its 1-based layer index is one more than the largest index among
them. Hence no dependency chain of registered keys has more keys than the plan
has layers, and some chain has as many. On an empty registry `Draw` returns nil
and leaves the graph, its stored plan included, as it was. -/
theorem Draw_earliest (f f' : FxDag) (ro : RangeOrder) (hwf : f.fnService.WF) (hro : ro.Valid)
    (h : f.Draw ro = some (f', none)) :
    (f.fnService = [] → f' = f) ∧
    (f.fnService ≠ [] →
      (∀ (i : Nat) (l : List IService), f'.layers[i]? = some l → ∀ N ∈ l,
        ((∀ d ∈ N.dependence, f.fnService.has d = false) ↔ i = 0) ∧
        (∀ d ∈ N.dependence, f.fnService.has d = true →
          ∃ j l' n', j < i ∧ f'.layers[j]? = some l' ∧ f.fnService.find d = some n' ∧ n' ∈ l') ∧
        (∀ j, i = j + 1 → ∃ d ∈ N.dependence, ∃ l' n',
          f'.layers[j]? = some l' ∧ f.fnService.find d = some n' ∧ n' ∈ l')) ∧
      (∀ ks, IsChain f.fnService ks → ks.length ≤ f'.layers.length) ∧
      (∃ ks, IsChain f.fnService ks ∧ ks.length = f'.layers.length)) := by
  refine ⟨fun h0 => (Draw_empty f f' ro none h0 h).1, fun h0 => ?_⟩
  obtain ⟨_, hr⟩ := Draw_ok f f' ro hwf hro h0 h
  have hp := hr.perm
  simp only [List.map_nil, List.append_nil] at hp
  refine ⟨fun i l hl N hN => ?_, fun ks hks => ?_, ?_⟩
  · obtain ⟨e0, es⟩ := hr.earliest hwf i l hl N hN
    refine ⟨⟨fun hno => ?_, e0⟩, fun d hd hhas => hr.layering hwf i l hl N hN d hd hhas, es⟩
    cases i with
    | zero => rfl
    | succ j =>
      obtain ⟨d, hd, _, n', _, hf, _⟩ := es j rfl
      have := GoMap.has_of_find _ d n' hf
      rw [hno d hd] at this
      exact Bool.noConfusion this
  · cases ks with
    | nil => simp
    | cons k ks =>
      obtain ⟨n, hn⟩ := GoMap.find_of_has _ k (hks.2 k (List.mem_cons_self _ _))
      have hmem : n ∈ f'.layers.flatten :=
        hp.mem_iff.2 (List.mem_map.2 ⟨(k, n), GoMap.mem_of_find _ k n hn, rfl⟩)
      obtain ⟨l, hl, hnl⟩ := List.mem_flatten.1 hmem
      obtain ⟨i, hi⟩ := List.mem_iff_getElem?.1 hl
      have hlt : i < f'.layers.length := by
        by_contra hge
        rw [List.getElem?_eq_none (by omega)] at hi
        simp at hi
      have := chain_le_index hr hwf ks k i l n hks.1 hn hi hnl
      simp only [List.length_cons]
      omega
  · cases hL : f'.layers.length with
    | zero => exact ⟨[], ⟨List.chain'_nil, by simp⟩, rfl⟩
    | succ m =>
      have hm : m < f'.layers.length := by omega
      have hget : f'.layers[m]? = some (f'.layers[m]) := List.getElem?_eq_getElem hm
      have hne : f'.layers[m] ≠ [] := hr.layers_ne_nil _ (List.getElem_mem _)
      obtain ⟨N, hN⟩ := List.exists_mem_of_ne_nil _ hne
      obtain ⟨p, hpm, hpN⟩ := hr.mem_nodes _ (List.getElem_mem _) N hN
      have hk : f.fnService.find p.1 = some N := by
        rw [← hpN]; exact GoMap.find_of_mem _ hwf p.1 p.2 hpm
      obtain ⟨ks, hc, hall, hlen⟩ := chain_of_index hr hwf m _ N p.1 hget hN hk
      refine ⟨p.1 :: ks, ⟨hc, ?_⟩, by simp [hlen]⟩
      intro x hx
      rcases List.mem_cons.1 hx with rfl | hx
      · exact GoMap.has_of_find _ _ _ hk
      · exact hall x hx

/-- C20, amended, at the graph `exAB` in stored order. -/
theorem Draw_earliest_witness :
    exAB.fnService.WF ∧ RangeOrder.stored.Valid ∧
    exAB.Draw RangeOrder.stored = some (exABdrawn, none) ∧ exAB.fnService ≠ [] ∧
    ((∀ (i : Nat) (l : List IService), exABdrawn.layers[i]? = some l → ∀ N ∈ l,
      ((∀ d ∈ N.dependence, exAB.fnService.has d = false) ↔ i = 0) ∧
      (∀ d ∈ N.dependence, exAB.fnService.has d = true →
        ∃ j l' n', j < i ∧ exABdrawn.layers[j]? = some l' ∧ exAB.fnService.find d = some n' ∧
          n' ∈ l') ∧
      (∀ j, i = j + 1 → ∃ d ∈ N.dependence, ∃ l' n',
        exABdrawn.layers[j]? = some l' ∧ exAB.fnService.find d = some n' ∧ n' ∈ l')) ∧
    (∀ ks, IsChain exAB.fnService ks → ks.length ≤ exABdrawn.layers.length) ∧
    (∃ ks, IsChain exAB.fnService ks ∧ ks.length = exABdrawn.layers.length)) :=
  ⟨by decide, RangeOrder.stored_valid, by decide, by decide,
    (Draw_earliest exAB exABdrawn RangeOrder.stored (by decide) RangeOrder.stored_valid
      (by decide)).2 (by decide)⟩

/-! ## Execution -/

theorem dagValue.get_set_same (dv : dagValue) (k : String) (v : GoAny) :
    (dv.set k v).get k = (v, true) := by
  simp [dagValue.get, dagValue.set, GoMap.find_store_self]

theorem dagValue.get_set_other (dv : dagValue) (k k' : String) (v : GoAny) (h : k' ≠ k) :
    (dv.set k v).get k' = dv.get k' := by
  simp [dagValue.get, dagValue.set, GoMap.find_store_ne _ _ _ _ h]

/-- A node run stores at most one value, under the key the node produces, in
the graph as its behaviour left it. -/
theorem execute_shape (b : Behaviours) (s : IService) (w : Live) :
    ∃ w', (w' = (b.handler s.fn w).1 ∨ w' = (b.reflCall s.fn w (service.params b s w.dag)).1) ∧
      ((s.execute b w).1 = w' ∨ ∃ v, (s.execute b w).1 = w'.store s.produce v) := by
  unfold IService.execute
  cases s.kind with
  | typed =>
    refine ⟨_, Or.inl rfl, ?_⟩
    simp only [serviceT.execute]
    cases (b.handler s.fn w).2 with
    | panic v => exact Or.inl rfl
    | ret v err =>
      cases err with
      | some e => exact Or.inl rfl
      | none =>
        by_cases hpd : s.pd = true
        · simp only [hpd]; exact Or.inr ⟨v, rfl⟩
        · have : s.pd = false := by simpa using hpd
          simp only [this]; exact Or.inl rfl
  | reflected =>
    refine ⟨_, Or.inr rfl, ?_⟩
    simp only [service.executeReflect]
    cases (b.reflCall s.fn w (service.params b s w.dag)).2 with
    | panic v => exact Or.inl rfl
    | ret v err =>
      dsimp only
      split_ifs with h1 h2
      · exact Or.inl rfl
      · cases err with
        | some e => exact Or.inl rfl
        | none => exact Or.inr ⟨v, rfl⟩
      · cases err with
        | some e => exact Or.inl rfl
        | none => exact Or.inl rfl

/-- With steady behaviours a node run leaves the layers to read, the stop flag
and the initial tier as they are, and the produced tier as it is or with one
value stored under the key the node produces. -/
theorem execute_cases (b : Behaviours) (hb : b.Steady) (s : IService) (w : Live) :
    (s.execute b w).1.arr = w.arr ∧ (s.execute b w).1.dag.stopFlag = w.dag.stopFlag ∧
    (s.execute b w).1.dag.initVal = w.dag.initVal ∧
    ((s.execute b w).1.dag.val = w.dag.val ∨
      ∃ v, (s.execute b w).1.dag.val = w.dag.val.set s.produce v) := by
  obtain ⟨w', hw', hcase⟩ := execute_shape b s w
  have hst : w'.arr = w.arr ∧ w'.dag.stopFlag = w.dag.stopFlag ∧ w'.dag.val = w.dag.val ∧
      w'.dag.initVal = w.dag.initVal := by
    rcases hw' with h | h
    · rw [h]; exact hb.1 s.fn w
    · rw [h]; exact hb.2 s.fn w _
  obtain ⟨h1, h2, h3, h4⟩ := hst
  rcases hcase with h | ⟨v, h⟩
  · rw [h]; exact ⟨h1, h2, h4, Or.inl h3⟩
  · rw [h]
    refine ⟨h1, h2, h4, Or.inr ⟨v, ?_⟩⟩
    simp only [Live.store, h3]

theorem execute_get_other (b : Behaviours) (hb : b.Steady) (s : IService) (w : Live)
    (k : String) (h : s.produce ≠ k) :
    (s.execute b w).1.dag.val.get k = w.dag.val.get k := by
  rcases (execute_cases b hb s w).2.2.2 with h1 | ⟨v, h1⟩
  · rw [h1]
  · rw [h1]; exact dagValue.get_set_other _ _ _ _ (fun hk => h hk.symm)

theorem execute_get_mono (b : Behaviours) (hb : b.Steady) (s : IService) (w : Live)
    (k : String) (h : (w.dag.val.get k).2 = true) :
    ((s.execute b w).1.dag.val.get k).2 = true := by
  by_cases hk : s.produce = k
  · rcases (execute_cases b hb s w).2.2.2 with h1 | ⟨v, h1⟩
    · rw [h1]; exact h
    · rw [h1, ← hk, dagValue.get_set_same]
  · rw [execute_get_other b hb s w k hk]; exact h

theorem Chained.append {b : Behaviours} :
    ∀ (a c : List ExecEvent) (s t : Live),
      Chained b s (a ++ c) t ↔ ∃ m, Chained b s a m ∧ Chained b m c t := by
  intro a
  induction a with
  | nil =>
    intro c s t
    simp only [List.nil_append, Chained]
    constructor
    · intro h; exact ⟨s, rfl, h⟩
    · rintro ⟨m, rfl, h⟩; exact h
  | cons ev a ih =>
    intro c s t
    constructor
    · intro h
      obtain ⟨h1, h2, h3⟩ : ev.seen = s ∧ ev.result = (ev.node.execute b s).2 ∧
          Chained b (ev.node.execute b s).1 (a ++ c) t := h
      obtain ⟨m, h4, h5⟩ := (ih c _ t).1 h3
      exact ⟨m, ⟨h1, h2, h4⟩, h5⟩
    · rintro ⟨m, ⟨h1, h2, h3⟩, h4⟩
      exact ⟨h1, h2, (ih c _ t).2 ⟨m, h3, h4⟩⟩

/-- Runs of steady behaviours leave the layers to read, the stop flag and the
initial tier as they are. -/
theorem Chained.frame {b : Behaviours} (hb : b.Steady) :
    ∀ (tr : List ExecEvent) (s t : Live), Chained b s tr t →
      t.arr = s.arr ∧ t.dag.stopFlag = s.dag.stopFlag ∧ t.dag.initVal = s.dag.initVal := by
  intro tr
  induction tr with
  | nil => intro s t h; simp only [Chained] at h; subst h; exact ⟨rfl, rfl, rfl⟩
  | cons ev tr ih =>
    intro s t h
    obtain ⟨_, _, h3⟩ := h
    obtain ⟨a1, a2, a3⟩ := ih _ _ h3
    obtain ⟨b1, b2, b3, _⟩ := execute_cases b hb ev.node s
    exact ⟨a1.trans b1, a2.trans b2, a3.trans b3⟩

/-- A key no run of the trace produces keeps its produced entry. -/
theorem Chained.get_other {b : Behaviours} (hb : b.Steady) :
    ∀ (tr : List ExecEvent) (s t : Live) (k : String), Chained b s tr t →
      (∀ ev ∈ tr, ev.node.produce ≠ k) → t.dag.val.get k = s.dag.val.get k := by
  intro tr
  induction tr with
  | nil => intro s t k h _; simp only [Chained] at h; subst h; rfl
  | cons ev tr ih =>
    intro s t k h hk
    obtain ⟨_, _, h3⟩ := h
    rw [ih _ _ k h3 (fun e he => hk e (List.mem_cons_of_mem _ he))]
    exact execute_get_other b hb ev.node s k (hk ev (List.mem_cons_self _ _))

/-- A key found in the produced tier stays found. -/
theorem Chained.get_mono {b : Behaviours} (hb : b.Steady) :
    ∀ (tr : List ExecEvent) (s t : Live) (k : String), Chained b s tr t →
      (s.dag.val.get k).2 = true → (t.dag.val.get k).2 = true := by
  intro tr
  induction tr with
  | nil => intro s t k h hs; simp only [Chained] at h; subst h; exact hs
  | cons ev tr ih =>
    intro s t k h hs
    obtain ⟨_, _, h3⟩ := h
    exact ih _ _ k h3 (execute_get_mono b hb ev.node s k hs)

theorem Chained.result {b : Behaviours} :
    ∀ (tr : List ExecEvent) (s t : Live), Chained b s tr t →
      ∀ ev ∈ tr, ev.result = (ev.node.execute b ev.seen).2 := by
  intro tr
  induction tr with
  | nil => intro s t _ ev hev; simp at hev
  | cons e0 tr ih =>
    intro s t h ev hev
    obtain ⟨h1, h2, h3⟩ := h
    rcases List.mem_cons.1 hev with rfl | hev
    · rw [h1]; exact h2
    · exact ih _ t h3 ev hev

theorem runLayer_spec (b : Behaviours) :
    ∀ (order : List IService) (w : Live),
      Chained b w (runLayer b order w).2.2 (runLayer b order w).1 ∧
      (runLayer b order w).2.2.map ExecEvent.node = order ∧
      ((runLayer b order w).2.1 = none ↔
        ∀ ev ∈ (runLayer b order w).2.2, SafeFn ev.result = none) ∧
      (∀ e, (runLayer b order w).2.1 = some e →
        ∃ ev ∈ (runLayer b order w).2.2, SafeFn ev.result = some e) := by
  intro order
  induction order with
  | nil => intro w; simp [runLayer, Chained]
  | cons s rest ih =>
    intro w
    obtain ⟨i1, i2, i3, i4⟩ := ih (s.execute b w).1
    simp only [runLayer]
    refine ⟨⟨rfl, rfl, i1⟩, by simp [i2], ?_, ?_⟩
    · cases hs : SafeFn (s.execute b w).2 with
      | some e => simp [hs]
      | none => simp [hs, i3]
    · intro e he
      cases hs : SafeFn (s.execute b w).2 with
      | some e0 =>
        rw [hs] at he
        simp only [Option.some.injEq] at he
        subst he
        exact ⟨_, List.mem_cons_self _ _, hs⟩
      | none =>
        rw [hs] at he
        obtain ⟨ev, hev, hr⟩ := i4 e he
        exact ⟨ev, List.mem_cons_of_mem _ hev, hr⟩

/-- The runs of the loop of `Execute` follow one another from the graph the
loop began on to the graph it left. -/
theorem executeLoop_chained (b : Behaviours) (run : Nat → List IService → List IService) :
    ∀ (n i : Nat) (w : Live),
      Chained b w (executeLoop b run n i w).2.2 (executeLoop b run n i w).1 := by
  intro n
  induction n with
  | zero => intro i w; simp [executeLoop, Chained]
  | succ n ih =>
    intro i w
    simp only [executeLoop]
    cases w.arr[i]? with
    | none => simp [Chained]
    | some v =>
      dsimp only
      split_ifs with h1 h2
      · exact ih (i + 1) w
      · simp [Chained]
      · obtain ⟨c1, _, _, _⟩ := runLayer_spec b (run i v.handlers) w
        rcases hr : runLayer b (run i v.handlers) w with ⟨d1, e1, t1⟩
        rw [hr] at c1
        cases e1 with
        | some e => exact c1
        | none => exact (Chained.append t1 _ w _).2 ⟨d1, c1, ih (i + 1) d1⟩

/-- With the stop flag set the loop of `Execute` runs nothing. -/
theorem executeLoop_stopped (b : Behaviours) (run : Nat → List IService → List IService) :
    ∀ (n i : Nat) (w : Live), w.dag.stopFlag > 0 →
      executeLoop b run n i w = (w, none, []) := by
  intro n
  induction n with
  | zero => intro i w _; rfl
  | succ n ih =>
    intro i w hs
    simp only [executeLoop]
    cases w.arr[i]? with
    | none => rfl
    | some v =>
      dsimp only
      split_ifs with h1
      · exact ih (i + 1) w hs
      · rfl

theorem Execute_of_stopped (f : FxDag) (b : Behaviours)
    (run : Nat → List IService → List IService) (h : f.stopFlag > 0) :
    f.Execute b run = ({ f with stopFlag := 0 }, none, []) := by
  unfold FxDag.Execute
  by_cases hl : f.wList.length = 0
  · rw [if_pos hl]; rfl
  · rw [if_neg hl, executeLoop_stopped b run f.wList.length 0 f.live h]; rfl

theorem Stop_iterate (f : FxDag) : ∀ n : Nat, FxDag.Stop^[n + 1] f = f.Stop := by
  intro n
  induction n with
  | zero => rfl
  | succ n ih => rw [Function.iterate_succ_apply', ih]; rfl

/-- C14 (stop cooperation and flag reset). The stop flag is 0 after `Execute`,
however it returns. After one or more calls of `Stop`, `Execute` returns nil,
runs no node and leaves the graph as it was before the stops but for the
cleared flag, both value tiers included; so an `Execute` right after behaves as
an `Execute` on the graph with its stop flag never set. -/
theorem Execute_stop (f : FxDag) (b : Behaviours) (run run' : Nat → List IService → List IService)
    (n : Nat) :
    (f.Execute b run).1.stopFlag = 0 ∧
    (FxDag.Stop^[n + 1] f).Execute b run = ({ f with stopFlag := 0 }, none, []) ∧
    ((FxDag.Stop^[n + 1] f).Execute b run).1.val = f.val ∧
    ((FxDag.Stop^[n + 1] f).Execute b run).1.initVal = f.initVal ∧
    ((FxDag.Stop^[n + 1] f).Execute b run).1.Execute b run' =
      FxDag.Execute { f with stopFlag := 0 } b run' := by
  have h : (FxDag.Stop^[n + 1] f).Execute b run = ({ f with stopFlag := 0 }, none, []) := by
    rw [Stop_iterate, Execute_of_stopped f.Stop b run Nat.zero_lt_one]
    rfl
  refine ⟨rfl, h, ?_, ?_, ?_⟩
  · rw [h]
  · rw [h]
  · rw [h]

/-- C16 fails on a reflected service that stores no output: the function
behind `exNoName` returns an error, and `execute` returns nil; the same
behaviour behind a `serviceT` that stores no output has its error returned. -/
theorem executeReflect_swallows_error :
    (exFailing.reflCall exNoName.fn New.live []).2 =
      Outcome.ret GoAny.nil (some (GoError.returned 7)) ∧
    exNoName.execute exFailing New.live = (New.live, FnResult.returned none) ∧
    (newServiceT 5 [] "0xc000012345" false).execute exFailing New.live =
      (New.live, FnResult.returned (some (GoError.returned 7))) := by
  refine ⟨rfl, by decide, by decide⟩

/-- `(*serviceT[T]).execute` returns the error of its behaviour and stores
nothing; when the behaviour succeeds it returns nil and stores the value under
the produced key exactly when the node stores output. The graph is otherwise
as the behaviour left it. -/
theorem serviceT_execute_spec (b : Behaviours) (s : IService) (w : Live) :
    (∀ v e, (b.handler s.fn w).2 = Outcome.ret v (some e) →
      serviceT.execute b s w = ((b.handler s.fn w).1, FnResult.returned (some e))) ∧
    (∀ v, (b.handler s.fn w).2 = Outcome.ret v none → s.pd = true →
      serviceT.execute b s w =
        ((b.handler s.fn w).1.store s.produce v, FnResult.returned none)) ∧
    (∀ v, (b.handler s.fn w).2 = Outcome.ret v none → s.pd = false →
      serviceT.execute b s w = ((b.handler s.fn w).1, FnResult.returned none)) := by
  refine ⟨fun v e h => ?_, fun v h hpd => ?_, fun v h hpd => ?_⟩
  · simp [serviceT.execute, h]
  · simp [serviceT.execute, h, hpd]
  · simp [serviceT.execute, h, hpd]

/-- `executeReflect` of a service that stores output returns the error of the
function and stores nothing; when the function succeeds it returns nil and
stores the first result exactly when the function has two results. The graph is
otherwise as the function left it. -/
theorem executeReflect_spec_pd (b : Behaviours) (s : IService) (w : Live)
    (hpd : s.pd = true) :
    (∀ v e, (b.reflCall s.fn w (service.params b s w.dag)).2 = Outcome.ret v (some e) →
      0 < b.reflOut s.fn →
      service.executeReflect b s w =
        ((b.reflCall s.fn w (service.params b s w.dag)).1, FnResult.returned (some e))) ∧
    (∀ v, (b.reflCall s.fn w (service.params b s w.dag)).2 = Outcome.ret v none →
      1 < b.reflOut s.fn →
      service.executeReflect b s w =
        ((b.reflCall s.fn w (service.params b s w.dag)).1.store s.produce v,
          FnResult.returned none)) ∧
    (∀ v, (b.reflCall s.fn w (service.params b s w.dag)).2 = Outcome.ret v none →
      b.reflOut s.fn ≤ 1 →
      service.executeReflect b s w =
        ((b.reflCall s.fn w (service.params b s w.dag)).1, FnResult.returned none)) := by
  refine ⟨fun v e h hout => ?_, fun v h hout => ?_, fun v h hout => ?_⟩
  · have h0 : ¬ b.reflOut s.fn = 0 := by omega
    simp [service.executeReflect, h, hpd, h0]
  · have h0 : ¬ b.reflOut s.fn = 0 := by omega
    simp [service.executeReflect, h, hpd, h0, hout, Live.store, FxDag.setVal]
  · have h1 : ¬ 1 < b.reflOut s.fn := by omega
    simp [service.executeReflect, h, hpd, h1]

theorem Load_of_get (f : FxDag) (k : String) (v : GoAny) (h : f.val.get k = (v, true)) :
    f.Load k = (v, true) := by
  simp [FxDag.Load, FxDag.getVal, h]

theorem Load_found_of_get (f : FxDag) (k : String) (h : (f.val.get k).2 = true) :
    (f.Load k).2 = true := by
  rcases hg : f.val.get k with ⟨v, ok⟩
  rw [hg] at h
  simp only at h
  subst h
  rw [Load_of_get f k v hg]

/-- After a run, the entry of a key that no later run produces is the one the
run left. -/
theorem Chained.get_after {b : Behaviours} (hb : b.Steady) (p q : List ExecEvent)
    (ev : ExecEvent) (s t : Live) (k : String) (h : Chained b s (p ++ ev :: q) t)
    (hq : ∀ e ∈ q, e.node.produce ≠ k) :
    t.dag.val.get k = (ev.node.execute b ev.seen).1.dag.val.get k := by
  obtain ⟨m, _, h2⟩ := (Chained.append p (ev :: q) s t).1 h
  obtain ⟨hseen, _, h3⟩ := h2
  rw [hseen]
  exact Chained.get_other hb q _ t k h3 hq

/-- A key found in the produced tier right after a run is found at the end. -/
theorem Chained.found_after {b : Behaviours} (hb : b.Steady) (p q : List ExecEvent)
    (ev : ExecEvent) (s t : Live) (k : String) (h : Chained b s (p ++ ev :: q) t)
    (hk : ((ev.node.execute b ev.seen).1.dag.val.get k).2 = true) :
    (t.dag.val.get k).2 = true := by
  obtain ⟨m, _, h2⟩ := (Chained.append p (ev :: q) s t).1 h
  obtain ⟨hseen, _, h3⟩ := h2
  rw [hseen] at hk
  exact Chained.get_mono hb q _ t k h3 hk

theorem run_nil {run : Nat → List IService → List IService} (hrun : RunValid run) (i : Nat) :
    run i [] = [] := List.Perm.eq_nil (hrun i [])

theorem runStored_valid : RunValid runStored := fun _ l => List.Perm.refl l

theorem runLayer_frame (b : Behaviours) (hb : b.Steady) (order : List IService) (w : Live) :
    (runLayer b order w).1.arr = w.arr ∧
    (runLayer b order w).1.dag.stopFlag = w.dag.stopFlag ∧
    (runLayer b order w).1.dag.initVal = w.dag.initVal :=
  Chained.frame hb _ _ _ (runLayer_spec b order w).1

/-- The first `n` turns of the loop of `Execute`, when they run without error
on steady behaviours with the stop flag clear, are followed by the remaining
turns on the graph they left. -/
theorem executeLoop_append (b : Behaviours) (hb : b.Steady)
    (run : Nat → List IService → List IService) :
    ∀ (n m i : Nat) (w w1 : Live) (tr1 : List ExecEvent),
      w.dag.stopFlag = 0 → i + n ≤ w.arr.length →
      executeLoop b run n i w = (w1, none, tr1) →
      w1.dag.stopFlag = 0 ∧ w1.arr = w.arr ∧
      executeLoop b run (n + m) i w =
        ((executeLoop b run m (i + n) w1).1, (executeLoop b run m (i + n) w1).2.1,
          tr1 ++ (executeLoop b run m (i + n) w1).2.2) := by
  intro n
  induction n with
  | zero =>
    intro m i w w1 tr1 hs _ h
    simp only [executeLoop, Prod.mk.injEq] at h
    obtain ⟨rfl, _, rfl⟩ := h
    exact ⟨hs, rfl, by simp⟩
  | succ n ih =>
    intro m i w w1 tr1 hs hlen h
    have hidx : n + 1 + m = n + m + 1 := by omega
    have hidx2 : i + (n + 1) = i + 1 + n := by omega
    rw [hidx, hidx2]
    have hi : i < w.arr.length := by omega
    simp only [executeLoop, List.getElem?_eq_getElem hi] at h ⊢
    have hnot : ¬ w.dag.stopFlag > 0 := by omega
    by_cases h1 : (w.arr[i]).handlers.length = 0
    · rw [if_pos h1] at h ⊢
      exact ih m (i + 1) w w1 tr1 hs (by omega) h
    · rw [if_neg h1, if_neg hnot] at h ⊢
      obtain ⟨f1, f2, _⟩ := runLayer_frame b hb (run i (w.arr[i]).handlers) w
      rcases hr : runLayer b (run i (w.arr[i]).handlers) w with ⟨d', e', t'⟩
      rw [hr] at h f1 f2
      simp only at f1 f2
      cases e' with
      | some e => simp at h
      | none =>
        simp only [Prod.mk.injEq] at h
        obtain ⟨h1', h2', h3'⟩ := h
        have hs' : d'.dag.stopFlag = 0 := by rw [f2]; exact hs
        obtain ⟨i1, i2, i3⟩ := ih m (i + 1) d' w1 (executeLoop b run n (i + 1) d').2.2 hs'
          (by rw [f1]; omega) (by rw [← h1', ← h2'])
        refine ⟨i1, i2.trans f1, ?_⟩
        dsimp only
        rw [i3, ← h3', List.append_assoc]

/-- The runs of error-free turns of the loop are the nodes of the layers read,
in schedule order. -/
theorem executeLoop_nodes (b : Behaviours) (hb : b.Steady)
    (run : Nat → List IService → List IService) (hrun : RunValid run) :
    ∀ (n i : Nat) (w w' : Live) (tr : List ExecEvent),
      w.dag.stopFlag = 0 → i + n ≤ w.arr.length →
      executeLoop b run n i w = (w', none, tr) →
      tr.map ExecEvent.node =
        schedule run i (((w.arr.drop i).take n).map (fun c => c.handlers)) := by
  intro n
  induction n with
  | zero =>
    intro i w w' tr _ _ h
    simp only [executeLoop, Prod.mk.injEq] at h
    obtain ⟨_, _, rfl⟩ := h
    simp [schedule]
  | succ n ih =>
    intro i w w' tr hs hlen h
    have hi : i < w.arr.length := by omega
    simp only [executeLoop, List.getElem?_eq_getElem hi] at h
    rw [List.drop_eq_getElem_cons hi, List.take_succ_cons]
    simp only [List.map_cons, schedule]
    have hnot : ¬ w.dag.stopFlag > 0 := by omega
    by_cases h1 : (w.arr[i]).handlers.length = 0
    · rw [if_pos h1] at h
      rw [List.length_eq_zero.1 h1, run_nil hrun, List.nil_append]
      exact ih (i + 1) w w' tr hs (by omega) h
    · rw [if_neg h1, if_neg hnot] at h
      obtain ⟨_, c2, _, _⟩ := runLayer_spec b (run i (w.arr[i]).handlers) w
      obtain ⟨f1, f2, _⟩ := runLayer_frame b hb (run i (w.arr[i]).handlers) w
      rcases hr : runLayer b (run i (w.arr[i]).handlers) w with ⟨d', e', t'⟩
      rw [hr] at h c2 f1 f2
      simp only at f1 f2 c2
      cases e' with
      | some e => simp at h
      | none =>
        simp only [Prod.mk.injEq] at h
        obtain ⟨h1', h2', h3'⟩ := h
        have hs' : d'.dag.stopFlag = 0 := by rw [f2]; exact hs
        have := ih (i + 1) d' _ _ hs' (by rw [f1]; omega)
          (show executeLoop b run n (i + 1) d' =
            ((executeLoop b run n (i + 1) d').1, none, (executeLoop b run n (i + 1) d').2.2)
            by rw [← h2'])
        rw [← h3', List.map_append, c2, this, f1]

theorem schedule_perm (run : Nat → List IService → List IService) (hrun : RunValid run) :
    ∀ (ls : List (List IService)) (i : Nat), (schedule run i ls).Perm ls.flatten := by
  intro ls
  induction ls with
  | nil => intro i; exact List.Perm.refl _
  | cons l ls ih =>
    intro i
    simp only [schedule, List.flatten_cons]
    exact List.Perm.append (hrun i l) (ih (i + 1))

/-- The error of a layer is the first error in the order of the runs. -/
theorem runLayer_first_error (b : Behaviours) :
    ∀ (a : List ExecEvent) (order : List IService) (w : Live) (p : ExecEvent)
      (c : List ExecEvent) (e : GoError),
      (runLayer b order w).2.2 = a ++ p :: c → (∀ ev ∈ a, SafeFn ev.result = none) →
      SafeFn p.result = some e → (runLayer b order w).2.1 = some e := by
  intro a
  induction a with
  | nil =>
    intro order w p c e htr _ hp
    cases order with
    | nil => simp [runLayer] at htr
    | cons s rest =>
      simp only [runLayer, List.nil_append, List.cons.injEq] at htr ⊢
      obtain ⟨h1, _⟩ := htr
      rw [← h1] at hp
      simp only at hp
      rw [hp]
  | cons e0 a ih =>
    intro order w p c e htr ha hp
    cases order with
    | nil => simp [runLayer] at htr
    | cons s rest =>
      simp only [runLayer, List.cons_append, List.cons.injEq] at htr ⊢
      obtain ⟨h1, h2⟩ := htr
      have h0 := ha e0 (List.mem_cons_self _ _)
      rw [← h1] at h0
      simp only at h0
      rw [h0]
      exact ih rest _ p c e h2 (fun ev hev => ha ev (List.mem_cons_of_mem _ hev)) hp

/-- `Execute` on steady behaviours when the turns for the layers `pre` run
without error and the next layer returns the error `e`. -/
theorem Execute_fails_at (f : FxDag) (b : Behaviours) (hb : b.Steady)
    (run : Nat → List IService → List IService)
    (hrun : RunValid run) (pre post : List operatorCollection) (L : operatorCollection)
    (w1 w2 : Live) (e : GoError) (tr1 tr2 : List ExecEvent)
    (hstop : f.stopFlag = 0) (hlayers : f.wList = pre ++ L :: post)
    (hpre : executeLoop b run pre.length 0 f.live = (w1, none, tr1))
    (hfail : runLayer b (run pre.length L.handlers) w1 = (w2, some e, tr2)) :
    f.Execute b run = ({ w2.dag with stopFlag := 0 }, some e, tr1 ++ tr2) ∧
    Chained b f.live (tr1 ++ tr2) w2 ∧
    (tr1.map ExecEvent.node).Perm (pre.map (fun c => c.handlers)).flatten ∧
    (tr2.map ExecEvent.node).Perm L.handlers := by
  have harr : f.live.arr = pre ++ L :: post := hlayers
  have hlen : 0 + pre.length ≤ f.live.arr.length := by rw [harr]; simp
  obtain ⟨hs1, ha1, happ⟩ :=
    executeLoop_append b hb run pre.length (post.length + 1) 0 f.live w1 tr1 hstop hlen hpre
  obtain ⟨c1, c2, _, _⟩ := runLayer_spec b (run pre.length L.handlers) w1
  rw [hfail] at c1 c2
  simp only at c1 c2
  have hLne : ¬ L.handlers.length = 0 := by
    intro h0
    rw [List.length_eq_zero.1 h0, run_nil hrun] at hfail
    simp [runLayer] at hfail
  have hnot : ¬ w1.dag.stopFlag > 0 := by omega
  have hget : w1.arr[pre.length]? = some L := by
    rw [ha1, harr, List.getElem?_append_right (Nat.le_refl _), Nat.sub_self]
    exact List.getElem?_cons_zero
  have hhead : executeLoop b run (post.length + 1) (0 + pre.length) w1 = (w2, some e, tr2) := by
    simp only [executeLoop, Nat.zero_add, hget, if_neg hLne, if_neg hnot, hfail]
  rw [hhead] at happ
  have hch1 : Chained b f.live tr1 w1 := by
    have := executeLoop_chained b run pre.length 0 f.live
    rw [hpre] at this
    exact this
  have hwl : ¬ f.wList.length = 0 := by rw [hlayers]; simp
  have hfl : f.wList.length = pre.length + (post.length + 1) := by rw [hlayers]; simp
  refine ⟨?_, (Chained.append tr1 tr2 f.live w2).2 ⟨w1, hch1, c1⟩, ?_, ?_⟩
  · unfold FxDag.Execute
    rw [if_neg hwl, hfl, happ]
  · rw [executeLoop_nodes b hb run hrun pre.length 0 f.live w1 tr1 hstop hlen hpre, harr]
    simp only [List.drop_zero, List.take_left']
    exact schedule_perm run hrun _ 0
  · rw [c2]; exact hrun _ _

theorem produce_ne_after (T x y : List ExecEvent) (ev : ExecEvent)
    (hnd : ((T.map ExecEvent.node).map IService.produce).Nodup) (hT : T = x ++ ev :: y) :
    ∀ e ∈ y, e.node.produce ≠ ev.node.produce := by
  subst hT
  simp only [List.map_append, List.map_cons] at hnd
  have h2 := (List.nodup_cons.1 (List.Nodup.of_append_right hnd)).1
  intro e he heq
  exact h2 (List.mem_map.2 ⟨e.node, List.mem_map.2 ⟨e, he, rfl⟩, heq⟩)

theorem exFailSecond_steady : exFailSecond.Steady :=
  ⟨fun _ _ => ⟨rfl, rfl, rfl, rfl⟩, fun _ _ _ => ⟨rfl, rfl, rfl, rfl⟩⟩

theorem exPanicSecond_steady : exPanicSecond.Steady :=
  ⟨fun _ _ => ⟨rfl, rfl, rfl, rfl⟩, fun _ _ _ => ⟨rfl, rfl, rfl, rfl⟩⟩

theorem exBehaviours_steady : exBehaviours.Steady :=
  ⟨fun _ _ => ⟨rfl, rfl, rfl, rfl⟩, fun _ _ _ => ⟨rfl, rfl, rfl, rfl⟩⟩

/-- C12, as stated, fails when a behaviour writes the graph it is handed. On
the three-layer plan of `exChain` with the stop flag clear, the handler of `A`
calls `dag.Stop()` and returns a value, and the handler of `B` returns an error:
the first turn of the loop runs without error and the run of the second layer
on the graph it leaves gives the error, so the second layer is the first with a
node whose execution returns an error; but `Execute` finds the stop flag set
before the second layer, returns nil and has run `A` only. -/
theorem Execute_fail_fast_counterexample :
    RunValid runStored ∧ exChain.stopFlag = 0 ∧
    exChain.wList = wrap [[newServiceT 1 [] "A" true]] ++
      { handlers := [newServiceT 2 ["A"] "B" true], op := fxOpOr } ::
        wrap [[newServiceT 3 ["B"] "C" true]] ∧
    (executeLoop exStopThenFail runStored 1 0 exChain.live).2.1 = none ∧
    (runLayer exStopThenFail (runStored 1 [newServiceT 2 ["A"] "B" true])
      (executeLoop exStopThenFail runStored 1 0 exChain.live).1).2.1 =
        some (GoError.returned 7) ∧
    (exChain.Execute exStopThenFail runStored).2.1 = none ∧
    (exChain.Execute exStopThenFail runStored).2.2.map ExecEvent.node =
      [newServiceT 1 [] "A" true] := by
  refine ⟨runStored_valid, rfl, rfl, by decide, by decide, by decide, by decide⟩

/-- C12 (fail-fast across layers), amended: for behaviours that leave the plan
being read, the stop flag and the value tiers as they find them. With the stop
flag clear, when the turns of the loop for the layers before layer `i` run
without error and the run of layer `i` on the graph they leave gives the error
`e`, `Execute` returns `e`, an error of a node of layer `i`; the runs made are
those of every node of the layers before `i` and of layer `i`, so no node of a
later layer is run and the produced tier is as layer `i` left it; and what a
node of an earlier layer left in the produced tier is found by `Load`
afterwards, with the same value when the nodes run produce distinct keys. -/
theorem Execute_fail_fast (f : FxDag) (b : Behaviours)
    (run : Nat → List IService → List IService) (hb : b.Steady) (hrun : RunValid run)
    (pre post : List operatorCollection) (L : operatorCollection)
    (w1 w2 : Live) (e : GoError) (tr1 tr2 : List ExecEvent)
    (hstop : f.stopFlag = 0) (hlayers : f.wList = pre ++ L :: post)
    (hpre : executeLoop b run pre.length 0 f.live = (w1, none, tr1))
    (hfail : runLayer b (run pre.length L.handlers) w1 = (w2, some e, tr2)) :
    (f.Execute b run).2.1 = some e ∧
    (∃ ev ∈ tr2, ev.node ∈ L.handlers ∧ SafeFn ev.result = some e) ∧
    (f.Execute b run).2.2 = tr1 ++ tr2 ∧
    (tr1.map ExecEvent.node).Perm (pre.map (fun c => c.handlers)).flatten ∧
    (tr2.map ExecEvent.node).Perm L.handlers ∧
    (f.Execute b run).1.val = w2.dag.val ∧
    (∀ ev ∈ tr1, ∀ k, ((ev.node.execute b ev.seen).1.dag.val.get k).2 = true →
      ((f.Execute b run).1.Load k).2 = true) ∧
    ((((pre.map (fun c => c.handlers)).flatten ++ L.handlers).map IService.produce).Nodup →
      ∀ ev ∈ tr1, ∀ v, (ev.node.execute b ev.seen).1.dag.val.get ev.node.produce = (v, true) →
        (f.Execute b run).1.Load ev.node.produce = (v, true)) := by
  obtain ⟨hE, hch, hp1, hp2⟩ :=
    Execute_fails_at f b hb run hrun pre post L w1 w2 e tr1 tr2 hstop hlayers hpre hfail
  have herr : ∃ ev ∈ tr2, ev.node ∈ L.handlers ∧ SafeFn ev.result = some e := by
    obtain ⟨_, _, _, c4⟩ := runLayer_spec b (run pre.length L.handlers) w1
    rw [hfail] at c4
    obtain ⟨ev, hev, hr⟩ := c4 e rfl
    exact ⟨ev, hev, hp2.mem_iff.1 (List.mem_map.2 ⟨ev, hev, rfl⟩), hr⟩
  refine ⟨by rw [hE], herr, by rw [hE], hp1, hp2, by rw [hE], ?_, ?_⟩
  · intro ev hev k hk
    obtain ⟨p, q, hpq⟩ := List.append_of_mem hev
    have hT : tr1 ++ tr2 = p ++ ev :: (q ++ tr2) := by rw [hpq]; simp
    rw [hT] at hch
    rw [hE]
    exact Load_found_of_get _ k (Chained.found_after hb p (q ++ tr2) ev f.live w2 k hch hk)
  · intro hnd ev hev v hv
    obtain ⟨p, q, hpq⟩ := List.append_of_mem hev
    have hT : tr1 ++ tr2 = p ++ ev :: (q ++ tr2) := by rw [hpq]; simp
    have hndT : (((tr1 ++ tr2).map ExecEvent.node).map IService.produce).Nodup := by
      rw [List.map_append]
      exact ((List.Perm.append hp1 hp2).map _).nodup_iff.2 hnd
    have hne := produce_ne_after (tr1 ++ tr2) p (q ++ tr2) ev hndT hT
    rw [hT] at hch
    rw [hE]
    apply Load_of_get
    show w2.dag.val.get ev.node.produce = (v, true)
    rw [Chained.get_after hb p (q ++ tr2) ev f.live w2 _ hch hne]
    exact hv

/-- C12, amended, at the three-layer graph `exChain` whose second layer fails. -/
theorem Execute_fail_fast_witness :
    exFailSecond.Steady ∧ RunValid runStored ∧ exChain.stopFlag = 0 ∧
    exChain.wList = wrap [[newServiceT 1 [] "A" true]] ++
      { handlers := [newServiceT 2 ["A"] "B" true], op := fxOpOr } ::
        wrap [[newServiceT 3 ["B"] "C" true]] ∧
    (exChain.Execute exFailSecond runStored).2.1 = some (GoError.returned 7) ∧
    (exChain.Execute exFailSecond runStored).2.2.map ExecEvent.node =
      [newServiceT 1 [] "A" true, newServiceT 2 ["A"] "B" true] ∧
    (exChain.Execute exFailSecond runStored).1.Load "A" = (GoAny.val "int" 1, true) ∧
    (exChain.Execute exFailSecond runStored).1.Load "C" = (GoAny.nil, false) :=
  ⟨exFailSecond_steady, runStored_valid, rfl, rfl,
    (Execute_fail_fast exChain exFailSecond runStored exFailSecond_steady runStored_valid
      (wrap [[newServiceT 1 [] "A" true]]) (wrap [[newServiceT 3 ["B"] "C" true]])
      { handlers := [newServiceT 2 ["A"] "B" true], op := fxOpOr }
      (executeLoop exFailSecond runStored 1 0 exChain.live).1
      (runLayer exFailSecond [newServiceT 2 ["A"] "B" true]
        (executeLoop exFailSecond runStored 1 0 exChain.live).1).1
      (GoError.returned 7)
      (executeLoop exFailSecond runStored 1 0 exChain.live).2.2
      (runLayer exFailSecond [newServiceT 2 ["A"] "B" true]
        (executeLoop exFailSecond runStored 1 0 exChain.live).1).2.2
      rfl rfl (by decide) (by decide)).1,
    by decide, by decide, by decide⟩

theorem exChain_drawn :
    FxDag.Draw { exChain with wList := [] } RangeOrder.stored = some (exChain, none) := by
  decide

theorem exTrio_drawn :
    FxDag.Draw { exTrio with wList := [] } RangeOrder.stored = some (exTrio, none) := by
  decide

theorem exFan_drawn :
    FxDag.Draw { exFan with wList := [] } RangeOrder.stored = some (exFan, none) := by
  decide

/-- C13, as stated, fails when a behaviour writes the graph it is handed. On
the two-layer plan of `exFan` with the stop flag clear, the handler of `A` calls
`dag.Stop()` and returns a value; in the second layer the handler of `B` panics
and the handler of `C` returns a value, so one node of that layer panics and no
other fails. But `Execute` finds the stop flag set before the second layer: it
returns nil, not the panic error, it has run `A` only, and the produced tier
holds no value for the sibling `C`. -/
theorem Execute_panic_counterexample :
    RunValid runStored ∧ exFan.stopFlag = 0 ∧
    exFan.wList = wrap [[newServiceT 1 [] "A" true]] ++
      [{ handlers := [newServiceT 2 ["A"] "B" true, newServiceT 3 ["A"] "C" true],
         op := fxOpOr }] ∧
    (executeLoop exStopThenPanic runStored 1 0 exFan.live).2.1 = none ∧
    (runLayer exStopThenPanic
      (runStored 1 [newServiceT 2 ["A"] "B" true, newServiceT 3 ["A"] "C" true])
      (executeLoop exStopThenPanic runStored 1 0 exFan.live).1).2.2.map ExecEvent.result =
        [FnResult.panicked "boom", FnResult.returned none] ∧
    (exFan.Execute exStopThenPanic runStored).2.1 = none ∧
    (exFan.Execute exStopThenPanic runStored).2.2.map ExecEvent.node =
      [newServiceT 1 [] "A" true] ∧
    (exFan.Execute exStopThenPanic runStored).1.val.get "C" = (GoAny.nil, false) := by
  refine ⟨runStored_valid, rfl, rfl, by decide, by decide, by decide, by decide, by decide⟩

/-- C13 (panic containment), amended: for behaviours that leave the plan being
read, the stop flag and the value tiers as they find them. `SafeFn` returns the
error of a function that returns and the error `panic: v` for one that panics
with `v`. With the stop flag clear, when the turns of the loop for the layers
before a layer run without error and in the run of that layer one node panics
with `v` while every other node returns nil, `Execute` returns the error
`panic: v`; every node of the layer is run; and what a sibling left in the
produced tier under its key is there when `Execute` returns (the nodes of the
layer produce distinct keys): for a `serviceT` sibling that stores output the
value its handler returned, for a sibling made of a reflected function that
stores output and has two results the first result of the function. -/
theorem Execute_panic (f : FxDag) (b : Behaviours)
    (run : Nat → List IService → List IService) (hb : b.Steady) (hrun : RunValid run)
    (pre post : List operatorCollection) (L : operatorCollection)
    (w1 w2 : Live) (r : Option GoError) (tr1 a c : List ExecEvent) (p : ExecEvent) (v : String)
    (hstop : f.stopFlag = 0) (hlayers : f.wList = pre ++ L :: post)
    (hpre : executeLoop b run pre.length 0 f.live = (w1, none, tr1))
    (hL : runLayer b (run pre.length L.handlers) w1 = (w2, r, a ++ p :: c))
    (hpanic : p.result = FnResult.panicked v)
    (hothers : ∀ ev ∈ a ++ c, ev.result = FnResult.returned none)
    (hnd : (L.handlers.map IService.produce).Nodup) :
    (∀ err, SafeFn (FnResult.returned err) = err) ∧
    SafeFn (FnResult.panicked v) = some (GoError.panic v) ∧
    (GoError.panic v).text = "panic: " ++ v ∧
    f.Execute b run =
      ({ w2.dag with stopFlag := 0 }, some (GoError.panic v), tr1 ++ (a ++ p :: c)) ∧
    ((a ++ p :: c).map ExecEvent.node).Perm L.handlers ∧
    (∀ ev ∈ a ++ c, ∀ x, (ev.node.execute b ev.seen).1.dag.val.get ev.node.produce = (x, true) →
      (f.Execute b run).1.val.get ev.node.produce = (x, true)) ∧
    (∀ ev ∈ a ++ c, ev.node.kind = SvcKind.typed → ev.node.pd = true →
      ∀ x, (b.handler ev.node.fn ev.seen).2 = Outcome.ret x none →
        (f.Execute b run).1.val.get ev.node.produce = (x, true)) ∧
    (∀ ev ∈ a ++ c, ev.node.kind = SvcKind.reflected → ev.node.pd = true →
      1 < b.reflOut ev.node.fn →
      ∀ x, (b.reflCall ev.node.fn ev.seen (service.params b ev.node ev.seen.dag)).2 =
          Outcome.ret x none →
        (f.Execute b run).1.val.get ev.node.produce = (x, true)) := by
  have hr : r = some (GoError.panic v) := by
    have h1 := runLayer_first_error b a (run pre.length L.handlers) w1 p c (GoError.panic v)
      (by rw [hL]) (fun ev hev => by rw [hothers ev (List.mem_append_left _ hev)]; rfl)
      (by rw [hpanic]; rfl)
    rw [hL] at h1
    exact h1
  subst hr
  obtain ⟨hE, _, _, hp2⟩ := Execute_fails_at f b hb run hrun pre post L w1 w2 (GoError.panic v)
    tr1 (a ++ p :: c) hstop hlayers hpre hL
  obtain ⟨c1, _, _, _⟩ := runLayer_spec b (run pre.length L.handlers) w1
  rw [hL] at c1
  simp only at c1
  have hndT : (((a ++ p :: c).map ExecEvent.node).map IService.produce).Nodup :=
    (hp2.map _).nodup_iff.2 hnd
  have key : ∀ ev ∈ a ++ c, ∀ x,
      (ev.node.execute b ev.seen).1.dag.val.get ev.node.produce = (x, true) →
      (f.Execute b run).1.val.get ev.node.produce = (x, true) := by
    intro ev hev x hx
    have hmem : ev ∈ a ++ p :: c := by
      rcases List.mem_append.1 hev with h | h
      · exact List.mem_append_left _ h
      · exact List.mem_append_right _ (List.mem_cons_of_mem _ h)
    obtain ⟨y, z, hyz⟩ := List.append_of_mem hmem
    have hne := produce_ne_after (a ++ p :: c) y z ev hndT hyz
    rw [hyz] at c1
    rw [hE]
    show w2.dag.val.get ev.node.produce = (x, true)
    rw [Chained.get_after hb y z ev w1 w2 _ c1 hne]
    exact hx
  refine ⟨fun _ => rfl, rfl, rfl, hE, hp2, key, ?_, ?_⟩
  · intro ev hev hkind hpd x hx
    apply key ev hev x
    have : ev.node.execute b ev.seen =
        ((b.handler ev.node.fn ev.seen).1.store ev.node.produce x, FnResult.returned none) := by
      unfold IService.execute
      rw [hkind]
      exact (serviceT_execute_spec b ev.node ev.seen).2.1 x hx hpd
    rw [this]
    exact dagValue.get_set_same _ _ _
  · intro ev hev hkind hpd hout x hx
    apply key ev hev x
    have : ev.node.execute b ev.seen =
        ((b.reflCall ev.node.fn ev.seen (service.params b ev.node ev.seen.dag)).1.store
          ev.node.produce x, FnResult.returned none) := by
      unfold IService.execute
      rw [hkind]
      exact (executeReflect_spec_pd b ev.node ev.seen hpd).2.1 x hx hout
    rw [this]
    exact dagValue.get_set_same _ _ _

/-- C13, amended, at the one-layer graph `exTrio`: the handler of `B` panics,
the reflected function of `A` and the handler of `C` return a value, and both
values are in the produced tier when `Execute` returns the panic error. -/
theorem Execute_panic_witness :
    exPanicSecond.Steady ∧ RunValid runStored ∧ exTrio.stopFlag = 0 ∧
    (exTrio.Execute exPanicSecond runStored).2.1 = some (GoError.panic "boom") ∧
    (exTrio.Execute exPanicSecond runStored).2.2.map ExecEvent.node =
      [newService 1 [] "A" true, newServiceT 2 [] "B" true, newServiceT 3 [] "C" true] ∧
    (exTrio.Execute exPanicSecond runStored).2.2.map ExecEvent.result =
      [FnResult.returned none, FnResult.panicked "boom", FnResult.returned none] ∧
    (exTrio.Execute exPanicSecond runStored).1.val.get "A" = (GoAny.val "int" 1, true) ∧
    (exTrio.Execute exPanicSecond runStored).1.val.get "C" = (GoAny.val "int" 3, true) :=
  ⟨exPanicSecond_steady, runStored_valid, rfl,
    by
      have h := (Execute_panic exTrio exPanicSecond runStored exPanicSecond_steady
        runStored_valid [] []
        { handlers := [newService 1 [] "A" true, newServiceT 2 [] "B" true,
            newServiceT 3 [] "C" true], op := fxOpOr }
        exTrio.live
        (runLayer exPanicSecond [newService 1 [] "A" true, newServiceT 2 [] "B" true,
          newServiceT 3 [] "C" true] exTrio.live).1
        (runLayer exPanicSecond [newService 1 [] "A" true, newServiceT 2 [] "B" true,
          newServiceT 3 [] "C" true] exTrio.live).2.1
        []
        [{ node := newService 1 [] "A" true, seen := exTrio.live,
           result := FnResult.returned none }]
        (runLayer exPanicSecond [newServiceT 3 [] "C" true]
          (exTrio.live.store "A" (GoAny.val "int" 1))).2.2
        { node := newServiceT 2 [] "B" true, seen := exTrio.live.store "A" (GoAny.val "int" 1),
          result := FnResult.panicked "boom" }
        "boom" rfl rfl rfl (by decide) rfl (by decide) (by decide)).2.2.2.1
      rw [h],
    by decide, by decide, by decide, by decide⟩

/-- A `serviceT` that stores output, run with a handler that succeeds, stores
the value of the handler in the graph the handler left and returns nil. -/
theorem execute_typed_ok (b : Behaviours) (s : IService) (w : Live) (x : GoAny)
    (hk : s.kind = SvcKind.typed) (hpd : s.pd = true)
    (hx : (b.handler s.fn w).2 = Outcome.ret x none) :
    s.execute b w = ((b.handler s.fn w).1.store s.produce x, FnResult.returned none) := by
  unfold IService.execute
  rw [hk]
  exact (serviceT_execute_spec b s w).2.1 x hx hpd

/-- A layer of `serviceT` nodes that store output, with handlers that always
succeed, runs without error. -/
theorem runLayer_ok (b : Behaviours)
    (hok : ∀ id w, ∃ v, (b.handler id w).2 = Outcome.ret v none) :
    ∀ (order : List IService) (w : Live),
      (∀ s ∈ order, s.kind = SvcKind.typed ∧ s.pd = true) →
      (runLayer b order w).2.1 = none := by
  intro order
  induction order with
  | nil => intro w _; rfl
  | cons s rest ih =>
    intro w hall
    obtain ⟨x, hx⟩ := hok s.fn w
    obtain ⟨hk, hpd⟩ := hall s (List.mem_cons_self _ _)
    simp only [runLayer, execute_typed_ok b s w x hk hpd hx, SafeFn]
    exact ih _ (fun y hy => hall y (List.mem_cons_of_mem _ hy))

theorem executeLoop_ok (b : Behaviours) (hb : b.Steady)
    (run : Nat → List IService → List IService)
    (hrun : RunValid run) (hok : ∀ id w, ∃ v, (b.handler id w).2 = Outcome.ret v none) :
    ∀ (n i : Nat) (w : Live),
      (∀ c ∈ w.arr, ∀ s ∈ c.handlers, s.kind = SvcKind.typed ∧ s.pd = true) →
      (executeLoop b run n i w).2.1 = none := by
  intro n
  induction n with
  | zero => intro i w _; rfl
  | succ n ih =>
    intro i w hall
    simp only [executeLoop]
    cases hv : w.arr[i]? with
    | none => rfl
    | some v =>
      dsimp only
      have hvm : v ∈ w.arr := List.getElem?_mem hv
      split_ifs with h1 h2
      · exact ih (i + 1) w hall
      · rfl
      · have hl := runLayer_ok b hok (run i v.handlers) w
          (fun s hs => hall v hvm s ((hrun i v.handlers).mem_iff.1 hs))
        obtain ⟨f1, _, _⟩ := runLayer_frame b hb (run i v.handlers) w
        rcases hr : runLayer b (run i v.handlers) w with ⟨d', e', t'⟩
        rw [hr] at hl f1
        simp only at hl f1
        subst hl
        exact ih (i + 1) d' (by rw [f1]; exact hall)

/-- In the schedule of a plan whose nodes are pairwise distinct, a node of an
earlier layer comes before a node of a later layer. -/
theorem schedule_before (run : Nat → List IService → List IService) (hrun : RunValid run) :
    ∀ (ls : List (List IService)) (i j j' : Nat) (l l' : List IService) (N n' : IService)
      (P Q : List IService),
      (schedule run i ls).Nodup → ls[j]? = some l → ls[j']? = some l' → j' < j →
      N ∈ l → n' ∈ l' → schedule run i ls = P ++ N :: Q → n' ∈ P := by
  intro ls
  induction ls with
  | nil => intro i j j' l l' N n' P Q _ hl; simp at hl
  | cons a rest ih =>
    intro i j j' l l' N n' P Q hnd hl hl' hjj hN hn' hsplit
    simp only [schedule] at hnd hsplit
    cases j with
    | zero => omega
    | succ j =>
      simp only [List.getElem?_cons_succ] at hl
      have hNrest : N ∈ schedule run (i + 1) rest :=
        (schedule_perm run hrun rest (i + 1)).mem_iff.2
          (List.mem_flatten.2 ⟨l, List.getElem?_mem hl, hN⟩)
      have hNa : N ∉ run i a := fun h => (List.nodup_append.1 hnd).2.2 h hNrest
      have key : ∃ a', P = run i a ++ a' ∧ schedule run (i + 1) rest = a' ++ N :: Q := by
        rcases List.append_eq_append_iff.1 hsplit with ⟨a', h1, h2⟩ | ⟨c', h1, h2⟩
        · exact ⟨a', h1, h2⟩
        · cases c' with
          | nil =>
            simp only [List.nil_append] at h2
            simp only [List.append_nil] at h1
            exact ⟨[], by rw [h1]; simp, by rw [← h2]; simp⟩
          | cons x c' =>
            simp only [List.cons_append, List.cons.injEq] at h2
            exfalso
            apply hNa
            rw [h1, h2.1]
            exact List.mem_append_right _ (List.mem_cons_self _ _)
      obtain ⟨a', hP, hrest⟩ := key
      rw [hP]
      cases j' with
      | zero =>
        simp only [List.getElem?_cons_zero, Option.some.injEq] at hl'
        subst hl'
        exact List.mem_append_left _ ((hrun i a).mem_iff.2 hn')
      | succ j' =>
        simp only [List.getElem?_cons_succ] at hl'
        exact List.mem_append_right _
          (ih (i + 1) j j' l l' N n' a' Q (List.Nodup.of_append_right hnd) hl hl' (by omega)
            hN hn' hrest)

theorem Execute_eq_loop (f : FxDag) (b : Behaviours) (run : Nat → List IService → List IService) :
    f.Execute b run =
      ({ (executeLoop b run f.wList.length 0 f.live).1.dag with stopFlag := 0 },
        (executeLoop b run f.wList.length 0 f.live).2.1,
        (executeLoop b run f.wList.length 0 f.live).2.2) := by
  unfold FxDag.Execute
  by_cases h : f.wList.length = 0
  · rw [if_pos h, h]; rfl
  · rw [if_neg h]

theorem get_of_empty (f : FxDag) (h : f.val.val = []) (k : String) :
    f.val.get k = (GoAny.nil, false) := by
  simp [dagValue.get, h, GoMap.find]

theorem Load_of_not_produced (f : FxDag) (k : String) (h : f.val.get k = (GoAny.nil, false)) :
    f.Load k = f.initVal.get k := by
  simp [FxDag.Load, FxDag.getVal, h]

/-- What each node finds when it is invoked, for a plan drawn from a registry
of `serviceT` nodes that store output, run on steady handlers that always
succeed from an empty produced tier with the stop flag clear. -/
theorem ready_of_reach (f0 f : FxDag) (b : Behaviours) (hb : b.Steady)
    (run : Nat → List IService → List IService) (hreg : f0.RegistryOK)
    (htyped : ∀ p ∈ f0.fnService, p.2.kind = SvcKind.typed ∧ p.2.pd = true)
    (hval : f.val.val = []) (hrun : RunValid run)
    (hfi : f.initVal = f0.initVal)
    (hr : Reach f0 f0.fnService f.layers []) (hs : f.stopFlag = 0)
    (hok : ∀ id w, ∃ v, (b.handler id w).2 = Outcome.ret v none) :
    (executeLoop b run f.wList.length 0 f.live).2.1 = none ∧
    ((executeLoop b run f.wList.length 0 f.live).2.2.map ExecEvent.node).Perm
      (f0.fnService.map Prod.snd) ∧
    ∀ p ev q, (executeLoop b run f.wList.length 0 f.live).2.2 = p ++ ev :: q →
      ∀ d ∈ ev.node.dependence,
        (ev.seen.dag.Load d).2 = true ∧
        (f0.fnService.has d = false → ev.seen.dag.Load d = f0.initVal.get d) ∧
        (∀ n', f0.fnService.find d = some n' →
          ∃ ev' ∈ p, ev'.node = n' ∧
            ∃ x, (b.handler n'.fn ev'.seen).2 = Outcome.ret x none ∧
              ev.seen.dag.Load d = (x, true)) := by
  have hp := hr.perm
  simp only [List.map_nil, List.append_nil] at hp
  have hall : ∀ c ∈ f.live.arr, ∀ s ∈ c.handlers, s.kind = SvcKind.typed ∧ s.pd = true := by
    intro c hc s hsm
    have : s ∈ f.layers.flatten :=
      List.mem_flatten.2 ⟨c.handlers, List.mem_map.2 ⟨c, hc, rfl⟩, hsm⟩
    obtain ⟨p, hpm, hps⟩ := List.mem_map.1 (hp.mem_iff.1 this)
    rw [← hps]; exact htyped p hpm
  have herr := executeLoop_ok b hb run hrun hok f.wList.length 0 f.live hall
  have hnodes : (executeLoop b run f.wList.length 0 f.live).2.2.map ExecEvent.node =
      schedule run 0 f.layers := by
    have h1 := executeLoop_nodes b hb run hrun f.wList.length 0 f.live _ _ hs
      (by simp [FxDag.live]) (show executeLoop b run f.wList.length 0 f.live =
        ((executeLoop b run f.wList.length 0 f.live).1, none,
          (executeLoop b run f.wList.length 0 f.live).2.2) by rw [← herr])
    rw [h1]
    simp [FxDag.live, FxDag.layers]
  have hch := executeLoop_chained b run f.wList.length 0 f.live
  have hsp := schedule_perm run hrun f.layers 0
  have hperm : ((executeLoop b run f.wList.length 0 f.live).2.2.map ExecEvent.node).Perm
      (f0.fnService.map Prod.snd) := by rw [hnodes]; exact hsp.trans hp
  have hnd : (schedule run 0 f.layers).Nodup :=
    (hsp.trans hp).nodup_iff.2 hreg.nodup_nodes
  have hkeys : (f0.fnService.map Prod.snd).map IService.produce = f0.fnService.keys := by
    rw [List.map_map]
    exact List.map_congr_left (fun p hpm => hreg.2 p hpm)
  have hndp : (((executeLoop b run f.wList.length 0 f.live).2.2.map ExecEvent.node).map
      IService.produce).Nodup := by
    have h1 : ((f0.fnService.map Prod.snd).map IService.produce).Nodup := by
      rw [hkeys]; exact hreg.1
    exact (hperm.map _).nodup_iff.2 h1
  refine ⟨herr, hperm, ?_⟩
  intro p ev q htr d hd
  rw [htr] at hch hnodes hndp hperm
  obtain ⟨m, hcp, hcev⟩ := (Chained.append p (ev :: q) f.live _).1 hch
  have hseen : ev.seen = m := hcev.1
  have hmi : m.dag.initVal = f0.initVal := (Chained.frame hb p f.live m hcp).2.2.trans hfi
  -- every run's node is a registered node, under the key it produces
  have hregd : ∀ e ∈ p ++ ev :: q, (e.node.produce, e.node) ∈ f0.fnService := by
    intro e he
    obtain ⟨x, hx, hxe⟩ := List.mem_map.1 (hperm.mem_iff.1 (List.mem_map.2 ⟨e, he, rfl⟩))
    rw [← hxe, hreg.2 x hx]; exact hx
  have hNmem : ev.node ∈ f.layers.flatten := by
    apply hsp.mem_iff.1
    rw [← hnodes]
    exact List.mem_map.2 ⟨ev, List.mem_append_right _ (List.mem_cons_self _ _), rfl⟩
  obtain ⟨l, hlm, hNl⟩ := List.mem_flatten.1 hNmem
  obtain ⟨j, hj⟩ := List.mem_iff_getElem?.1 hlm
  have hndp' : ((p.map ExecEvent.node).map IService.produce).Nodup := by
    simp only [List.map_append] at hndp
    exact List.Nodup.of_append_left hndp
  by_cases hhas : f0.fnService.has d = true
  · obtain ⟨j', l', n', hjj, hl', hfind, hn'⟩ := hr.layering hreg.1 j l hj ev.node hNl d hd hhas
    have hmemP : n' ∈ p.map ExecEvent.node :=
      schedule_before run hrun f.layers 0 j j' l l' ev.node n' (p.map ExecEvent.node)
        (q.map ExecEvent.node) hnd hj hl' hjj hNl hn'
        (by rw [← hnodes, List.map_append, List.map_cons])
    obtain ⟨ev', hev', hevn⟩ := List.mem_map.1 hmemP
    obtain ⟨x, y, hxy⟩ := List.append_of_mem hev'
    have hne := produce_ne_after p x y ev' hndp' hxy
    have hn'reg : (d, n') ∈ f0.fnService := GoMap.mem_of_find _ d n' hfind
    have hprod : ev'.node.produce = d := by rw [hevn]; exact hreg.2 (d, n') hn'reg
    obtain ⟨hk, hpd⟩ := htyped (d, n') hn'reg
    obtain ⟨v, hv⟩ := hok n'.fn ev'.seen
    have hexec := execute_typed_ok b ev'.node ev'.seen v (by rw [hevn]; exact hk)
      (by rw [hevn]; exact hpd) (by rw [hevn]; exact hv)
    have hget : m.dag.val.get d = (v, true) := by
      rw [hxy] at hcp
      have := Chained.get_after hb x y ev' f.live m ev'.node.produce hcp hne
      rw [hprod] at this
      rw [this, hexec, ← hprod]
      exact dagValue.get_set_same _ _ _
    have hload : ev.seen.dag.Load d = (v, true) := by
      rw [hseen]; exact Load_of_get m.dag d v hget
    refine ⟨by rw [hload], fun hno => ?_, fun n'' hn'' => ?_⟩
    · rw [hhas] at hno; exact Bool.noConfusion hno
    · rw [hfind] at hn''
      cases hn''
      exact ⟨ev', hev', hevn, v, hv, hload⟩
  · have hno : f0.fnService.has d = false := by simpa using hhas
    have hk := hr.known l hlm ev.node hNl d hd
    have hinit : (f0.initVal.get d).2 = true := by
      rcases (unknown_eq_false_iff f0 d).1 hk with h1 | h1
      · exact absurd h1 hhas
      · exact h1
    have hget : m.dag.val.get d = (GoAny.nil, false) := by
      rw [Chained.get_other hb p f.live m d hcp]
      · exact get_of_empty f hval d
      · intro e he hed
        have := hregd e (List.mem_append_left _ he)
        rw [hed] at this
        exact hhas ((GoMap.has_iff_mem_keys _ d).2 (GoMap.mem_keys_of_mem _ _ this))
    have hload : ev.seen.dag.Load d = f0.initVal.get d := by
      rw [hseen, Load_of_not_produced m.dag d hget, hmi]
    refine ⟨by rw [hload]; exact hinit, fun _ => hload, fun n' hn' => ?_⟩
    exact absurd (GoMap.has_of_find _ d n' hn') hhas

/-- C15, as stated, fails when a behaviour writes the graph it is handed. On
the drawn graph `exABdrawn` (`A` without dependency, `B` depending on `A`, both
registered by `ProvideByName`, empty produced tier) every handler succeeds; the
handler of `A` first registers `Z` and `Y`, which depends on `Z`, by
`ProvideByName` and calls `Draw`. That `Draw` writes its plan `[A, Z], [B, Y]`
into the array `Execute` is reading, so the second turn of the loop runs `B` and
`Y`; `Execute` returns nil, and `Y` was invoked on a graph in which `Load("Z")`
finds nothing, `Z` never having run. -/
theorem Execute_dependencies_ready_counterexample :
    exAB.RegistryOK ∧ (∀ p ∈ exAB.fnService, p.2.kind = SvcKind.typed ∧ p.2.pd = true) ∧
    exAB.val.val = [] ∧ RangeOrder.stored.Valid ∧ RunValid runStored ∧
    exAB.Draw RangeOrder.stored = some (exABdrawn, none) ∧
    (∀ id w, ∃ v, (exReplan.handler id w).2 = Outcome.ret v none) ∧
    (exRegisterAndDraw exABdrawn.live).arr =
      wrap [[newServiceT 1 [] "A" true, newServiceT 3 [] "Z" true],
        [newServiceT 2 ["A"] "B" true, newServiceT 4 ["Z"] "Y" true]] ∧
    (exABdrawn.Execute exReplan runStored).2.1 = none ∧
    (exABdrawn.Execute exReplan runStored).2.2.map ExecEvent.node =
      [newServiceT 1 [] "A" true, newServiceT 2 ["A"] "B" true,
        newServiceT 4 ["Z"] "Y" true] ∧
    ∃ ev ∈ (exABdrawn.Execute exReplan runStored).2.2,
      ev.node = newServiceT 4 ["Z"] "Y" true ∧ "Z" ∈ ev.node.dependence ∧
      ev.seen.dag.fnService.find "Y" = some ev.node ∧
      ev.seen.dag.Load "Z" = (GoAny.nil, false) := by
  refine ⟨by decide, by decide, by decide, RangeOrder.stored_valid, runStored_valid, by decide,
    fun id w => ⟨GoAny.val "int" id, rfl⟩, by decide, by decide, by decide, by decide⟩

/-- C15 (dependencies are available when a node runs), amended: for a
non-empty registry and behaviours that leave the plan being read, the stop flag
and the value tiers as they find them. Take a registry made by `ProvideByName`
(`serviceT` nodes that store output, each under the key it produces) on a graph
with an empty produced tier, a `Draw` that returns nil and an `Execute` on
handlers that always succeed, the nodes of each layer run in any order. Then
`Execute` returns nil, with the stop flag clear every registered node is run
once, and whenever a node is invoked `Load(d)` finds every dependency key `d` of
the node: the seeded initial value when `d` is not registered, and otherwise the
value that the handler of the node registered under `d` returned in an earlier
run. On an empty registry `Draw` returns nil and leaves the graph, its stored
plan included, as it was. -/
theorem Execute_dependencies_ready (f0 f : FxDag) (b : Behaviours) (ro : RangeOrder)
    (run : Nat → List IService → List IService) (hb : b.Steady) (hreg : f0.RegistryOK)
    (htyped : ∀ p ∈ f0.fnService, p.2.kind = SvcKind.typed ∧ p.2.pd = true)
    (hval : f0.val.val = [])
    (hro : ro.Valid) (hrun : RunValid run) (hdraw : f0.Draw ro = some (f, none))
    (hok : ∀ id w, ∃ v, (b.handler id w).2 = Outcome.ret v none) :
    (f0.fnService = [] → f = f0) ∧
    (f0.fnService ≠ [] →
      (f.Execute b run).2.1 = none ∧
      (f.stopFlag = 0 →
        ((f.Execute b run).2.2.map ExecEvent.node).Perm (f.fnService.map Prod.snd)) ∧
      ∀ p ev q, (f.Execute b run).2.2 = p ++ ev :: q → ∀ d ∈ ev.node.dependence,
        (ev.seen.dag.Load d).2 = true ∧
        (f.fnService.has d = false → ev.seen.dag.Load d = f.initVal.get d) ∧
        (∀ n', f.fnService.find d = some n' →
          ∃ ev' ∈ p, ev'.node = n' ∧
            ∃ x, (b.handler n'.fn ev'.seen).2 = Outcome.ret x none ∧
              ev.seen.dag.Load d = (x, true))) := by
  refine ⟨fun h0 => (Draw_empty f0 f ro none h0 hdraw).1, fun h0 => ?_⟩
  rw [Execute_eq_loop]
  obtain ⟨hf, hr⟩ := Draw_ok f0 f ro hreg.1 hro h0 hdraw
  have hfs : f.fnService = f0.fnService := by rw [hf]
  have hfi : f.initVal = f0.initVal := by rw [hf]
  have hfv : f.val.val = [] := by rw [hf]; exact hval
  rw [hfs, hfi]
  by_cases hs : f.stopFlag = 0
  · obtain ⟨a1, a2, a3⟩ := ready_of_reach f0 f b hb run hreg htyped hfv hrun hfi hr hs hok
    exact ⟨a1, fun _ => a2, a3⟩
  · have hpos : f.live.dag.stopFlag > 0 := Nat.pos_of_ne_zero hs
    rw [executeLoop_stopped b run f.wList.length 0 f.live hpos]
    refine ⟨rfl, fun h => absurd h hs, fun p ev q htr => ?_⟩
    simp at htr

/-- C15, amended, on the graph of `TestFxDag_ExecuteHandler`: `A` without
dependency, `B` depending on `A`; the handler of `B` returns what it loads for
`A`, and that is the value the handler of `A` returned. -/
theorem Execute_dependencies_ready_witness :
    exBehaviours.Steady ∧ exAB.RegistryOK ∧ exAB.fnService ≠ [] ∧ RangeOrder.stored.Valid ∧
    RunValid runStored ∧
    exAB.Draw RangeOrder.stored = some (exABdrawn, none) ∧
    (exABdrawn.Execute exBehaviours runStored).2.1 = none ∧
    (exABdrawn.Execute exBehaviours runStored).1.Load "A" = (GoAny.val "*dag.A" 10, true) ∧
    (exABdrawn.Execute exBehaviours runStored).1.Load "B" = (GoAny.val "*dag.A" 10, true) :=
  ⟨exBehaviours_steady, by decide, by decide, RangeOrder.stored_valid, runStored_valid,
    by decide,
    ((Execute_dependencies_ready exAB exABdrawn exBehaviours RangeOrder.stored runStored
      exBehaviours_steady (by decide) (by decide) (by decide) RangeOrder.stored_valid
      runStored_valid (by decide)
      (fun id w => by
        by_cases h : id = 1
        · exact ⟨GoAny.val "*dag.A" 10, by simp [exBehaviours, h]⟩
        · exact ⟨(w.dag.Load "A").1, by simp [exBehaviours, h]⟩)).2 (by decide)).1,
    by decide, by decide⟩

end Dag
